import Mathlib

/-!
A shallow embedding of `mystl::vector` from `include/vector.h`.

Storage model.  A block of storage obtained from the allocator is a list of
slots; a slot is `some x` when it holds a constructed object of value `x` and
`none` when it is raw storage.  A pointer `Tp*` into a block is the offset of
the slot it points at, so `start_` is offset `0`, and `finish_`,
`end_of_storage_` and every `iterator` are natural numbers.

An operation either returns, throws (the source throws C strings), or has
undefined behaviour: a slot outside the block is read or written, or a loop
`first != last` can never reach `last`.

Pointer offsets and pointer differences are natural numbers.  The counter
`int i` of `uninitialized_copy` and `uninitialized_fill_n` is stepped by
`int_incr`, which is undefined past `int_max`; the other loops of the source
step pointers only.  The capacity computed on growth and the conversion `size_type(p - q)` wrap at
`2 ^ 64` (`size_t` is `unsigned long`), and `new_allocator::allocate` tests
its argument against `max_size()` as the source does.

Overloads of the source get one name each: `insert`, `insert_n`,
`insert_range` for the three `insert`s, `insert_aux`, `insert_aux_n`,
`insert_aux_range` for the helpers they call, `erase` and `erase_range` for
`erase(pos)` and `erase(first, last)`, `copy_ctor` for `vector(const vector&)`,
`operator_assign` for `operator=(const vector&)`, `range_initialize_input` and
`range_initialize_forward` for the two `range_initialize`s, `operator_eq`,
`operator_ne`, `operator_lt`, `operator_gt`, `operator_le`, `operator_ge` for the
comparisons, `range_insert_input` next to
`range_insert_forward`, `distance_input` and `distance_random_access` for the
two tagged `distance`s.
-/

namespace mystl

/-- Why an operation does not return: a `throw` (with the thrown C string) or
undefined behaviour. -/
inductive Fault where
  | thrown (what : String)
  | undefined
  deriving DecidableEq

/-- One slot of storage: `some x` is a constructed object, `none` is raw. -/
abbrev Slot (Tp : Type) := Option Tp

/-- The storage block `start_` points into. -/
abbrev Block (Tp : Type) := List (Slot Tp)

/-- Dereference for reading, `*p`. -/
def read {Tp : Type} (b : Block Tp) (p : Nat) : Except Fault (Slot Tp) :=
  match b[p]? with
  | some s => .ok s
  | none => .error .undefined

/-- Dereference for writing, `*p = s` and `new(p) Tp(s)`. -/
def write {Tp : Type} (b : Block Tp) (p : Nat) (s : Slot Tp) : Except Fault (Block Tp) :=
  if p < b.length then .ok (b.set p s) else .error .undefined

/-- Pointer subtraction `p - n`; a pointer before the start of its block is
only ever formed to be dereferenced. -/
def ptr_sub (p n : Nat) : Except Fault Nat :=
  if n ≤ p then .ok (p - n) else .error .undefined

/-- Reading the value of an element, `*it` in an expression: a raw slot holds
no value. -/
def load {Tp : Type} (b : Block Tp) (p : Nat) : Except Fault Tp :=
  match b[p]? with
  | some (some x) => .ok x
  | _ => .error .undefined

/-- A `const Tp&` argument: a reference to an object outside the block that is
written, or to slot `k` of that block. -/
inductive Ref (Tp : Type) where
  | ext (x : Tp)
  | own (k : Nat)
  deriving DecidableEq

/-- Reading through a `const Tp&`. -/
def Ref.get {Tp : Type} (b : Block Tp) : Ref Tp → Except Fault (Slot Tp)
  | .ext x => .ok (some x)
  | .own k => read b k

/-- Where the source iterators of a copy point: into the block that is
written, or into another block. -/
inductive Src (Tp : Type) where
  | same
  | other (b : Block Tp)

/-- The block the source iterators read, given the current destination. -/
def Src.block {Tp : Type} (d : Block Tp) : Src Tp → Block Tp
  | .same => d
  | .other b => b

/-- The loop of `copy`, run `k = last - first` times. -/
def copy_loop {Tp : Type} (s : Src Tp) : Nat → Block Tp → Nat → Nat → Except Fault (Block Tp × Nat)
  | 0, d, _, result => .ok (d, result)
  | k + 1, d, first, result => do
    let x ← read (s.block d) first
    let d1 ← write d result x
    copy_loop s k d1 (first + 1) (result + 1)

/-- Source function `copy(first, last, result)`: the loop runs while
`first != last`; with `last` before `first` it never stops inside the block. -/
def copy {Tp : Type} (s : Src Tp) (d : Block Tp) (first last result : Nat) :
    Except Fault (Block Tp × Nat) :=
  if first ≤ last then copy_loop s (last - first) d first result else .error .undefined

/-- The loop of `copy_backward`, run `k = last - first` times. -/
def copy_backward_loop {Tp : Type} (s : Src Tp) :
    Nat → Block Tp → Nat → Nat → Except Fault (Block Tp × Nat)
  | 0, d, _, result => .ok (d, result)
  | k + 1, d, last, result => do
    let r ← ptr_sub result 1
    let l ← ptr_sub last 1
    let x ← read (s.block d) l
    let d1 ← write d r x
    copy_backward_loop s k d1 l r

/-- Source function `copy_backward(first, last, result)`. -/
def copy_backward {Tp : Type} (s : Src Tp) (d : Block Tp) (first last result : Nat) :
    Except Fault (Block Tp × Nat) :=
  if first ≤ last then copy_backward_loop s (last - first) d last result else .error .undefined

/-- Source function `fill_n(first, n, value)`. -/
def fill_n {Tp : Type} : Block Tp → Nat → Nat → Ref Tp → Except Fault (Block Tp × Nat)
  | d, first, 0, _ => .ok (d, first)
  | d, first, n + 1, value => do
    let x ← value.get d
    let d1 ← write d first x
    fill_n d1 (first + 1) n value

/-- The largest value of `int`, the type of the counter `i` in
`uninitialized_copy` and `uninitialized_fill_n`. -/
def int_max : Nat := 2 ^ 31 - 1

/-- The step `++i` on an `int`: past `int_max` the behaviour is undefined. -/
def int_incr (i : Nat) : Except Fault Nat :=
  if i < int_max then .ok (i + 1) else .error .undefined

/-- The loop of `uninitialized_copy`, with its `int` counter `i`; `k` is the
number of rounds until `first == last`.  Each round constructs at `result + i`
and then steps `first` and `i`. -/
def uninitialized_copy_loop {Tp : Type} (s : Src Tp) :
    Nat → Block Tp → Nat → Nat → Nat → Except Fault (Block Tp × Nat)
  | 0, d, _, result, i => .ok (d, result + i)
  | k + 1, d, first, result, i => do
    let x ← read (s.block d) first
    let d1 ← write d (result + i) x
    let i1 ← int_incr i
    uninitialized_copy_loop s k d1 (first + 1) result i1

/-- Source function `uninitialized_copy(first, last, result)`. -/
def uninitialized_copy {Tp : Type} (s : Src Tp) (d : Block Tp) (first last result : Nat) :
    Except Fault (Block Tp × Nat) :=
  if first ≤ last then uninitialized_copy_loop s (last - first) d first result 0
  else .error .undefined

/-- The loop of `uninitialized_fill_n`, with its `int` counter `i`: `k` more
rounds until `i == n`.  Each round constructs at `first + i` and then steps
`i`. -/
def uninitialized_fill_n_loop {Tp : Type} :
    Nat → Block Tp → Nat → Nat → Ref Tp → Except Fault (Block Tp × Nat)
  | 0, d, first, i, _ => .ok (d, first + i)
  | k + 1, d, first, i, value => do
    let x ← value.get d
    let d1 ← write d (first + i) x
    let i1 ← int_incr i
    uninitialized_fill_n_loop k d1 first i1 value

/-- Source function `uninitialized_fill_n(first, n, value)`. -/
def uninitialized_fill_n {Tp : Type} (d : Block Tp) (first n : Nat) (value : Ref Tp) :
    Except Fault (Block Tp × Nat) :=
  uninitialized_fill_n_loop n d first 0 value

/-- The size in bytes of an element type, `sizeof(Tp)`. -/
class sizeof (Tp : Type) where
  bytes : Nat

/-- The largest value of `size_t`, written `size_type(-1)` in the source. -/
def size_type_max : Nat := 2 ^ 64 - 1

/-- Conversion to `size_type`, and the result of arithmetic in it. -/
def size_type (z : Int) : Nat := (z % 2 ^ 64).toNat

/-- Source function `new_allocator::max_size`. -/
def new_allocator.max_size (Tp : Type) [sizeof Tp] : Nat :=
  size_type_max / sizeof.bytes Tp

/-- Source function `new_allocator::allocate`: a block of `n` raw slots;
`::operator new` itself is taken to succeed. -/
def new_allocator.allocate (Tp : Type) [sizeof Tp] (n : Nat) : Except Fault (Block Tp) :=
  if n > new_allocator.max_size Tp then .error (.thrown "Out-of-memory")
  else .ok (List.replicate n none)

/-- Source function `new_allocator::construct`; the caller has read `value`. -/
def new_allocator.construct {Tp : Type} (b : Block Tp) (p : Nat) (x : Slot Tp) :
    Except Fault (Block Tp) :=
  write b p x

/-- Source function `new_allocator::destroy`: the slot is raw again. -/
def new_allocator.destroy {Tp : Type} (b : Block Tp) (p : Nat) : Except Fault (Block Tp) :=
  if p < b.length then .ok (b.set p none) else .error .undefined

/-- The argument of `::operator new` in `new_allocator::allocate`: the product
`n * sizeof(Tp)` computed in `size_t`. -/
def new_allocator.bytes_requested (Tp : Type) [sizeof Tp] (n : Nat) : Nat :=
  size_type ((n : Int) * (sizeof.bytes Tp : Int))

/-- Source function `swap(Tp&, Tp&)`: the two values after the call. -/
def swap {α : Type} (x y : α) : α × α :=
  let tmp := x
  let x := y
  let y := tmp
  (x, y)

/-- The loop of `distance(first, last, input_iterator_tag)` with its counter
`n`; `fuel` bounds the rounds. -/
def distance_input_loop : Nat → Nat → Nat → Int → Except Fault Int
  | 0, _, _, _ => .error .undefined
  | fuel + 1, first, last, n =>
    if first ≠ last then distance_input_loop fuel (first + 1) last (n + 1) else .ok n

/-- Source function `distance(first, last, input_iterator_tag)` on two positions
of one sequence; with `last` before `first` the loop never ends, and `last + 1`
rounds are enough otherwise. -/
def distance_input (first last : Nat) : Except Fault Int :=
  distance_input_loop (last + 1) first last 0

/-- Source function `distance(first, last, random_access_iterator_tag)`. -/
def distance_random_access (first last : Nat) : Int :=
  (last : Int) - first

/-- The data members of `vector`: the block `start_` points into, and
`finish_` and `end_of_storage_` as offsets from `start_`. -/
structure vector (Tp : Type) where
  block : Block Tp
  finish_ : Nat
  end_of_storage_ : Nat
  deriving DecidableEq

namespace vector

variable {Tp : Type}

/-- Constructor `vector()`: three null pointers, no storage. -/
def default : vector Tp := { block := [], finish_ := 0, end_of_storage_ := 0 }

/-- Source function `size`. -/
def size (v : vector Tp) : Nat := v.finish_

/-- Source function `capacity`. -/
def capacity (v : vector Tp) : Nat := v.end_of_storage_

/-- Source function `begin`. -/
def begin_ (_v : vector Tp) : Nat := 0

/-- Source function `end`. -/
def end_ (v : vector Tp) : Nat := v.finish_

/-- The slots of the range `[begin(), end())`, as iteration reads them. -/
def elems (v : vector Tp) : List (Slot Tp) := v.block.take v.finish_

/-- Source function `operator[]`. -/
def index (v : vector Tp) (pos : Nat) : Except Fault (Slot Tp) := read v.block pos

/-- Source function `range_check`. -/
def range_check (v : vector Tp) (n : Nat) : Except Fault Unit :=
  if n ≥ v.size then .error (.thrown "Out-of-memory") else .ok ()

/-- Source function `at`. -/
def at_ (v : vector Tp) (pos : Nat) : Except Fault (Slot Tp) := do
  v.range_check pos
  read v.block pos

/-- The loop of `destroy(first, last)`, run `k = last - first` times. -/
def destroy_loop : Nat → Block Tp → Nat → Except Fault (Block Tp)
  | 0, b, _ => .ok b
  | k + 1, b, first => do
    let b1 ← new_allocator.destroy b first
    destroy_loop k b1 (first + 1)

/-- Source function `destroy(first, last)`. -/
def destroy (b : Block Tp) (first last : Nat) : Except Fault (Block Tp) :=
  if first ≤ last then destroy_loop (last - first) b first else .error .undefined

/-- Source function `destroy_and_deallocate`: every element of
`[start_, finish_)` is destroyed, then the block is released. -/
def destroy_and_deallocate (v : vector Tp) : Except Fault Unit := do
  let _ ← destroy v.block 0 v.finish_
  pure ()

/-- Source function `insert_aux(iterator, const Tp&)`.  On reallocation the old
block is destroyed and released after the copies, and the new one is kept. -/
def insert_aux [sizeof Tp] (v : vector Tp) (pos : Nat) (value : Ref Tp) :
    Except Fault (vector Tp) :=
  if v.finish_ ≠ v.end_of_storage_ then do
    let p ← ptr_sub v.finish_ 1
    let x ← read v.block p
    let b1 ← new_allocator.construct v.block v.finish_ x
    let finish := v.finish_ + 1
    let l ← ptr_sub finish 2
    let r ← ptr_sub finish 1
    let (b2, _) ← copy_backward .same b1 pos l r
    let y ← value.get b2
    let b3 ← write b2 pos y
    pure { block := b3, finish_ := finish, end_of_storage_ := v.end_of_storage_ }
  else do
    let old_size := v.size
    let new_capacity := if old_size ≠ 0 then size_type (2 * old_size) else 1
    let new_start ← new_allocator.allocate Tp new_capacity
    let (n1, new_finish) ← uninitialized_copy (.other v.block) new_start 0 pos 0
    let x ← value.get v.block
    let n2 ← new_allocator.construct n1 new_finish x
    let new_finish := new_finish + 1
    let (n3, new_finish) ← uninitialized_copy (.other v.block) n2 pos v.finish_ new_finish
    v.destroy_and_deallocate
    pure { block := n3, finish_ := new_finish, end_of_storage_ := new_capacity }

/-- Source function `insert(iterator, const Tp&)`. -/
def insert [sizeof Tp] (v : vector Tp) (pos : Nat) (value : Ref Tp) :
    Except Fault (vector Tp × Nat) := do
  let n := pos - v.begin_
  if v.finish_ ≠ v.end_of_storage_ ∧ pos = v.end_ then
    let x ← value.get v.block
    let b ← new_allocator.construct v.block v.finish_ x
    pure ({ v with block := b, finish_ := v.finish_ + 1 }, v.begin_ + n)
  else
    let v1 ← insert_aux v pos value
    pure (v1, v1.begin_ + n)

/-- Source function `push_back(const Tp&)`. -/
def push_back [sizeof Tp] (v : vector Tp) (value : Ref Tp) : Except Fault (vector Tp) :=
  if v.finish_ ≠ v.end_of_storage_ then do
    let x ← value.get v.block
    let b ← new_allocator.construct v.block v.finish_ x
    pure { v with block := b, finish_ := v.finish_ + 1 }
  else
    insert_aux v v.end_ value

/-- Source function `pop_back`. -/
def pop_back (v : vector Tp) : Except Fault (vector Tp) := do
  let finish ← ptr_sub v.finish_ 1
  let b ← new_allocator.destroy v.block finish
  pure { v with block := b, finish_ := finish }

/-- Source function `insert_aux(iterator, size_type, const Tp&)`.  In the
reallocation branch `fill_n(pos, n, value)` writes at `pos`, which points into
the old block. -/
def insert_aux_n [sizeof Tp] (v : vector Tp) (pos n : Nat) (value : Ref Tp) :
    Except Fault (vector Tp) :=
  if (v.finish_ : Int) + n - 1 ≠ v.end_of_storage_ then do
    let old_finish := v.finish_
    let f ← ptr_sub v.finish_ n
    let (b1, _) ← uninitialized_copy .same v.block f v.finish_ v.finish_
    let finish := v.finish_ + n
    let l ← ptr_sub old_finish n
    let (b2, _) ← copy_backward .same b1 pos l old_finish
    let (b3, _) ← fill_n b2 pos n value
    pure { block := b3, finish_ := finish, end_of_storage_ := v.end_of_storage_ }
  else do
    let old_size := v.size
    let new_capacity :=
      if old_size ≥ n then size_type (2 * old_size) else size_type (old_size + n)
    let new_start ← new_allocator.allocate Tp new_capacity
    let (n1, new_finish) ← uninitialized_copy (.other v.block) new_start 0 pos 0
    let (o1, _) ← fill_n v.block pos n value
    let new_finish := new_finish + n
    let (n2, new_finish) ← uninitialized_copy (.other o1) n1 pos v.finish_ new_finish
    destroy_and_deallocate { v with block := o1 }
    pure { block := n2, finish_ := new_finish, end_of_storage_ := new_capacity }

/-- Source function `insert(iterator, size_type, const Tp&)`; it returns
`begin() + n`. -/
def insert_n [sizeof Tp] (v : vector Tp) (pos n : Nat) (value : Ref Tp) :
    Except Fault (vector Tp × Nat) :=
  if (v.finish_ : Int) + n - 1 ≠ v.end_of_storage_ ∧ pos = v.end_ then do
    let (b, _) ← uninitialized_fill_n v.block v.finish_ n value
    pure ({ v with block := b, finish_ := v.finish_ + n }, v.begin_ + n)
  else do
    let v1 ← insert_aux_n v pos n value
    pure (v1, v1.begin_ + n)

/-- Source function `insert_aux(iterator, Integral, Integral, true_type)`, which
`insert(pos, first, last)` reaches when both arguments are integral, as in
`insert(pos, 3, 13)` on a vector of `int`; the body repeats `insert_n`. -/
def insert_aux_integral [sizeof Tp] (v : vector Tp) (pos n : Nat) (value : Ref Tp) :
    Except Fault (vector Tp × Nat) :=
  if (v.finish_ : Int) + n - 1 ≠ v.end_of_storage_ ∧ pos = v.end_ then do
    let (b, _) ← uninitialized_fill_n v.block v.finish_ n value
    pure ({ v with block := b, finish_ := v.finish_ + n }, v.begin_ + n)
  else do
    let v1 ← insert_aux_n v pos n value
    pure (v1, v1.begin_ + n)

/-- Source function `distance` on a range `[first, last)` of another block:
the number of increments from `first` to `last`. -/
def distance (first last : Nat) : Except Fault Nat :=
  if first ≤ last then .ok (last - first) else .error .undefined

/-- Source function `advance` with a count of type `size_type`. -/
def advance (it n : Nat) : Nat := it + n

/-- Source function `range_insert(..., forward_iterator_tag)`; the source range
is `[first, last)` of the block `src`. -/
def range_insert_forward [sizeof Tp] (v : vector Tp) (pos : Nat) (src : Block Tp)
    (first last : Nat) : Except Fault (vector Tp) :=
  if first = last then .ok v
  else do
    let n ← distance first last
    if n ≤ size_type ((v.end_of_storage_ : Int) - v.finish_) then
      let back_len := size_type ((v.finish_ : Int) - pos)
      let old_finish := v.finish_
      if back_len > n then
        let f ← ptr_sub v.finish_ n
        let (b1, _) ← uninitialized_copy .same v.block f v.finish_ v.finish_
        let finish := v.finish_ + n
        let l ← ptr_sub old_finish n
        let (b2, _) ← copy_backward .same b1 pos l old_finish
        let (b3, _) ← copy (.other src) b2 first last pos
        pure { block := b3, finish_ := finish, end_of_storage_ := v.end_of_storage_ }
      else
        let mid := advance first back_len
        let (b1, _) ← uninitialized_copy (.other src) v.block mid last v.finish_
        let finish := v.finish_ + (n - back_len)
        let (b2, _) ← uninitialized_copy .same b1 pos old_finish finish
        let finish := finish + back_len
        let (b3, _) ← copy (.other src) b2 first mid pos
        pure { block := b3, finish_ := finish, end_of_storage_ := v.end_of_storage_ }
    else
      let old_size := v.size
      let new_capacity :=
        if old_size ≥ n then size_type (2 * old_size) else size_type (old_size + n)
      let new_start ← new_allocator.allocate Tp new_capacity
      let (n1, new_finish) ← uninitialized_copy (.other v.block) new_start 0 pos 0
      let (n2, new_finish) ← uninitialized_copy (.other src) n1 first last new_finish
      let (n3, new_finish) ← uninitialized_copy (.other v.block) n2 pos v.finish_ new_finish
      v.destroy_and_deallocate
      pure { block := n3, finish_ := new_finish, end_of_storage_ := new_capacity }

/-- Source function `insert_aux(iterator, InputIterator, InputIterator,
false_type)` for a forward or better source. -/
def insert_aux_range [sizeof Tp] (v : vector Tp) (pos : Nat) (src : Block Tp)
    (first last : Nat) : Except Fault (vector Tp × Nat) := do
  let n := pos - v.begin_
  let v1 ← range_insert_forward v pos src first last
  pure (v1, v1.begin_ + n)

/-- Source function `insert(iterator, InputIterator, InputIterator)` for
iterators that are not integral and forward or better. -/
def insert_range [sizeof Tp] (v : vector Tp) (pos : Nat) (src : Block Tp)
    (first last : Nat) : Except Fault (vector Tp × Nat) :=
  insert_aux_range v pos src first last

/-- Source function `erase(iterator, iterator)`. -/
def erase_range (v : vector Tp) (first last : Nat) : Except Fault (vector Tp × Nat) := do
  let (b, new_finish) ← copy .same v.block last v.finish_ first
  pure ({ v with block := b, finish_ := new_finish }, first)

/-- Source function `allocate_and_copy(n, first, last)` with `[first, last)` a
range of the block `src`. -/
def allocate_and_copy [sizeof Tp] (n : Nat) (src : Block Tp) (first last : Nat) :
    Except Fault (Block Tp) := do
  let result ← new_allocator.allocate Tp n
  let (result, _) ← uninitialized_copy (.other src) result first last 0
  pure result

/-- Source function `reserve`. -/
def reserve [sizeof Tp] (v : vector Tp) (n : Nat) : Except Fault (vector Tp) :=
  if v.capacity < n then do
    let old_size := v.size
    let new_start ← allocate_and_copy n v.block 0 v.finish_
    v.destroy_and_deallocate
    pure { block := new_start, finish_ := old_size, end_of_storage_ := n }
  else .ok v

/-- Source function `shrink_to_fit`: only `end_of_storage_` moves, the block
stays as it was allocated. -/
def shrink_to_fit (v : vector Tp) : vector Tp :=
  { v with end_of_storage_ := v.finish_ }

/-- Source function `resize(size_type, const Tp&)`. -/
def resize [sizeof Tp] (v : vector Tp) (n : Nat) (value : Ref Tp) : Except Fault (vector Tp) :=
  if n < v.size then do
    let (v1, _) ← v.erase_range (v.begin_ + n) v.end_
    pure v1
  else do
    let (v1, _) ← v.insert_n v.end_ (n - v.size) value
    pure v1

/-- The loop `for (...) a.push_back(x)` of the demo, over the values `xs`. -/
def push_back_all [sizeof Tp] : vector Tp → List Tp → Except Fault (vector Tp)
  | v, [] => .ok v
  | v, x :: xs => do
    let v1 ← v.push_back (.ext x)
    push_back_all v1 xs

/-- The loop `for (...) a.pop_back()` of the demo, run `k` times. -/
def pop_back_n : Nat → vector Tp → Except Fault (vector Tp)
  | 0, v => .ok v
  | k + 1, v => do
    let v1 ← v.pop_back
    pop_back_n k v1

/-- The class invariant of the data model: `start_ ≤ finish_ ≤ end_of_storage_`
and the block reaches at least to `end_of_storage_`. -/
def wf (v : vector Tp) : Prop :=
  v.finish_ ≤ v.end_of_storage_ ∧ v.end_of_storage_ ≤ v.block.length

instance (v : vector Tp) : Decidable v.wf :=
  inferInstanceAs (Decidable (_ ∧ _))

/-- The capacities the demo prints while it pushes the values `xs`, one after
each `push_back`. -/
def push_back_capacities [sizeof Tp] : vector Tp → List Tp → Except Fault (List Nat)
  | _, [] => .ok []
  | v, x :: xs => do
    let v1 ← v.push_back (.ext x)
    let cs ← push_back_capacities v1 xs
    pure (v1.capacity :: cs)

/-- Source function `erase(iterator)`. -/
def erase (v : vector Tp) (pos : Nat) : Except Fault (vector Tp × Nat) := do
  let b ← (if pos + 1 ≠ v.end_ then do
      let (b, _) ← copy .same v.block (pos + 1) v.finish_ pos
      pure b
    else pure v.block)
  let finish ← ptr_sub v.finish_ 1
  let b1 ← new_allocator.destroy b finish
  pure ({ v with block := b1, finish_ := finish }, pos)

/-- Source function `clear`. -/
def clear (v : vector Tp) : Except Fault (vector Tp) := do
  let (v1, _) ← v.erase_range v.begin_ v.end_
  pure v1

/-- Constructor `vector(const vector& other)`: the members are initialised in
the order `start_`, `finish_`, `end_of_storage_`. -/
def copy_ctor [sizeof Tp] (other : vector Tp) : Except Fault (vector Tp) := do
  let start ← new_allocator.allocate Tp other.size
  let (b, finish) ← uninitialized_copy (.other other.block) start other.begin_ other.end_ 0
  pure { block := b, finish_ := finish, end_of_storage_ := other.size }

/-- The argument `const vector& other` of a member function: `*this` itself or
another vector object. -/
inductive Other (Tp : Type) where
  | this
  | obj (w : vector Tp)

/-- Source function `operator=(const vector&)`. -/
def operator_assign [sizeof Tp] (v : vector Tp) : Other Tp → Except Fault (vector Tp)
  | .this => .ok v
  | .obj other =>
    if other.size > v.capacity then do
      let new_start ← allocate_and_copy other.size other.block other.begin_ other.end_
      v.destroy_and_deallocate
      pure { block := new_start, finish_ := other.size, end_of_storage_ := other.size }
    else if other.size > v.size then do
      let (b1, _) ← copy (.other other.block) v.block other.begin_ (other.begin_ + v.size)
        v.begin_
      let (b2, _) ← uninitialized_copy (.other other.block) b1 (other.begin_ + v.size)
        other.end_ v.finish_
      pure { block := b2, finish_ := other.size, end_of_storage_ := v.end_of_storage_ }
    else do
      let (b1, new_finish) ← copy (.other other.block) v.block other.begin_ other.end_ 0
      let b2 ← destroy b1 new_finish v.finish_
      pure { block := b2, finish_ := other.size, end_of_storage_ := v.end_of_storage_ }

/-- The loop of `range_initialize(first, last, input_iterator_tag)`, run
`k = last - first` times. -/
def range_initialize_input_loop [sizeof Tp] (src : Block Tp) :
    Nat → vector Tp → Nat → Except Fault (vector Tp)
  | 0, v, _ => .ok v
  | k + 1, v, first => do
    let x ← load src first
    let v1 ← v.push_back (.ext x)
    range_initialize_input_loop src k v1 (first + 1)

/-- Source function `range_initialize(first, last, input_iterator_tag)`; the
source range is `[first, last)` of the block `src`. -/
def range_initialize_input [sizeof Tp] (v : vector Tp) (src : Block Tp) (first last : Nat) :
    Except Fault (vector Tp) :=
  if first ≤ last then range_initialize_input_loop src (last - first) v first
  else .error .undefined

/-- Source function `range_initialize(first, last, alloc,
forward_iterator_tag)`. -/
def range_initialize_forward [sizeof Tp] (_v : vector Tp) (src : Block Tp) (first last : Nat) :
    Except Fault (vector Tp) := do
  let n ← distance first last
  let start ← new_allocator.allocate Tp n
  let (b, finish) ← uninitialized_copy (.other src) start first last 0
  pure { block := b, finish_ := finish, end_of_storage_ := n }

/-- The loop of `operator==`; `fuel` bounds the rounds and `size() + 1` is
never used up. -/
def operator_eq_loop (ne : Tp → Tp → Bool) (x y : vector Tp) :
    Nat → Nat → Nat → Except Fault Bool
  | 0, _, _ => .error .undefined
  | fuel + 1, it_x, it_y =>
    if it_x ≠ x.end_ then do
      let a ← load x.block it_x
      let b ← load y.block it_y
      if ne a b then pure false
      else operator_eq_loop ne x y fuel (it_x + 1) (it_y + 1)
    else pure true

/-- Source function `operator==` on vectors; `ne` is `!=` of the element
type. -/
def operator_eq (ne : Tp → Tp → Bool) (x y : vector Tp) : Except Fault Bool :=
  if x.size ≠ y.size then .ok false
  else operator_eq_loop ne x y (x.size + 1) x.begin_ y.begin_

/-- Source function `operator!=` on vectors. -/
def operator_ne (ne : Tp → Tp → Bool) (x y : vector Tp) : Except Fault Bool := do
  let r ← operator_eq ne x y
  pure (!r)

/-- The loop of `operator<`; `fuel` bounds the rounds and `size() + 1` is never
used up. -/
def operator_lt_loop (lt : Tp → Tp → Bool) (x y : vector Tp) :
    Nat → Nat → Nat → Except Fault Bool
  | 0, _, _ => .error .undefined
  | fuel + 1, it_x, it_y =>
    if it_x ≠ x.end_ ∧ it_y ≠ y.end_ then do
      let a ← load x.block it_x
      let b ← load y.block it_y
      if lt a b then pure true
      else if lt b a then pure false
      else operator_lt_loop lt x y fuel (it_x + 1) (it_y + 1)
    else pure (decide (it_x = x.end_ ∧ it_y ≠ y.end_))

/-- Source function `operator<` on vectors; `lt` is `<` of the element type. -/
def operator_lt (lt : Tp → Tp → Bool) (x y : vector Tp) : Except Fault Bool :=
  operator_lt_loop lt x y (x.size + 1) x.begin_ y.begin_

/-- Source function `operator>` on vectors. -/
def operator_gt (lt : Tp → Tp → Bool) (x y : vector Tp) : Except Fault Bool :=
  operator_lt lt y x

/-- Source function `operator<=` on vectors. -/
def operator_le (lt : Tp → Tp → Bool) (x y : vector Tp) : Except Fault Bool := do
  let r ← operator_lt lt y x
  pure (!r)

/-- Source function `operator>=` on vectors. -/
def operator_ge (lt : Tp → Tp → Bool) (x y : vector Tp) : Except Fault Bool := do
  let r ← operator_lt lt x y
  pure (!r)

/-- The vector holds the elements `xs`: `size()` of them, all constructed. -/
def holds (v : vector Tp) (xs : List Tp) : Prop :=
  v.size = xs.length ∧ v.elems = xs.map some

/-- Source function `swap(vector&)`: the three pointers are exchanged, so each
object ends up with the block of the other; the allocators are not. -/
def swap (v other : vector Tp) : vector Tp × vector Tp :=
  let (s, os) := mystl.swap v.block other.block
  let (f, of) := mystl.swap v.finish_ other.finish_
  let (e, oe) := mystl.swap v.end_of_storage_ other.end_of_storage_
  ({ block := s, finish_ := f, end_of_storage_ := e },
   { block := os, finish_ := of, end_of_storage_ := oe })

/-- The loop of `range_insert(pos, first, last, input_iterator_tag)`, run
`k = last - first` times. -/
def range_insert_input_loop [sizeof Tp] (src : Block Tp) :
    Nat → vector Tp → Nat → Nat → Except Fault (vector Tp)
  | 0, v, _, _ => .ok v
  | k + 1, v, pos, first => do
    let x ← load src first
    let (v1, pos) ← v.insert pos (.ext x)
    range_insert_input_loop src k v1 (pos + 1) (first + 1)

/-- Source function `range_insert(pos, first, last, input_iterator_tag)`; the
source range is `[first, last)` of the block `src`. -/
def range_insert_input [sizeof Tp] (v : vector Tp) (pos : Nat) (src : Block Tp)
    (first last : Nat) : Except Fault (vector Tp) :=
  if first ≤ last then range_insert_input_loop src (last - first) v pos first
  else .error .undefined

/-- The number of constructed objects in the block of the vector: the
`construct` calls not yet paired with a `destroy`. -/
def constructed (v : vector Tp) : Nat :=
  v.block.countP Option.isSome

end vector

/-- The iterator tags of `iterator.h`. -/
inductive iterator_tag where
  | input_iterator_tag
  | output_iterator_tag
  | forward_iterator_tag
  | bidirectional_iterator_tag
  | random_access_iterator_tag
  deriving DecidableEq

/-- The base class a tag struct of `iterator.h` is declared with. -/
def iterator_tag.base : iterator_tag → Option iterator_tag
  | .forward_iterator_tag => some .input_iterator_tag
  | .bidirectional_iterator_tag => some .forward_iterator_tag
  | .random_access_iterator_tag => some .bidirectional_iterator_tag
  | _ => none

/-- An argument of tag type `t` can be passed for a parameter of tag type `p`:
`t` is `p` or derives from it, over at most three steps. -/
def iterator_tag.converts (t p : iterator_tag) : Bool :=
  decide (t = p) || decide (t.base = some p) || decide (t.base.bind iterator_tag.base = some p)
    || decide ((t.base.bind iterator_tag.base).bind iterator_tag.base = some p)

/-- The two declarations of `range_initialize` in `vector.h`. -/
inductive range_initialize_overload where
  | input
  | forward
  deriving DecidableEq

/-- The number of parameters of each declaration: `(first, last, tag)` and
`(first, last, alloc, tag)`. -/
def range_initialize_overload.params : range_initialize_overload → Nat
  | .input => 3
  | .forward => 4

/-- The type of the tag parameter of each declaration. -/
def range_initialize_overload.tag : range_initialize_overload → iterator_tag
  | .input => .input_iterator_tag
  | .forward => .forward_iterator_tag

/-- The declarations that the call `range_initialize(first, last, alloc,
iterator_category())` in `initialize_aux` can select for iterators of category
`t`: they take the four arguments and their tag parameter accepts `t`. -/
def initialize_aux_candidates (t : iterator_tag) : List range_initialize_overload :=
  [range_initialize_overload.input, range_initialize_overload.forward].filter
    fun o => o.params == 4 && t.converts o.tag

/-- Source function `initialize_aux(first, last, alloc, false_type)`: the call of
`range_initialize` it contains.  The value `none` stands for a call that no
declaration matches, so that the constructor cannot be compiled for such
iterators. -/
def initialize_aux {Tp : Type} [sizeof Tp] (t : iterator_tag) (v : vector Tp) (src : Block Tp)
    (first last : Nat) : Option (Except Fault (vector Tp)) :=
  match initialize_aux_candidates t with
  | [.forward] => some (v.range_initialize_forward src first last)
  | [.input] => some (v.range_initialize_input src first last)
  | _ => none

/-- Constructor `vector(InputIterator first, InputIterator last)` for iterators
of category `t` that are not integral: the members are set to null and
`initialize_aux` is called. -/
def range_ctor {Tp : Type} [sizeof Tp] (t : iterator_tag) (src : Block Tp) (first last : Nat) :
    Option (Except Fault (vector Tp)) :=
  initialize_aux t vector.default src first last

/-- The free store of a program: every block handed out by `allocate`, by
number. -/
abbrev Store (Tp : Type) := List (Block Tp)

/-- A vector object of a program: the number of the block its `start_` points
into, and `finish_` and `end_of_storage_` as offsets. -/
structure Object where
  start_ : Nat
  finish_ : Nat
  end_of_storage_ : Nat
  deriving DecidableEq

/-- The vector an object is in a given store. -/
def Object.value {Tp : Type} (st : Store Tp) (o : Object) : Except Fault (vector Tp) :=
  match st[o.start_]? with
  | some b => .ok { block := b, finish_ := o.finish_, end_of_storage_ := o.end_of_storage_ }
  | none => .error .undefined

/-- Source function `new_allocator::allocate` in a program: the block of `n`
raw slots joins the store, and the pointer returned is the number of that
block. -/
def Store.allocate {Tp : Type} [sizeof Tp] (st : Store Tp) (n : Nat) :
    Except Fault (Store Tp × Nat) := do
  let b ← new_allocator.allocate Tp n
  pure (st ++ [b], st.length)

/-- Source function `uninitialized_copy(first, last, result)` in a program:
`first` and `last` are offsets into block `src`, `result` is an offset into
block `dst`, and the store afterwards holds the written block under the number
`dst`. -/
def Store.uninitialized_copy {Tp : Type} (st : Store Tp) (src first last dst result : Nat) :
    Except Fault (Store Tp × Nat) :=
  match st[src]?, st[dst]? with
  | some s, some d => do
    let (d1, r) ← mystl.uninitialized_copy (if src = dst then Src.same else Src.other s) d
      first last result
    pure (st.set dst d1, r)
  | _, _ => .error .undefined

/-- Constructor `vector(const vector& other)` in a program, member by member:
`start_` is the pointer `allocate(other.size())` returns, `finish_` is what
`uninitialized_copy(other.begin(), other.end(), start_)` returns, and
`end_of_storage_` is `start_ + other.size()`. -/
def Store.copy_ctor {Tp : Type} [sizeof Tp] (st : Store Tp) (other : Object) :
    Except Fault (Store Tp × Object) := do
  let (st1, start) ← st.allocate other.finish_
  let (st2, finish) ← st1.uninitialized_copy other.start_ 0 other.finish_ start 0
  pure (st2, { start_ := start, finish_ := finish, end_of_storage_ := 0 + other.finish_ })

/-- The statement `v[pos] = x` in a program: `operator[]` returns
`*(start_ + pos)` and the assignment writes there. -/
def Store.subscript_assign {Tp : Type} (st : Store Tp) (o : Object) (pos : Nat) (x : Tp) :
    Except Fault (Store Tp) := do
  let v ← o.value st
  let b ← write v.block pos (some x)
  pure (st.set o.start_ b)

/-- What a run of `push_back` calls keeps true of the capacity: it is `0` on
the empty vector and otherwise the power of two with `size ≤ capacity < 2 * size`. -/
def cap_pow2 {Tp : Type} (v : vector Tp) : Prop :=
  (v.size = 0 ∧ v.capacity = 0) ∨ ∃ e, v.capacity = 2 ^ e ∧ v.size ≤ 2 ^ e ∧ 2 ^ e < 2 * v.size

/-- The element type of the demo: `int`, four bytes. -/
instance : sizeof Int := ⟨4⟩


/-! Storage lemmas. -/

theorem read_eq {Tp : Type} (b : Block Tp) (p : Nat) (h : p < b.length) :
    read b p = .ok b[p] := by
  simp [read, List.getElem?_eq_getElem h]

theorem read_ok_iff {Tp : Type} (b : Block Tp) (p : Nat) (x : Slot Tp) :
    read b p = .ok x ↔ b[p]? = some x := by
  unfold read
  cases h : b[p]? <;> simp

theorem write_eq {Tp : Type} (b : Block Tp) (p : Nat) (x : Slot Tp) (h : p < b.length) :
    write b p x = .ok (b.set p x) := by
  simp [write, h]

theorem ptr_sub_eq (p n : Nat) (h : n ≤ p) : ptr_sub p n = .ok (p - n) := by
  simp [ptr_sub, h]

theorem size_type_max_lt : size_type_max < 2 ^ 64 := by
  unfold size_type_max; omega

theorem size_type_natCast (n : Nat) (h : n ≤ size_type_max) : size_type (n : Int) = n := by
  unfold size_type
  have h2 : n < 2 ^ 64 := lt_of_le_of_lt h size_type_max_lt
  omega

theorem size_type_two_mul (n : Nat) (h : 2 * n ≤ size_type_max) :
    size_type (2 * (n : Int)) = 2 * n := by
  have := size_type_natCast (2 * n) h
  simpa using this

theorem size_type_add (a b : Nat) (h : a + b ≤ size_type_max) :
    size_type ((a : Int) + b) = a + b := by
  have := size_type_natCast (a + b) h
  simpa using this

theorem size_type_sub (a b : Nat) (h : b ≤ a) (h2 : a ≤ size_type_max) :
    size_type ((a : Int) - b) = a - b := by
  have := size_type_natCast (a - b) (by omega)
  rw [Nat.cast_sub h] at this
  exact this

theorem max_size_le (Tp : Type) [sizeof Tp] : new_allocator.max_size Tp ≤ size_type_max := by
  unfold new_allocator.max_size
  exact Nat.div_le_self _ _

theorem allocate_eq (Tp : Type) [sizeof Tp] (n : Nat) (h : n ≤ new_allocator.max_size Tp) :
    new_allocator.allocate Tp n = .ok (List.replicate n none) := by
  simp [new_allocator.allocate, Nat.not_lt.mpr h]

/-- Function `uninitialized_copy` writes the slots `copy` writes, as long as the
counter `i` stays within `int`. -/
theorem uninitialized_copy_loop_eq {Tp : Type} (s : Src Tp) (result : Nat) :
    ∀ (k : Nat) (d : Block Tp) (first i : Nat), i + k ≤ int_max →
      uninitialized_copy_loop s k d first result i = copy_loop s k d first (result + i) := by
  intro k
  induction k with
  | zero => intro d first i _; rfl
  | succ k ih =>
    intro d first i h
    have hi : i < int_max := by omega
    simp only [uninitialized_copy_loop, copy_loop, int_incr, if_pos hi]
    cases read (s.block d) first with
    | error e => rfl
    | ok x =>
      simp only [bind, Except.bind]
      cases write d (result + i) x with
      | error e => rfl
      | ok d1 => exact ih d1 (first + 1) (i + 1) (by omega)

theorem uninitialized_copy_eq {Tp : Type} (s : Src Tp) (d : Block Tp) (first last result : Nat)
    (h : last - first ≤ int_max) :
    uninitialized_copy s d first last result = copy s d first last result := by
  unfold uninitialized_copy copy
  split
  · exact uninitialized_copy_loop_eq s result _ d first 0 (by omega)
  · rfl

/-- The counter `i` of `uninitialized_copy` cannot count more than `int_max`
rounds: a longer copy is undefined, whatever the blocks are. -/
theorem uninitialized_copy_loop_overflow {Tp : Type} (s : Src Tp) (result : Nat) :
    ∀ (k : Nat) (d : Block Tp) (first i : Nat), i ≤ int_max → int_max < i + k →
      uninitialized_copy_loop s k d first result i = .error .undefined := by
  intro k
  induction k with
  | zero => intro d first i h1 h2; omega
  | succ k ih =>
    intro d first i h1 h2
    simp only [uninitialized_copy_loop, read, write, int_incr]
    cases hr : (s.block d)[first]? with
    | none => rfl
    | some x =>
      simp only [bind, Except.bind]
      by_cases hw : result + i < d.length
      · simp only [if_pos hw]
        by_cases hi : i < int_max
        · simp only [if_pos hi]
          exact ih _ (first + 1) (i + 1) (by omega) (by omega)
        · simp only [if_neg hi]
      · simp only [if_neg hw]

theorem uninitialized_copy_overflow {Tp : Type} (s : Src Tp) (d : Block Tp)
    (first last result : Nat) (h : int_max < last - first) :
    uninitialized_copy s d first last result = .error .undefined := by
  unfold uninitialized_copy
  split
  · exact uninitialized_copy_loop_overflow s result _ d first 0 (Nat.zero_le _) (by omega)
  · rfl

theorem copy_loop_other {Tp : Type} (s : Block Tp) :
    ∀ (k : Nat) (d : Block Tp) (first result : Nat),
      first + k ≤ s.length → result + k ≤ d.length →
      ∃ d1, copy_loop (.other s) k d first result = .ok (d1, result + k) ∧
        d1.length = d.length ∧
        ∀ j, d1[j]? = if result ≤ j ∧ j < result + k then s[first + (j - result)]? else d[j]? := by
  intro k
  induction k with
  | zero =>
    intro d first result _ _
    refine ⟨d, rfl, rfl, ?_⟩
    intro j
    have : ¬ (result ≤ j ∧ j < result) := by omega
    simp [this]
  | succ k ih =>
    intro d first result hs hd
    have h1 : first < s.length := by omega
    have h2 : result < d.length := by omega
    obtain ⟨d1, he, hl, hg⟩ := ih (d.set result s[first]) (first + 1) (result + 1)
      (by omega) (by simp; omega)
    refine ⟨d1, ?_, by simpa using hl, ?_⟩
    · simp only [copy_loop, Src.block, read_eq s first h1, write_eq d result _ h2]
      simp only [bind, Except.bind]
      rw [he]
      congr 2
      omega
    · intro j
      rw [hg j, List.getElem?_set]
      by_cases hj : result = j
      · subst hj
        simp [h2, List.getElem?_eq_getElem h1]
      · by_cases hj2 : result + 1 ≤ j ∧ j < result + 1 + k
        · have hj3 : result ≤ j ∧ j < result + (k + 1) := by omega
          have hj4 : first + 1 + (j - (result + 1)) = first + (j - result) := by omega
          simp [hj2, hj3, hj4]
        · have hj3 : ¬ (result ≤ j ∧ j < result + (k + 1)) := by omega
          simp [hj, hj2, hj3]

/-- A copy inside one block, when the destination range starts at or before
the source range or after its end: the slots `[result, result + k)` receive
what the slots `[first, first + k)` held before. -/
theorem copy_loop_same {Tp : Type} :
    ∀ (k : Nat) (d : Block Tp) (first result : Nat),
      first + k ≤ d.length → result + k ≤ d.length → (first + k ≤ result ∨ result ≤ first) →
      ∃ d1, copy_loop .same k d first result = .ok (d1, result + k) ∧
        d1.length = d.length ∧
        ∀ j, d1[j]? = if result ≤ j ∧ j < result + k then d[first + (j - result)]? else d[j]? := by
  intro k
  induction k with
  | zero =>
    intro d first result _ _ _
    refine ⟨d, rfl, rfl, ?_⟩
    intro j
    have : ¬ (result ≤ j ∧ j < result) := by omega
    simp [this]
  | succ k ih =>
    intro d first result hs hd hc
    have h1 : first < d.length := by omega
    have h2 : result < d.length := by omega
    obtain ⟨d1, he, hl, hg⟩ := ih (d.set result d[first]) (first + 1) (result + 1)
      (by simp; omega) (by simp; omega) (by omega)
    refine ⟨d1, ?_, by simpa using hl, ?_⟩
    · simp only [copy_loop, Src.block, read_eq d first h1, write_eq d result _ h2]
      simp only [bind, Except.bind]
      rw [he]
      congr 2
      omega
    · intro j
      rw [hg j]
      by_cases hj : result = j
      · subst hj
        have hj2 : ¬ (result + 1 ≤ result ∧ result < result + 1 + k) := by omega
        have hj3 : result ≤ result ∧ result < result + (k + 1) := by omega
        simp [hj2, hj3, h2, List.getElem?_eq_getElem h1]
      · by_cases hj2 : result + 1 ≤ j ∧ j < result + 1 + k
        · have hj3 : result ≤ j ∧ j < result + (k + 1) := by omega
          have hj4 : first + 1 + (j - (result + 1)) = first + (j - result) := by omega
          have hj5 : result ≠ first + (j - result) := by omega
          simp [hj2, hj3, hj4, List.getElem?_set, hj5]
        · have hj3 : ¬ (result ≤ j ∧ j < result + (k + 1)) := by omega
          simp [hj, hj2, hj3, List.getElem?_set]

/-- A backward copy inside one block whose destination ends at or after the
source end: the slots `[result - k, result)` receive what the slots
`[last - k, last)` held before. -/
theorem copy_backward_loop_same {Tp : Type} :
    ∀ (k : Nat) (d : Block Tp) (last result : Nat),
      k ≤ last → last ≤ result → result ≤ d.length →
      ∃ d1, copy_backward_loop .same k d last result = .ok (d1, result - k) ∧
        d1.length = d.length ∧
        ∀ j, d1[j]? = if result - k ≤ j ∧ j < result then d[last - (result - j)]? else d[j]? := by
  intro k
  induction k with
  | zero =>
    intro d last result _ _ _
    refine ⟨d, rfl, rfl, ?_⟩
    intro j
    have : ¬ (result ≤ j ∧ j < result) := by omega
    simp [this]
  | succ k ih =>
    intro d last result hk hlr hd
    have h1 : last - 1 < d.length := by omega
    have h2 : result - 1 < d.length := by omega
    obtain ⟨d1, he, hl, hg⟩ := ih (d.set (result - 1) d[last - 1]) (last - 1) (result - 1)
      (by omega) (by omega) (by simp; omega)
    refine ⟨d1, ?_, by simpa using hl, ?_⟩
    · simp only [copy_backward_loop, Src.block, ptr_sub_eq result 1 (by omega),
        ptr_sub_eq last 1 (by omega)]
      simp only [bind, Except.bind, read_eq d (last - 1) h1, write_eq d (result - 1) _ h2]
      rw [he]
      congr 2
      omega
    · intro j
      rw [hg j]
      by_cases hj : result - 1 = j
      · subst hj
        have hj2 : ¬ (result - 1 - k ≤ result - 1 ∧ result - 1 < result - 1) := by omega
        have hj3 : result - (k + 1) ≤ result - 1 ∧ result - 1 < result := by omega
        have hj4 : last - (result - (result - 1)) = last - 1 := by omega
        simp [hj2, hj3, hj4, h2, List.getElem?_eq_getElem h1]
      · by_cases hj2 : result - 1 - k ≤ j ∧ j < result - 1
        · have hj3 : result - (k + 1) ≤ j ∧ j < result := by omega
          have hj4 : last - 1 - (result - 1 - j) = last - (result - j) := by omega
          have hj5 : result - 1 ≠ last - (result - j) := by omega
          simp [hj2, hj3, hj4, List.getElem?_set, hj5]
        · have hj3 : ¬ (result - (k + 1) ≤ j ∧ j < result) := by omega
          rw [if_neg hj2, if_neg hj3, List.getElem?_set, if_neg hj]

theorem copy_other {Tp : Type} (s d : Block Tp) (first last result : Nat)
    (h1 : first ≤ last) (h2 : last ≤ s.length) (h3 : result + (last - first) ≤ d.length) :
    ∃ d1, copy (.other s) d first last result = .ok (d1, result + (last - first)) ∧
      d1.length = d.length ∧
      ∀ j, d1[j]? =
        if result ≤ j ∧ j < result + (last - first) then s[first + (j - result)]? else d[j]? := by
  unfold copy
  rw [if_pos h1]
  exact copy_loop_other s _ d first result (by omega) h3

theorem copy_same {Tp : Type} (d : Block Tp) (first last result : Nat)
    (h1 : first ≤ last) (h2 : last ≤ d.length) (h3 : result + (last - first) ≤ d.length)
    (h4 : last ≤ result ∨ result ≤ first) :
    ∃ d1, copy .same d first last result = .ok (d1, result + (last - first)) ∧
      d1.length = d.length ∧
      ∀ j, d1[j]? =
        if result ≤ j ∧ j < result + (last - first) then d[first + (j - result)]? else d[j]? := by
  unfold copy
  rw [if_pos h1]
  exact copy_loop_same _ d first result (by omega) h3 (by omega)

theorem copy_backward_same {Tp : Type} (d : Block Tp) (first last result : Nat)
    (h1 : first ≤ last) (h2 : last ≤ result) (h3 : result ≤ d.length) :
    ∃ d1, copy_backward .same d first last result = .ok (d1, result - (last - first)) ∧
      d1.length = d.length ∧
      ∀ j, d1[j]? =
        if result - (last - first) ≤ j ∧ j < result then d[last - (result - j)]? else d[j]? := by
  unfold copy_backward
  rw [if_pos h1]
  exact copy_backward_loop_same _ d last result (by omega) h2 h3

theorem destroy_loop_ok {Tp : Type} :
    ∀ (k : Nat) (b : Block Tp) (first : Nat), first + k ≤ b.length →
      ∃ b1, vector.destroy_loop k b first = .ok b1 ∧ b1.length = b.length := by
  intro k
  induction k with
  | zero => intro b first _; exact ⟨b, rfl, rfl⟩
  | succ k ih =>
    intro b first h
    obtain ⟨b1, he, hl⟩ := ih (b.set first none) (first + 1) (by simp; omega)
    refine ⟨b1, ?_, by simpa using hl⟩
    have h1 : first < b.length := by omega
    simp only [vector.destroy_loop, new_allocator.destroy, if_pos h1, bind, Except.bind]
    exact he

theorem destroy_and_deallocate_ok {Tp : Type} (v : vector Tp) (h : v.finish_ ≤ v.block.length) :
    v.destroy_and_deallocate = .ok () := by
  obtain ⟨b1, he, _⟩ := destroy_loop_ok v.finish_ v.block 0 (by omega)
  simp only [vector.destroy_and_deallocate, vector.destroy, Nat.zero_le, if_true, Nat.sub_zero,
    he, bind, Except.bind, pure, Except.pure]

/-- The slots of a list with a run of slots put in at position `p`. -/
theorem getElem?_splice {α : Type} (l r : List α) (p : Nat) (hp : p ≤ l.length) (j : Nat) :
    (l.take p ++ (r ++ l.drop p))[j]? =
      if j < p then l[j]? else if j < p + r.length then r[j - p]? else l[j - r.length]? := by
  have hl : (l.take p).length = p := by simp; omega
  rw [List.getElem?_append, hl]
  by_cases h1 : j < p
  · simp [h1, List.getElem?_take]
  · rw [if_neg h1, if_neg h1, List.getElem?_append]
    by_cases h2 : j < p + r.length
    · have h3 : j - p < r.length := by omega
      rw [if_pos h3, if_pos h2]
    · have h3 : ¬ j - p < r.length := by omega
      have h4 : p + (j - p - r.length) = j - r.length := by omega
      rw [if_neg h3, if_neg h2, List.getElem?_drop, h4]

/-- From a slot-by-slot description of the new block to the new element
sequence: the run `r` has been put in at `pos`. -/
theorem elems_splice {Tp : Type} (v v1 : vector Tp) (r : List (Slot Tp)) (pos : Nat)
    (hp : pos ≤ v.finish_) (hlen : v.finish_ ≤ v.block.length)
    (hfin : v1.finish_ = v.finish_ + r.length)
    (hchar : ∀ j, j < v.finish_ + r.length → v1.block[j]? =
      if j < pos then v.block[j]? else if j < pos + r.length then r[j - pos]?
      else v.block[j - r.length]?) :
    v1.elems = v.elems.take pos ++ (r ++ v.elems.drop pos) := by
  have hl : v.elems.length = v.finish_ := by simp [vector.elems]; omega
  apply List.ext_getElem?
  intro j
  rw [getElem?_splice _ _ _ (by omega)]
  simp only [vector.elems, List.getElem?_take, hfin]
  by_cases h1 : j < v.finish_ + r.length
  · rw [if_pos h1, hchar j h1]
    by_cases h2 : j < pos
    · have h3 : j < v.finish_ := by omega
      simp [h2, h3]
    · by_cases h4 : j < pos + r.length
      · simp [h2, h4]
      · have h5 : j - r.length < v.finish_ := by omega
        simp [h2, h4, h5]
  · have h2 : ¬ j < pos := by omega
    have h3 : ¬ j < pos + r.length := by omega
    have h4 : ¬ j - r.length < v.finish_ := by omega
    simp [h1, h2, h3, h4]

/-- Function `insert_aux` with spare capacity: the tail `[pos, finish_)` moves up
by one slot and `value`, read after the move, is assigned at `pos`. -/
theorem insert_aux_spare {Tp : Type} [sizeof Tp] (v : vector Tp) (pos : Nat) (value : Ref Tp)
    (y : Slot Tp) (hwf : v.wf) (hne : v.finish_ ≠ v.end_of_storage_) (hp : pos < v.finish_)
    (hy : value.get v.block = .ok y) (hv : ∀ k, value = .own k → k ≤ pos) :
    ∃ v1, v.insert_aux pos value = .ok v1 ∧ v1.finish_ = v.finish_ + 1 ∧
      v1.end_of_storage_ = v.end_of_storage_ ∧ v1.block.length = v.block.length ∧
      ∀ j, j < v.finish_ + 1 → v1.block[j]? =
        if j < pos then v.block[j]? else if j < pos + 1 then some y else v.block[j - 1]? := by
  obtain ⟨hfe, hel⟩ := hwf
  have hfl : v.finish_ < v.block.length := by omega
  have h1 : v.finish_ - 1 < v.block.length := by omega
  obtain ⟨b2, hcb, hl2, hg2⟩ := copy_backward_same (v.block.set v.finish_ v.block[v.finish_ - 1])
    pos (v.finish_ - 1) v.finish_ (by omega) (by omega) (by simp; omega)
  have hl2 : b2.length = v.block.length := by simpa using hl2
  have hy2 : value.get b2 = .ok y := by
    cases value with
    | ext x => exact hy
    | own k =>
      have hk := hv k rfl
      simp only [Ref.get, read_ok_iff] at hy ⊢
      rw [hg2 k, if_neg (by omega), List.getElem?_set, if_neg (by omega)]
      exact hy
  refine ⟨{ block := b2.set pos y, finish_ := v.finish_ + 1,
            end_of_storage_ := v.end_of_storage_ }, ?_, rfl, rfl, by simpa using hl2, ?_⟩
  · rw [vector.insert_aux, if_pos hne]
    have e1 : v.finish_ + 1 - 2 = v.finish_ - 1 := by omega
    simp only [ptr_sub_eq v.finish_ 1 (by omega), ptr_sub_eq (v.finish_ + 1) 2 (by omega),
      ptr_sub_eq (v.finish_ + 1) 1 (by omega), read_eq v.block _ h1, new_allocator.construct,
      write_eq v.block _ _ hfl, bind, Except.bind, e1, Nat.add_sub_cancel, hcb, hy2,
      write_eq b2 pos y (by omega), pure, Except.pure]
  · intro j hj
    simp only [List.getElem?_set]
    by_cases h2 : pos = j
    · subst h2
      simp [show pos < b2.length by omega]
    · rw [if_neg h2, hg2 j]
      by_cases h3 : j < pos
      · rw [if_pos h3, if_neg (by omega), List.getElem?_set, if_neg (by omega)]
      · rw [if_neg h3, if_neg (show ¬ j < pos + 1 by omega)]
        by_cases h4 : j = v.finish_
        · subst h4
          rw [if_neg (by omega), List.getElem?_set, if_pos rfl, if_pos hfl]
          simp [List.getElem?_eq_getElem h1]
        · rw [if_pos (by omega), List.getElem?_set, if_neg (by omega)]
          congr 1
          omega

/-- Function `insert_aux` on a full vector: a block of the doubled capacity
receives the elements before `pos`, then `value`, then the rest. -/
theorem insert_aux_full {Tp : Type} [sizeof Tp] (v : vector Tp) (pos : Nat) (value : Ref Tp)
    (y : Slot Tp) (hwf : v.wf) (he : v.finish_ = v.end_of_storage_) (hp : pos ≤ v.finish_)
    (hmax : (if v.size ≠ 0 then 2 * v.size else 1) ≤ new_allocator.max_size Tp)
    (hint : v.size ≤ int_max) (hy : value.get v.block = .ok y) :
    ∃ v1, v.insert_aux pos value = .ok v1 ∧ v1.finish_ = v.finish_ + 1 ∧
      v1.end_of_storage_ = (if v.size ≠ 0 then 2 * v.size else 1) ∧
      v1.block.length = v1.end_of_storage_ ∧
      ∀ j, j < v.finish_ + 1 → v1.block[j]? =
        if j < pos then v.block[j]? else if j < pos + 1 then some y else v.block[j - 1]? := by
  obtain ⟨_, hel⟩ := hwf
  have hms := max_size_le Tp
  have hcap : (if v.size ≠ 0 then size_type (2 * (v.size : Int)) else 1) =
      (if v.size ≠ 0 then 2 * v.size else 1) := by
    by_cases h0 : v.size ≠ 0
    · rw [if_pos h0] at hmax
      rw [if_pos h0, if_pos h0]
      exact size_type_two_mul _ (by omega)
    · rw [if_neg h0, if_neg h0]
  generalize hc : (if v.size ≠ 0 then 2 * v.size else 1) = c at hcap hmax
  have hc1 : v.finish_ + 1 ≤ c := by
    rw [← hc]; simp only [vector.size]; split <;> omega
  have hc2 : c ≤ new_allocator.max_size Tp := hmax
  obtain ⟨n1, e1, l1, g1⟩ := copy_other v.block (List.replicate c none) 0 pos 0
    (by omega) (by omega) (by simp; omega)
  simp only [List.length_replicate, Nat.sub_zero, Nat.zero_add] at e1 l1 g1
  have hw : write n1 pos y = .ok (n1.set pos y) := write_eq n1 pos y (by omega)
  obtain ⟨n3, e3, l3, g3⟩ := copy_other v.block (n1.set pos y) pos v.finish_ (pos + 1)
    hp (by omega) (by simp; omega)
  simp only [List.length_set] at l3
  refine ⟨{ block := n3, finish_ := pos + 1 + (v.finish_ - pos), end_of_storage_ := c },
    ?_, by simp only []; omega, rfl, by simp only []; omega, ?_⟩
  · rw [vector.insert_aux, if_neg (not_not.mpr he)]
    simp only [vector.size] at hint
    simp only [hcap, allocate_eq Tp c hc2,
      uninitialized_copy_eq _ _ 0 pos _ (by omega),
      uninitialized_copy_eq _ _ pos v.finish_ _ (by omega), e1, hy,
      new_allocator.construct, hw, e3, destroy_and_deallocate_ok v (by omega),
      bind, Except.bind, pure, Except.pure]
  · intro j hj
    simp only []
    rw [g3 j]
    by_cases h2 : j < pos
    · rw [if_pos h2, if_neg (by omega), List.getElem?_set, if_neg (by omega), g1 j,
        if_pos (by omega)]
    · rw [if_neg h2]
      by_cases h3 : j < pos + 1
      · have h4 : j = pos := by omega
        subst h4
        rw [if_pos h3, if_neg (by omega), List.getElem?_set, if_pos rfl, if_pos (by omega)]
      · rw [if_neg h3, if_pos (by omega)]
        congr 1
        omega

theorem singleton_char {α : Type} (a b : Option α) (y : α) (j pos : Nat) :
    (if j < pos then a else if j < pos + 1 then some y else b) =
      (if j < pos then a else if j < pos + [y].length then [y][j - pos]? else b) := by
  by_cases h1 : j < pos
  · rw [if_pos h1, if_pos h1]
  · rw [if_neg h1, if_neg h1]
    by_cases h2 : j < pos + 1
    · have h3 : j - pos = 0 := by omega
      simp [h2, h3]
    · simp [h2]

/-- Function `insert(iterator, const Tp&)` for any reference that is not moved
by the shift (an outside value, or a slot at or before `pos`): the slot read
through `value` lands at `pos`, everything from `pos` on moves up by one, and
the capacity follows the growth rule. -/
theorem insert_ref {Tp : Type} [sizeof Tp] (v : vector Tp) (pos : Nat) (value : Ref Tp)
    (y : Slot Tp) (hwf : v.wf) (hp : pos ≤ v.size)
    (hmax : v.size = v.capacity →
      (if v.size ≠ 0 then 2 * v.size else 1) ≤ new_allocator.max_size Tp)
    (hint : v.size = v.capacity → v.size ≤ int_max)
    (hy : value.get v.block = .ok y) (hv : ∀ k, value = .own k → k ≤ pos) :
    ∃ v1, v.insert pos value = .ok (v1, pos) ∧ v1.wf ∧ v1.size = v.size + 1 ∧
      v1.capacity =
        (if v.size = v.capacity then (if v.size ≠ 0 then 2 * v.size else 1) else v.capacity) ∧
      v1.elems = v.elems.take pos ++ y :: v.elems.drop pos := by
  have hwf0 := hwf
  obtain ⟨hfe, hel⟩ := hwf
  simp only [vector.size, vector.capacity] at hp hmax hint ⊢
  by_cases hfull : v.finish_ = v.end_of_storage_
  · obtain ⟨v1, e1, f1, c1, l1, g1⟩ := insert_aux_full v pos value y hwf0 hfull hp (hmax hfull)
      (hint hfull) hy
    simp only [vector.size] at c1
    refine ⟨v1, ?_, ⟨?_, by omega⟩, f1, by rw [if_pos hfull]; exact c1, ?_⟩
    · have hc : ¬ (v.finish_ ≠ v.end_of_storage_ ∧ pos = v.end_) := by
        intro h; exact h.1 hfull
      simp only [vector.insert, hc, if_false, e1, bind, Except.bind, pure, Except.pure,
        vector.begin_, Nat.sub_zero, Nat.zero_add]
    · rw [f1, c1]; split <;> omega
    · apply elems_splice v v1 [y] pos hp (by omega) f1
      intro j hj
      rw [g1 j hj, singleton_char]
      rfl
  · by_cases hend : pos = v.finish_
    · have hfl : v.finish_ < v.block.length := by omega
      subst hend
      refine ⟨{ v with block := v.block.set v.finish_ y, finish_ := v.finish_ + 1 }, ?_,
        ⟨by simp only []; omega, by simpa using hel⟩, rfl, by rw [if_neg hfull], ?_⟩
      · have hc : v.finish_ ≠ v.end_of_storage_ ∧ v.finish_ = v.end_ := ⟨hfull, rfl⟩
        rw [vector.insert]
        simp only [if_pos hc, hy, new_allocator.construct,
          write_eq v.block _ y hfl, bind, Except.bind, pure, Except.pure, vector.begin_,
          Nat.sub_zero, Nat.zero_add]
      · apply elems_splice v _ [y] v.finish_ hp (by omega) rfl
        intro j hj
        simp only [List.getElem?_set, List.length_singleton]
        by_cases h2 : j < v.finish_
        · rw [if_pos h2, if_neg (by omega)]
        · have h3 : j = v.finish_ := by simp only [List.length_singleton] at hj; omega
          subst h3
          simp [hfl]
    · obtain ⟨v1, e1, f1, c1, l1, g1⟩ :=
        insert_aux_spare v pos value y hwf0 hfull (by omega) hy hv
      refine ⟨v1, ?_, ⟨by omega, by omega⟩, f1, by rw [if_neg hfull]; exact c1, ?_⟩
      · have hc : ¬ (v.finish_ ≠ v.end_of_storage_ ∧ pos = v.end_) := by
          intro h; exact hend h.2
        simp only [vector.insert, hc, if_false, e1, bind, Except.bind, pure, Except.pure,
          vector.begin_, Nat.sub_zero, Nat.zero_add]
      · apply elems_splice v v1 [y] pos hp (by omega) f1
        intro j hj
        rw [g1 j hj, singleton_char]
        rfl

/-- Function `push_back` for an outside value or any slot of the vector: the
slot read through `value` is appended. -/
theorem push_back_ref {Tp : Type} [sizeof Tp] (v : vector Tp) (value : Ref Tp) (y : Slot Tp)
    (hwf : v.wf)
    (hmax : v.size = v.capacity →
      (if v.size ≠ 0 then 2 * v.size else 1) ≤ new_allocator.max_size Tp)
    (hint : v.size = v.capacity → v.size ≤ int_max)
    (hy : value.get v.block = .ok y) :
    ∃ v1, v.push_back value = .ok v1 ∧ v1.wf ∧ v1.size = v.size + 1 ∧
      v1.capacity =
        (if v.size = v.capacity then (if v.size ≠ 0 then 2 * v.size else 1) else v.capacity) ∧
      v1.elems = v.elems ++ [y] := by
  have hwf0 := hwf
  obtain ⟨hfe, hel⟩ := hwf
  have htake : v.elems.take v.finish_ ++ ([y] ++ v.elems.drop v.finish_) = v.elems ++ [y] := by
    have hl : v.elems.length = v.finish_ := by simp [vector.elems]; omega
    rw [List.take_of_length_le (by omega), List.drop_of_length_le (by omega)]
    simp
  simp only [vector.size, vector.capacity] at hmax hint ⊢
  by_cases hfull : v.finish_ = v.end_of_storage_
  · obtain ⟨v1, e1, f1, c1, l1, g1⟩ :=
      insert_aux_full v v.finish_ value y hwf0 hfull (le_refl _) (hmax hfull) (hint hfull) hy
    simp only [vector.size] at c1
    refine ⟨v1, ?_, ⟨?_, by omega⟩, f1, by rw [if_pos hfull]; exact c1, ?_⟩
    · rw [vector.push_back, if_neg (not_not.mpr hfull)]
      exact e1
    · rw [f1, c1]; split <;> omega
    · rw [← htake]
      apply elems_splice v v1 [y] v.finish_ (le_refl _) (by omega) f1
      intro j hj
      rw [g1 j hj, singleton_char]
      rfl
  · have hfl : v.finish_ < v.block.length := by omega
    refine ⟨{ v with block := v.block.set v.finish_ y, finish_ := v.finish_ + 1 }, ?_,
      ⟨by simp only []; omega, by simpa using hel⟩, rfl, by rw [if_neg hfull], ?_⟩
    · rw [vector.push_back, if_pos hfull]
      simp only [hy, new_allocator.construct, write_eq v.block _ y hfl, bind, Except.bind,
        pure, Except.pure]
    · rw [← htake]
      apply elems_splice v _ [y] v.finish_ (le_refl _) (by omega) rfl
      intro j hj
      simp only [List.getElem?_set, List.length_singleton]
      by_cases h2 : j < v.finish_
      · rw [if_pos h2, if_neg (by omega)]
      · have h3 : j = v.finish_ := by simp only [List.length_singleton] at hj; omega
        subst h3
        simp [hfl]

theorem push_back_all_append {Tp : Type} [sizeof Tp] (xs ys : List Tp) :
    ∀ v : vector Tp, vector.push_back_all v (xs ++ ys) =
      (vector.push_back_all v xs) >>= fun v1 => vector.push_back_all v1 ys := by
  induction xs with
  | nil => intro v; rfl
  | cons x xs ih =>
    intro v
    simp only [List.cons_append, vector.push_back_all, bind, Except.bind]
    cases v.push_back (.ext x) with
    | error e => rfl
    | ok v1 => exact ih v1

theorem push_back_cap_pow2 {Tp : Type} (v v1 : vector Tp) (h : cap_pow2 v)
    (hs : v1.size = v.size + 1)
    (hc : v1.capacity =
      (if v.size = v.capacity then (if v.size ≠ 0 then 2 * v.size else 1) else v.capacity)) :
    cap_pow2 v1 ∧ v.capacity ≤ v1.capacity := by
  rcases h with ⟨h0, hc0⟩ | ⟨e, he, h1, h2⟩
  · rw [if_pos (by omega), if_neg (by omega)] at hc
    exact ⟨Or.inr ⟨0, by simpa using hc, by simp; omega, by simp; omega⟩, by omega⟩
  · by_cases hf : v.size = v.capacity
    · rw [if_pos hf, if_pos (by omega)] at hc
      refine ⟨Or.inr ⟨e + 1, by rw [hc, pow_succ]; omega, by rw [pow_succ]; omega,
        by rw [pow_succ]; omega⟩, by omega⟩
    · rw [if_neg hf] at hc
      exact ⟨Or.inr ⟨e, by omega, by omega, by omega⟩, by omega⟩

/-- A run of `push_back` calls from any well-formed vector. -/
theorem push_back_all_from {Tp : Type} [sizeof Tp] (xs : List Tp) :
    ∀ v : vector Tp, v.wf → cap_pow2 v →
      2 * (v.size + xs.length) ≤ new_allocator.max_size Tp →
      v.size + xs.length ≤ int_max + 1 →
      ∃ v1, vector.push_back_all v xs = .ok v1 ∧ v1.wf ∧ cap_pow2 v1 ∧
        v1.size = v.size + xs.length ∧ v1.elems = v.elems ++ xs.map some ∧
        v.capacity ≤ v1.capacity := by
  induction xs with
  | nil =>
    intro v hwf hcp _ _
    exact ⟨v, rfl, hwf, hcp, by simp, by simp, le_refl _⟩
  | cons x xs ih =>
    intro v hwf hcp hmax hint
    simp only [List.length_cons] at hmax hint
    obtain ⟨v1, e1, w1, s1, c1, l1⟩ := push_back_ref v (.ext x) (some x) hwf
      (by intro _; split <;> omega) (by intro _; omega) rfl
    obtain ⟨hcp1, hmono⟩ := push_back_cap_pow2 v v1 hcp s1 c1
    obtain ⟨v2, e2, w2, hcp2, s2, l2, m2⟩ := ih v1 w1 hcp1 (by rw [s1]; omega)
      (by rw [s1]; omega)
    refine ⟨v2, ?_, w2, hcp2, by rw [s2, s1, List.length_cons]; omega, ?_, by omega⟩
    · simp only [vector.push_back_all, e1, bind, Except.bind]
      exact e2
    · rw [l2, l1]; simp

theorem index_of_elems {Tp : Type} (v : vector Tp) (i : Nat) (y : Slot Tp)
    (h : v.elems[i]? = some y) : v.index i = .ok y := by
  simp only [vector.elems, List.getElem?_take] at h
  split at h
  · exact (read_ok_iff v.block i y).mpr h
  · cases h

theorem pow2_least (e k : Nat) (h : 2 ^ e < 2 * k) : ∀ e1, k ≤ 2 ^ e1 → 2 ^ e ≤ 2 ^ e1 := by
  intro e1 hk
  by_contra hlt
  have h1 : e1 < e := by
    by_contra hge
    exact hlt (Nat.pow_le_pow_right (by omega) (by omega))
  have h2 : 2 ^ (e1 + 1) ≤ 2 ^ e := Nat.pow_le_pow_right (by omega) h1
  rw [pow_succ] at h2
  omega

theorem cap_pow2_default {Tp : Type} : cap_pow2 (vector.default : vector Tp) :=
  Or.inl ⟨rfl, rfl⟩

theorem wf_default {Tp : Type} : (vector.default : vector Tp).wf :=
  ⟨le_refl _, le_refl _⟩

/-- Up to `2 ^ 31` calls of `push_back` on a default-constructed vector: after
`push_back(x1)`, ..., `push_back(xk)` the calls have all returned, `size()` is
`k`, the range `[begin(), end())` holds `x1, ..., xk` in push order, and
`operator[]` reads `x(i+1)` at every index `i < k`.  No reallocation copies
more than `int_max` elements, and the capacities requested stay within
`max_size()`. -/
theorem push_back_sequence {Tp : Type} [sizeof Tp] (xs : List Tp)
    (hmax : 2 * xs.length ≤ new_allocator.max_size Tp) (hint : xs.length ≤ int_max + 1) :
    ∃ v, vector.push_back_all vector.default xs = .ok v ∧ v.size = xs.length ∧
      v.elems = xs.map some ∧ ∀ (i : Nat) (h : i < xs.length), v.index i = .ok (some xs[i]) := by
  obtain ⟨v, e, _, _, hs, hl, _⟩ := push_back_all_from xs vector.default wf_default
    cap_pow2_default (by simpa [vector.size, vector.default] using hmax)
    (by simpa [vector.size, vector.default] using hint)
  have hl2 : v.elems = xs.map some := by simpa [vector.elems, vector.default] using hl
  refine ⟨v, e, by simpa [vector.size, vector.default] using hs, hl2, ?_⟩
  intro i h
  apply index_of_elems
  rw [hl2, List.getElem?_map, List.getElem?_eq_getElem h]
  rfl

/-- Up to `2 ^ 31` calls of `push_back` on a default-constructed vector: the
capacity after `k = |xs| + 1 ≥ 1` calls is a power of two, is at least `k`, and
is at most every power of two that is at least `k`; and it is not smaller than
the capacity after the first `k - 1` of these calls. -/
theorem push_back_capacity_pow2 {Tp : Type} [sizeof Tp] (xs : List Tp) (x : Tp)
    (hmax : 2 * (xs.length + 1) ≤ new_allocator.max_size Tp)
    (hint : xs.length + 1 ≤ int_max + 1) :
    ∃ v v1, vector.push_back_all vector.default xs = .ok v ∧
      vector.push_back_all vector.default (xs ++ [x]) = .ok v1 ∧
      v.capacity ≤ v1.capacity ∧
      ∃ e, v1.capacity = 2 ^ e ∧ xs.length + 1 ≤ 2 ^ e ∧
        ∀ e1, xs.length + 1 ≤ 2 ^ e1 → 2 ^ e ≤ 2 ^ e1 := by
  obtain ⟨v, e, w, cp, hs, _, _⟩ := push_back_all_from xs vector.default wf_default
    cap_pow2_default (by simp only [vector.size, vector.default]; omega)
    (by simp only [vector.size, vector.default]; omega)
  have hs0 : v.size = xs.length := by simpa [vector.size, vector.default] using hs
  obtain ⟨v1, e1, w1, cp1, hs1, _, hm1⟩ := push_back_all_from [x] v w cp
    (by rw [hs0]; simpa using hmax) (by rw [hs0]; simpa using hint)
  refine ⟨v, v1, e, ?_, hm1, ?_⟩
  · rw [push_back_all_append, e]
    exact e1
  · have hs2 : v1.size = xs.length + 1 := by rw [hs1, hs0]; rfl
    rcases cp1 with ⟨h0, _⟩ | ⟨k, hk, h1, h2⟩
    · omega
    · exact ⟨k, hk, by omega, pow2_least k _ (by rw [← hs2]; exact h2)⟩

theorem pop_back_one {Tp : Type} (v : vector Tp) (hwf : v.wf) (hne : 0 < v.size) :
    ∃ v1, v.pop_back = .ok v1 ∧ v1.wf ∧ v1.size = v.size - 1 ∧ v1.capacity = v.capacity ∧
      v1.elems = v.elems.dropLast := by
  obtain ⟨hfe, hel⟩ := hwf
  simp only [vector.size] at hne
  have h1 : v.finish_ - 1 < v.block.length := by omega
  refine ⟨{ v with block := v.block.set (v.finish_ - 1) none, finish_ := v.finish_ - 1 }, ?_,
    ⟨by simp only []; omega, by simpa using hel⟩, rfl, rfl, ?_⟩
  · simp only [vector.pop_back, ptr_sub_eq v.finish_ 1 (by omega), new_allocator.destroy,
      if_pos h1, bind, Except.bind, pure, Except.pure]
  · have hl : (List.take v.finish_ v.block).length = v.finish_ := by simp; omega
    simp only [vector.elems, List.dropLast_eq_take, hl]
    apply List.ext_getElem?
    intro j
    simp only [List.getElem?_take, List.getElem?_set]
    by_cases hj : j < v.finish_ - 1
    · rw [if_pos hj, if_pos hj, if_neg (by omega), if_pos (by omega)]
    · rw [if_neg hj, if_neg hj]

theorem pop_back_n_spec {Tp : Type} :
    ∀ (k : Nat) (v : vector Tp), v.wf → k ≤ v.size →
      ∃ v1, vector.pop_back_n k v = .ok v1 ∧ v1.size = v.size - k ∧
        v1.capacity = v.capacity := by
  intro k
  induction k with
  | zero => intro v _ _; exact ⟨v, rfl, rfl, rfl⟩
  | succ k ih =>
    intro v hwf hk
    obtain ⟨v1, e1, w1, s1, c1, _⟩ := pop_back_one v hwf (by omega)
    obtain ⟨v2, e2, s2, c2⟩ := ih v1 w1 (by omega)
    refine ⟨v2, ?_, by omega, by omega⟩
    simp only [vector.pop_back_n, e1, bind, Except.bind]
    exact e2

/-- C4: on a non-empty vector `pop_back()` returns, `size()` is one less, the
last element is gone and the elements before it are as they were (the new
range is the old one without its last slot, and `operator[]` reads the same
at every index below the new size), and `capacity()` is unchanged; `size()`
calls of `pop_back()` leave size `0` and the capacity as before. -/
theorem pop_back_spec {Tp : Type} (v : vector Tp) (hwf : v.wf) (hne : 0 < v.size) :
    (∃ v1, v.pop_back = .ok v1 ∧ v1.size + 1 = v.size ∧ v1.capacity = v.capacity ∧
      v1.elems = v.elems.dropLast ∧ ∀ i, i < v1.size → v1.index i = v.index i) ∧
    ∃ v2, vector.pop_back_n v.size v = .ok v2 ∧ v2.size = 0 ∧ v2.capacity = v.capacity := by
  constructor
  · obtain ⟨v1, e1, _, s1, c1, l1⟩ := pop_back_one v hwf hne
    refine ⟨v1, e1, by omega, c1, l1, ?_⟩
    intro i hi
    have h2 : v1.block[i]? = v.block[i]? := by
      have h3 : v1.elems[i]? = v.elems.dropLast[i]? := by rw [l1]
      simp only [vector.elems, List.dropLast_eq_take, List.getElem?_take] at h3
      simp only [vector.size] at hi s1 hne
      have hl : (List.take v.finish_ v.block).length = v.finish_ := by
        simp; exact le_trans hwf.1 hwf.2
      rw [hl, if_pos hi, if_pos (by omega), if_pos (by omega)] at h3
      exact h3
    simp only [vector.index, read, h2]
  · obtain ⟨v2, e2, s2, c2⟩ := pop_back_n_spec v.size v hwf (le_refl _)
    exact ⟨v2, e2, by omega, c2⟩

/-- C5: `at(pos)` fails exactly when `pos >= size()`, and then by throwing;
when `pos < size()` it returns the slot at index `pos` of `[begin(), end())`,
which is what `operator[](pos)` returns.  The function only reads: no data
member is written, so the embedding returns no new vector. -/
theorem at_range_check {Tp : Type} (v : vector Tp) (pos : Nat) (hwf : v.wf) :
    ((∃ e, v.at_ pos = .error e) ↔ v.size ≤ pos) ∧
    (v.size ≤ pos → v.at_ pos = .error (.thrown "Out-of-memory")) ∧
    (pos < v.size → ∃ x, v.elems[pos]? = some x ∧ v.at_ pos = .ok x ∧ v.index pos = .ok x) := by
  obtain ⟨hfe, hel⟩ := hwf
  have hge : v.size ≤ pos → v.at_ pos = .error (.thrown "Out-of-memory") := by
    intro h
    simp only [vector.at_, vector.range_check, ge_iff_le, if_pos h, bind, Except.bind]
  have hlt : pos < v.size →
      ∃ x, v.elems[pos]? = some x ∧ v.at_ pos = .ok x ∧ v.index pos = .ok x := by
    intro h
    have h1 : ¬ v.size ≤ pos := by omega
    simp only [vector.size] at h
    have h2 : pos < v.block.length := by omega
    refine ⟨v.block[pos], ?_, ?_, read_eq v.block pos h2⟩
    · simp only [vector.elems, List.getElem?_take, if_pos h, List.getElem?_eq_getElem h2]
    · simp only [vector.at_, vector.range_check, ge_iff_le, if_neg h1, bind, Except.bind,
        read_eq v.block pos h2]
  refine ⟨⟨?_, fun h => ⟨_, hge h⟩⟩, hge, hlt⟩
  rintro ⟨e, he⟩
  by_contra hc
  obtain ⟨x, _, hx, _⟩ := hlt (by omega)
  rw [hx] at he
  cases he

/-- Function `insert(begin() + p, x)` with `0 <= p <= size()` and `x` not a
reference into the vector returns `begin() + p`, the new range is
`e0..e(p-1), x, ep..e(s-1)` and the size is `s + 1`, with spare capacity and
on a full vector alike.  A full vector has at most `int_max` elements to copy,
and the capacity requested stays within `max_size()`. -/
theorem insert_value {Tp : Type} [sizeof Tp] (v : vector Tp) (p : Nat) (x : Tp)
    (hwf : v.wf) (hp : p ≤ v.size)
    (hmax : v.size = v.capacity →
      (if v.size ≠ 0 then 2 * v.size else 1) ≤ new_allocator.max_size Tp)
    (hint : v.size = v.capacity → v.size ≤ int_max) :
    ∃ v1, v.insert p (.ext x) = .ok (v1, v1.begin_ + p) ∧ v1.size = v.size + 1 ∧
      v1.elems = v.elems.take p ++ some x :: v.elems.drop p ∧ v1.index p = .ok (some x) := by
  obtain ⟨v1, e1, _, s1, _, l1⟩ := insert_ref v p (.ext x) (some x) hwf hp hmax hint rfl
    (by intro k hk; cases hk)
  refine ⟨v1, by simpa [vector.begin_] using e1, s1, l1, ?_⟩
  apply index_of_elems
  have hl : v.elems.length = v.finish_ := by
    simp [vector.elems]; exact le_trans hwf.1 hwf.2
  simp only [vector.size] at hp
  rw [l1, List.getElem?_append_right (by simp)]
  simp [hl, Nat.min_eq_left hp]

/-- Function `v.insert(v.begin() + p, v[0])` with `p < size()`, the argument
being a reference to the vector's own element `0`: the call returns
`begin() + p`, the slot at index `p` afterwards holds the value `v[0]` had
before the call, and the other elements are placed as by an insert of that
value from outside, with spare capacity and on a full vector of at most
`int_max` elements alike. -/
theorem insert_own_first {Tp : Type} [sizeof Tp] (v : vector Tp) (p : Nat) (y : Slot Tp)
    (hwf : v.wf) (hp : p < v.size) (hy : v.index 0 = .ok y)
    (hmax : v.size = v.capacity →
      (if v.size ≠ 0 then 2 * v.size else 1) ≤ new_allocator.max_size Tp)
    (hint : v.size = v.capacity → v.size ≤ int_max) :
    ∃ v1, v.insert p (.own 0) = .ok (v1, v1.begin_ + p) ∧ v1.size = v.size + 1 ∧
      v1.index p = .ok y ∧ v1.elems = v.elems.take p ++ y :: v.elems.drop p := by
  obtain ⟨v1, e1, _, s1, _, l1⟩ := insert_ref v p (.own 0) y hwf (by omega) hmax hint hy
    (by intro k hk; cases hk; exact Nat.zero_le _)
  refine ⟨v1, by simpa [vector.begin_] using e1, s1, ?_, l1⟩
  apply index_of_elems
  have hl : v.elems.length = v.finish_ := by
    simp [vector.elems]; exact le_trans hwf.1 hwf.2
  simp only [vector.size] at hp
  rw [l1, List.getElem?_append_right (by simp)]
  simp [hl, Nat.min_eq_left (le_of_lt hp)]

/-- Function `range_insert` for a forward source, when the range fits and the
tail `[pos, finish_)` is longer than the range. -/
theorem range_insert_forward_long_tail {Tp : Type} [sizeof Tp] (v : vector Tp) (pos : Nat)
    (src : Block Tp) (first last : Nat) (hwf : v.wf) (hfl : first < last)
    (hl : last ≤ src.length) (hcap : v.capacity ≤ size_type_max)
    (hfit : last - first ≤ v.capacity - v.size) (hlong : v.finish_ - pos > last - first)
    (hint : last - first ≤ int_max) :
    ∃ v1, v.range_insert_forward pos src first last = .ok v1 ∧
      v1.finish_ = v.finish_ + (last - first) ∧ v1.end_of_storage_ = v.end_of_storage_ ∧
      v1.block.length = v.block.length ∧
      ∀ j, j < v.finish_ + (last - first) → v1.block[j]? =
        if j < pos then v.block[j]? else if j < pos + (last - first)
        then src[first + (j - pos)]? else v.block[j - (last - first)]? := by
  obtain ⟨hfe, hel⟩ := hwf
  simp only [vector.capacity, vector.size] at hcap hfit
  generalize hn : last - first = n at hfit hlong hint ⊢
  obtain ⟨b1, e1, l1, g1⟩ := copy_same v.block (v.finish_ - n) v.finish_ v.finish_
    (by omega) (by omega) (by omega) (by omega)
  obtain ⟨b2, e2, l2, g2⟩ := copy_backward_same b1 pos (v.finish_ - n) v.finish_
    (by omega) (by omega) (by omega)
  obtain ⟨b3, e3, l3, g3⟩ := copy_other src b2 first last pos (by omega) hl (by omega)
  refine ⟨{ block := b3, finish_ := v.finish_ + n, end_of_storage_ := v.end_of_storage_ },
    ?_, rfl, rfl, by simp only []; omega, ?_⟩
  · have hst : size_type ((v.end_of_storage_ : Int) - v.finish_) =
        v.end_of_storage_ - v.finish_ := size_type_sub _ _ hfe hcap
    have hfit2 : n ≤ size_type ((v.end_of_storage_ : Int) - v.finish_) := by rw [hst]; exact hfit
    have hbl : size_type ((v.finish_ : Int) - pos) = v.finish_ - pos :=
      size_type_sub _ _ (by omega) (by omega)
    rw [vector.range_insert_forward, if_neg (by omega)]
    simp only [vector.distance, if_pos (le_of_lt hfl), hn, bind, Except.bind, if_pos hfit2,
      hbl, if_pos hlong, ptr_sub_eq v.finish_ n (by omega),
      uninitialized_copy_eq _ _ (v.finish_ - n) v.finish_ _ (by omega), e1, e2, e3,
      pure, Except.pure]
  · intro j hj
    simp only []
    rw [g3 j, hn]
    by_cases h1 : j < pos
    · rw [if_pos h1, if_neg (by omega), g2 j, if_neg (by omega), g1 j, if_neg (by omega)]
    · rw [if_neg h1]
      by_cases h2 : j < pos + n
      · rw [if_pos h2, if_pos (by omega)]
      · rw [if_neg h2, if_neg (by omega), g2 j]
        by_cases h3 : j < v.finish_
        · rw [if_pos (by omega), g1, if_neg (by omega)]
          congr 1
          omega
        · rw [if_neg (by omega), g1 j, if_pos (by omega)]
          congr 1
          omega

/-- Function `range_insert` for a forward source, when the range fits and the
tail `[pos, finish_)` is not longer than the range. -/
theorem range_insert_forward_short_tail {Tp : Type} [sizeof Tp] (v : vector Tp) (pos : Nat)
    (src : Block Tp) (first last : Nat) (hwf : v.wf) (hp : pos ≤ v.finish_) (hfl : first < last)
    (hl : last ≤ src.length) (hcap : v.capacity ≤ size_type_max)
    (hfit : last - first ≤ v.capacity - v.size) (hshort : ¬ v.finish_ - pos > last - first)
    (hint : last - first ≤ int_max) :
    ∃ v1, v.range_insert_forward pos src first last = .ok v1 ∧
      v1.finish_ = v.finish_ + (last - first) ∧ v1.end_of_storage_ = v.end_of_storage_ ∧
      v1.block.length = v.block.length ∧
      ∀ j, j < v.finish_ + (last - first) → v1.block[j]? =
        if j < pos then v.block[j]? else if j < pos + (last - first)
        then src[first + (j - pos)]? else v.block[j - (last - first)]? := by
  obtain ⟨hfe, hel⟩ := hwf
  simp only [vector.capacity, vector.size] at hcap hfit
  generalize hn : last - first = n at hfit hshort hint ⊢
  generalize hb : v.finish_ - pos = back at hshort
  obtain ⟨b1, e1, l1, g1⟩ := copy_other src v.block (first + back) last v.finish_
    (by omega) hl (by omega)
  obtain ⟨b2, e2, l2, g2⟩ := copy_same b1 pos v.finish_ (v.finish_ + (n - back))
    hp (by omega) (by omega) (by omega)
  obtain ⟨b3, e3, l3, g3⟩ := copy_other src b2 first (first + back) pos
    (by omega) (by omega) (by omega)
  refine ⟨{ block := b3, finish_ := v.finish_ + (n - back) + back,
            end_of_storage_ := v.end_of_storage_ },
    ?_, by simp only []; omega, rfl, by simp only []; omega, ?_⟩
  · have hst : size_type ((v.end_of_storage_ : Int) - v.finish_) =
        v.end_of_storage_ - v.finish_ := size_type_sub _ _ hfe hcap
    have hfit2 : n ≤ size_type ((v.end_of_storage_ : Int) - v.finish_) := by rw [hst]; exact hfit
    have hbl : size_type ((v.finish_ : Int) - pos) = back := by
      rw [← hb]; exact size_type_sub _ _ hp (by omega)
    rw [vector.range_insert_forward, if_neg (by omega)]
    simp only [vector.distance, if_pos (le_of_lt hfl), hn, hbl, bind, Except.bind, if_pos hfit2,
      if_neg hshort, vector.advance,
      uninitialized_copy_eq _ _ (first + back) last _ (by omega),
      uninitialized_copy_eq _ _ pos v.finish_ _ (by omega), e1, e2, e3, pure, Except.pure]
  · intro j hj
    simp only []
    rw [g3 j]
    by_cases h1 : j < pos
    · rw [if_pos h1, if_neg (by omega), g2 j, if_neg (by omega), g1 j, if_neg (by omega)]
    · rw [if_neg h1]
      by_cases h2 : j < v.finish_
      · rw [if_pos (by omega), if_pos (by omega)]
      · rw [if_neg (by omega), g2 j]
        by_cases h3 : j < pos + n
        · rw [if_neg (by omega), g1 j, if_pos (by omega), if_pos h3]
          congr 1
          omega
        · rw [if_pos (by omega), if_neg h3, g1, if_neg (by omega)]
          congr 1
          omega

/-- Function `range_insert` for a forward source, when the range does not fit:
a new block receives the elements before `pos`, the range, and the rest. -/
theorem range_insert_forward_grow {Tp : Type} [sizeof Tp] (v : vector Tp) (pos : Nat)
    (src : Block Tp) (first last : Nat) (hwf : v.wf) (hp : pos ≤ v.finish_) (hfl : first < last)
    (hl : last ≤ src.length) (hcap : v.capacity ≤ size_type_max)
    (hfit : ¬ last - first ≤ v.capacity - v.size)
    (hmax : (if v.size ≥ last - first then 2 * v.size else v.size + (last - first)) ≤
      new_allocator.max_size Tp)
    (hint : last - first ≤ int_max) (hsz : v.size ≤ int_max) :
    ∃ v1, v.range_insert_forward pos src first last = .ok v1 ∧
      v1.finish_ = v.finish_ + (last - first) ∧
      v1.end_of_storage_ =
        (if v.size ≥ last - first then 2 * v.size else v.size + (last - first)) ∧
      v1.block.length = v1.end_of_storage_ ∧
      ∀ j, j < v.finish_ + (last - first) → v1.block[j]? =
        if j < pos then v.block[j]? else if j < pos + (last - first)
        then src[first + (j - pos)]? else v.block[j - (last - first)]? := by
  obtain ⟨hfe, hel⟩ := hwf
  have hms := max_size_le Tp
  simp only [vector.capacity] at hcap hfit
  generalize hn : last - first = n at hfit hmax hint ⊢
  have hcw : (if v.size ≥ n then size_type (2 * (v.size : Int))
      else size_type ((v.size : Int) + n)) = (if v.size ≥ n then 2 * v.size else v.size + n) := by
    by_cases h0 : v.size ≥ n
    · rw [if_pos h0] at hmax
      rw [if_pos h0, if_pos h0]
      exact size_type_two_mul _ (by omega)
    · rw [if_neg h0] at hmax
      rw [if_neg h0, if_neg h0]
      exact size_type_add _ _ (by omega)
  generalize hc : (if v.size ≥ n then 2 * v.size else v.size + n) = c at hcw hmax
  have hc1 : v.finish_ + n ≤ c := by
    rw [← hc]; simp only [vector.size]; split <;> omega
  simp only [vector.size] at hfit hsz
  obtain ⟨n1, e1, l1, g1⟩ := copy_other v.block (List.replicate c none) 0 pos 0
    (by omega) (by omega) (by simp; omega)
  simp only [List.length_replicate, Nat.sub_zero, Nat.zero_add] at e1 l1 g1
  obtain ⟨n2, e2, l2, g2⟩ := copy_other src n1 first last pos (by omega) hl (by omega)
  rw [hn] at e2 g2
  obtain ⟨n3, e3, l3, g3⟩ := copy_other v.block n2 pos v.finish_ (pos + n) hp (by omega)
    (by omega)
  refine ⟨{ block := n3, finish_ := pos + n + (v.finish_ - pos), end_of_storage_ := c },
    ?_, by simp only []; omega, rfl, by simp only []; omega, ?_⟩
  · have hst : size_type ((v.end_of_storage_ : Int) - v.finish_) =
        v.end_of_storage_ - v.finish_ := size_type_sub _ _ hfe hcap
    have hfit2 : ¬ n ≤ size_type ((v.end_of_storage_ : Int) - v.finish_) := by
      rw [hst]; exact hfit
    rw [vector.range_insert_forward, if_neg (by omega)]
    simp only [vector.distance, if_pos (le_of_lt hfl), hn, bind, Except.bind, if_neg hfit2,
      hcw, allocate_eq Tp c hmax, uninitialized_copy_eq _ _ 0 pos _ (by omega),
      uninitialized_copy_eq _ _ first last _ (by omega),
      uninitialized_copy_eq _ _ pos v.finish_ _ (by omega), e1, e2, e3,
      destroy_and_deallocate_ok v (by omega), pure, Except.pure]
  · intro j hj
    simp only []
    rw [g3 j]
    by_cases h1 : j < pos
    · rw [if_pos h1, if_neg (by omega), g2 j, if_neg (by omega), g1 j, if_pos (by omega)]
    · rw [if_neg h1]
      by_cases h2 : j < pos + n
      · rw [if_pos h2, if_neg (by omega), g2 j, if_pos (by omega)]
      · rw [if_neg h2, if_pos (by omega)]
        congr 1
        omega

/-- The slots of the source range `[first, last)`. -/
theorem getElem?_range {Tp : Type} (src : Block Tp) (first last i : Nat) :
    ((src.drop first).take (last - first))[i]? =
      if i < last - first then src[first + i]? else none := by
  rw [List.getElem?_take, List.getElem?_drop]

/-- Function `insert(begin() + p, first, last)` with `0 <= p <= size()` and a
forward or better source range `[first, last)` of `n <= int_max` slots outside
the vector returns `begin() + p`, the new range is
`e0..e(p-1), r0..r(n-1), ep..e(s-1)` and the size is `s + n`, whichever of the
three branches runs; an empty source range leaves the vector as it is.  A
vector that has to grow has at most `int_max` elements to copy, and the block
at hand and the capacity requested are within `max_size()`. -/
theorem insert_range_forward {Tp : Type} [sizeof Tp] (v : vector Tp) (p : Nat)
    (src : Block Tp) (first last : Nat) (hwf : v.wf) (hp : p ≤ v.size) (hfl : first ≤ last)
    (hl : last ≤ src.length) (hcap : v.capacity ≤ new_allocator.max_size Tp)
    (hmax : last - first > v.capacity - v.size →
      (if v.size ≥ last - first then 2 * v.size else v.size + (last - first)) ≤
        new_allocator.max_size Tp)
    (hint : last - first ≤ int_max)
    (hsz : last - first > v.capacity - v.size → v.size ≤ int_max) :
    ∃ v1, v.insert_range p src first last = .ok (v1, v1.begin_ + p) ∧
      v1.size = v.size + (last - first) ∧
      v1.elems = v.elems.take p ++ ((src.drop first).take (last - first) ++ v.elems.drop p) ∧
      (first = last → v1 = v) := by
  have hcap2 : v.capacity ≤ size_type_max := le_trans hcap (max_size_le Tp)
  have hfin : v.finish_ ≤ v.block.length := le_trans hwf.1 hwf.2
  have hrl : ((src.drop first).take (last - first)).length = last - first := by
    simp; omega
  simp only [vector.size] at hp
  have key : ∃ v1, v.range_insert_forward p src first last = .ok v1 ∧
      v1.finish_ = v.finish_ + (last - first) ∧ (first = last → v1 = v) ∧
      ∀ j, j < v.finish_ + (last - first) → v1.block[j]? =
        if j < p then v.block[j]? else if j < p + (last - first)
        then src[first + (j - p)]? else v.block[j - (last - first)]? := by
    by_cases hemp : first = last
    · refine ⟨v, by rw [vector.range_insert_forward, if_pos hemp], by omega, fun _ => rfl, ?_⟩
      intro j hj
      have h0 : last - first = 0 := by omega
      rw [h0]
      by_cases h1 : j < p
      · rw [if_pos h1]
      · rw [if_neg h1, if_neg (by omega)]; rfl
    · have hlt : first < last := by omega
      by_cases hfit : last - first ≤ v.capacity - v.size
      · by_cases hlong : v.finish_ - p > last - first
        · obtain ⟨v1, e1, f1, _, _, g1⟩ := range_insert_forward_long_tail v p src first last
            hwf hlt hl hcap2 hfit hlong hint
          exact ⟨v1, e1, f1, fun h => absurd h hemp, g1⟩
        · obtain ⟨v1, e1, f1, _, _, g1⟩ := range_insert_forward_short_tail v p src first last
            hwf hp hlt hl hcap2 hfit hlong hint
          exact ⟨v1, e1, f1, fun h => absurd h hemp, g1⟩
      · obtain ⟨v1, e1, f1, _, _, g1⟩ := range_insert_forward_grow v p src first last
          hwf hp hlt hl hcap2 hfit (hmax (by omega)) hint (hsz (by omega))
        exact ⟨v1, e1, f1, fun h => absurd h hemp, g1⟩
  obtain ⟨v1, e1, f1, hv, g1⟩ := key
  refine ⟨v1, ?_, f1, ?_, hv⟩
  · simp only [vector.insert_range, vector.insert_aux_range, e1, bind, Except.bind, pure,
      Except.pure, vector.begin_, Nat.sub_zero, Nat.zero_add]
  · apply elems_splice v v1 _ p hp hfin (by rw [hrl]; exact f1)
    intro j hj
    rw [hrl] at hj ⊢
    rw [g1 j hj, getElem?_range]
    by_cases h1 : j < p
    · rw [if_pos h1, if_pos h1]
    · rw [if_neg h1, if_neg h1]
      by_cases h2 : j < p + (last - first)
      · rw [if_pos h2, if_pos h2, if_pos (by omega)]
      · rw [if_neg h2, if_neg h2]

/-! Evaluations on concrete vectors. -/

/-- The demo loop: the capacities seen while pushing the ten ints `0..9`. -/
theorem demo_push_back_capacities :
    vector.push_back_capacities (vector.default : vector Int) [0, 1, 2, 3, 4, 5, 6, 7, 8, 9] =
      .ok [1, 2, 4, 4, 8, 8, 8, 8, 16, 16] := by
  rfl

theorem push_back_sequence_witness :
    2 * ([0, 1, 2, 3, 4, 5, 6, 7, 8, 9] : List Int).length ≤ new_allocator.max_size Int ∧
    ([0, 1, 2, 3, 4, 5, 6, 7, 8, 9] : List Int).length ≤ int_max + 1 ∧
    ∃ v, vector.push_back_all vector.default ([0, 1, 2, 3, 4, 5, 6, 7, 8, 9] : List Int) = .ok v ∧
      v.size = ([0, 1, 2, 3, 4, 5, 6, 7, 8, 9] : List Int).length ∧
      v.elems = ([0, 1, 2, 3, 4, 5, 6, 7, 8, 9] : List Int).map some ∧
      ∀ (i : Nat) (h : i < ([0, 1, 2, 3, 4, 5, 6, 7, 8, 9] : List Int).length),
        v.index i = .ok (some ([0, 1, 2, 3, 4, 5, 6, 7, 8, 9] : List Int)[i]) :=
  ⟨by decide, by decide, push_back_sequence _ (by decide) (by decide)⟩

theorem push_back_capacity_pow2_witness :
    2 * (([0, 1, 2, 3, 4, 5, 6, 7, 8] : List Int).length + 1) ≤ new_allocator.max_size Int ∧
    ([0, 1, 2, 3, 4, 5, 6, 7, 8] : List Int).length + 1 ≤ int_max + 1 ∧
    ∃ v v1, vector.push_back_all vector.default ([0, 1, 2, 3, 4, 5, 6, 7, 8] : List Int) = .ok v ∧
      vector.push_back_all vector.default (([0, 1, 2, 3, 4, 5, 6, 7, 8] : List Int) ++ [9]) =
        .ok v1 ∧
      v.capacity ≤ v1.capacity ∧
      ∃ e, v1.capacity = 2 ^ e ∧ ([0, 1, 2, 3, 4, 5, 6, 7, 8] : List Int).length + 1 ≤ 2 ^ e ∧
        ∀ e1, ([0, 1, 2, 3, 4, 5, 6, 7, 8] : List Int).length + 1 ≤ 2 ^ e1 → 2 ^ e ≤ 2 ^ e1 :=
  ⟨by decide, by decide, push_back_capacity_pow2 _ 9 (by decide) (by decide)⟩

theorem pop_back_spec_witness :
    (vector.mk [some 0, some 1, some 2, none] 3 4 : vector Int).wf ∧
    0 < (vector.mk [some 0, some 1, some 2, none] 3 4 : vector Int).size ∧
    ((∃ v1, (vector.mk [some 0, some 1, some 2, none] 3 4 : vector Int).pop_back = .ok v1 ∧
      v1.size + 1 = (vector.mk [some 0, some 1, some 2, none] 3 4 : vector Int).size ∧
      v1.capacity = (vector.mk [some 0, some 1, some 2, none] 3 4 : vector Int).capacity ∧
      v1.elems = (vector.mk [some 0, some 1, some 2, none] 3 4 : vector Int).elems.dropLast ∧
      ∀ i, i < v1.size →
        v1.index i = (vector.mk [some 0, some 1, some 2, none] 3 4 : vector Int).index i) ∧
    ∃ v2, vector.pop_back_n (vector.mk [some 0, some 1, some 2, none] 3 4 : vector Int).size
        (vector.mk [some 0, some 1, some 2, none] 3 4 : vector Int) = .ok v2 ∧
      v2.size = 0 ∧
      v2.capacity = (vector.mk [some 0, some 1, some 2, none] 3 4 : vector Int).capacity) :=
  ⟨by decide, by decide, pop_back_spec _ (by decide) (by decide)⟩

theorem at_range_check_witness :
    (vector.mk [some 0, some 1, some 2, none] 3 4 : vector Int).wf ∧
    (((∃ e, (vector.mk [some 0, some 1, some 2, none] 3 4 : vector Int).at_ 3 = .error e) ↔
      (vector.mk [some 0, some 1, some 2, none] 3 4 : vector Int).size ≤ 3) ∧
    ((vector.mk [some 0, some 1, some 2, none] 3 4 : vector Int).size ≤ 3 →
      (vector.mk [some 0, some 1, some 2, none] 3 4 : vector Int).at_ 3 =
        .error (.thrown "Out-of-memory")) ∧
    (3 < (vector.mk [some 0, some 1, some 2, none] 3 4 : vector Int).size →
      ∃ x, (vector.mk [some 0, some 1, some 2, none] 3 4 : vector Int).elems[3]? = some x ∧
        (vector.mk [some 0, some 1, some 2, none] 3 4 : vector Int).at_ 3 = .ok x ∧
        (vector.mk [some 0, some 1, some 2, none] 3 4 : vector Int).index 3 = .ok x)) :=
  ⟨by decide, at_range_check _ 3 (by decide)⟩

theorem insert_value_witness :
    (vector.mk [some 1, some 1, some 11, some 9] 4 4 : vector Int).wf ∧
    2 ≤ (vector.mk [some 1, some 1, some 11, some 9] 4 4 : vector Int).size ∧
    ((vector.mk [some 1, some 1, some 11, some 9] 4 4 : vector Int).size =
        (vector.mk [some 1, some 1, some 11, some 9] 4 4 : vector Int).capacity →
      (if (vector.mk [some 1, some 1, some 11, some 9] 4 4 : vector Int).size ≠ 0
        then 2 * (vector.mk [some 1, some 1, some 11, some 9] 4 4 : vector Int).size else 1) ≤
        new_allocator.max_size Int) ∧
    ((vector.mk [some 1, some 1, some 11, some 9] 4 4 : vector Int).size = (vector.mk [some 1, some 1, some 11, some 9] 4 4 : vector Int).capacity → (vector.mk [some 1, some 1, some 11, some 9] 4 4 : vector Int).size ≤ int_max) ∧
    ∃ v1, (vector.mk [some 1, some 1, some 11, some 9] 4 4 : vector Int).insert 2 (.ext 12) =
        .ok (v1, v1.begin_ + 2) ∧
      v1.size = (vector.mk [some 1, some 1, some 11, some 9] 4 4 : vector Int).size + 1 ∧
      v1.elems = (vector.mk [some 1, some 1, some 11, some 9] 4 4 : vector Int).elems.take 2 ++
        some 12 :: (vector.mk [some 1, some 1, some 11, some 9] 4 4 : vector Int).elems.drop 2 ∧
      v1.index 2 = .ok (some 12) :=
  ⟨by decide, by decide, by decide, by decide,
    insert_value _ 2 12 (by decide) (by decide) (by decide) (by decide)⟩

theorem insert_own_first_witness :
    (vector.mk [some 5, some 6, some 7, none] 3 4 : vector Int).wf ∧
    1 < (vector.mk [some 5, some 6, some 7, none] 3 4 : vector Int).size ∧
    (vector.mk [some 5, some 6, some 7, none] 3 4 : vector Int).index 0 = .ok (some 5) ∧
    ((vector.mk [some 5, some 6, some 7, none] 3 4 : vector Int).size =
        (vector.mk [some 5, some 6, some 7, none] 3 4 : vector Int).capacity →
      (if (vector.mk [some 5, some 6, some 7, none] 3 4 : vector Int).size ≠ 0
        then 2 * (vector.mk [some 5, some 6, some 7, none] 3 4 : vector Int).size else 1) ≤
        new_allocator.max_size Int) ∧
    ((vector.mk [some 5, some 6, some 7, none] 3 4 : vector Int).size = (vector.mk [some 5, some 6, some 7, none] 3 4 : vector Int).capacity → (vector.mk [some 5, some 6, some 7, none] 3 4 : vector Int).size ≤ int_max) ∧
    ∃ v1, (vector.mk [some 5, some 6, some 7, none] 3 4 : vector Int).insert 1 (.own 0) =
        .ok (v1, v1.begin_ + 1) ∧
      v1.size = (vector.mk [some 5, some 6, some 7, none] 3 4 : vector Int).size + 1 ∧
      v1.index 1 = .ok (some 5) ∧
      v1.elems = (vector.mk [some 5, some 6, some 7, none] 3 4 : vector Int).elems.take 1 ++
        some 5 :: (vector.mk [some 5, some 6, some 7, none] 3 4 : vector Int).elems.drop 1 :=
  ⟨by decide, by decide, rfl, by decide, by decide,
    insert_own_first _ 1 (some 5) (by decide) (by decide) rfl (by decide) (by decide)⟩

theorem insert_range_forward_witness :
    (vector.mk [some 1, some 2, some 3, none] 3 4 : vector Int).wf ∧
    2 ≤ (vector.mk [some 1, some 2, some 3, none] 3 4 : vector Int).size ∧
    0 ≤ 2 ∧ 2 ≤ ([some 7, some 8] : Block Int).length ∧
    (vector.mk [some 1, some 2, some 3, none] 3 4 : vector Int).capacity ≤
      new_allocator.max_size Int ∧
    (2 - 0 > (vector.mk [some 1, some 2, some 3, none] 3 4 : vector Int).capacity -
        (vector.mk [some 1, some 2, some 3, none] 3 4 : vector Int).size →
      (if (vector.mk [some 1, some 2, some 3, none] 3 4 : vector Int).size ≥ 2 - 0
        then 2 * (vector.mk [some 1, some 2, some 3, none] 3 4 : vector Int).size
        else (vector.mk [some 1, some 2, some 3, none] 3 4 : vector Int).size + (2 - 0)) ≤
        new_allocator.max_size Int) ∧
    2 - 0 ≤ int_max ∧
    (2 - 0 > (vector.mk [some 1, some 2, some 3, none] 3 4 : vector Int).capacity - (vector.mk [some 1, some 2, some 3, none] 3 4 : vector Int).size → (vector.mk [some 1, some 2, some 3, none] 3 4 : vector Int).size ≤ int_max) ∧
    ∃ v1, (vector.mk [some 1, some 2, some 3, none] 3 4 : vector Int).insert_range 2
        [some 7, some 8] 0 2 = .ok (v1, v1.begin_ + 2) ∧
      v1.size = (vector.mk [some 1, some 2, some 3, none] 3 4 : vector Int).size + (2 - 0) ∧
      v1.elems = (vector.mk [some 1, some 2, some 3, none] 3 4 : vector Int).elems.take 2 ++
        ((([some 7, some 8] : Block Int).drop 0).take (2 - 0) ++
          (vector.mk [some 1, some 2, some 3, none] 3 4 : vector Int).elems.drop 2) ∧
      (0 = 2 → v1 = (vector.mk [some 1, some 2, some 3, none] 3 4 : vector Int)) :=
  ⟨by decide, by decide, by decide, by decide, by decide, by decide, by decide, by decide,
    insert_range_forward _ 2 [some 7, some 8] 0 2 (by decide) (by decide) (by decide)
      (by decide) (by decide) (by decide) (by decide) (by decide)⟩

/-- C1 (the code breaks it): the vector reached by `reserve(4)`, `push_back(1)`,
`shrink_to_fit()` has `size() = capacity() = 1` in a block of four slots.  On it
`insert(end(), 3, 7)` takes the branch guarded by
`finish_ + n - 1 != end_of_storage_`, fills three slots past `end_of_storage_`
and returns with `size() = 4 > capacity() = 1`; `resize(4, 7)`, which calls
that `insert`, does the same. -/
theorem insert_n_breaks_invariant :
    (vector.reserve (vector.default : vector Int) 4 >>= fun a =>
      a.push_back (.ext 1) >>= fun b => pure b.shrink_to_fit) =
      .ok (vector.mk [some 1, none, none, none] 1 1) ∧
    (vector.mk [some 1, none, none, none] 1 1 : vector Int).wf ∧
    (vector.mk [some 1, none, none, none] 1 1 : vector Int).insert_n 1 3 (.ext 7) =
      .ok (vector.mk [some 1, some 7, some 7, some 7] 4 1, 3) ∧
    (vector.mk [some 1, none, none, none] 1 1 : vector Int).resize 4 (.ext 7) =
      .ok (vector.mk [some 1, some 7, some 7, some 7] 4 1) ∧
    ¬ ((vector.mk [some 1, some 7, some 7, some 7] 4 1 : vector Int).size ≤
      (vector.mk [some 1, some 7, some 7, some 7] 4 1 : vector Int).capacity) :=
  ⟨rfl, by decide, rfl, rfl, by decide⟩

/-- C8 (the code breaks it): on the full vector `[1, 2]` the call
`insert(begin() + 1, 1, 9)` reallocates, but `fill_n(pos, n, value)` writes the
copy of `9` into the old block: the new block is `1, raw, 9` with size `3`,
where the claim has `1, 9, 2`.  The overload for integral arguments does the
same, and on the empty vector the call writes through the null `pos`. -/
theorem insert_n_full_loses_elements :
    vector.push_back_all (vector.default : vector Int) [1, 2] =
      .ok (vector.mk [some 1, some 2] 2 2) ∧
    (vector.mk [some 1, some 2] 2 2 : vector Int).insert_n 1 1 (.ext 9) =
      .ok (vector.mk [some 1, none, some 9, none] 3 4, 1) ∧
    (vector.mk [some 1, none, some 9, none] 3 4 : vector Int).elems =
      [some 1, none, some 9] ∧
    (vector.mk [some 1, none, some 9, none] 3 4 : vector Int).elems ≠
      (vector.mk [some 1, some 2] 2 2 : vector Int).elems.take 1 ++
        (List.replicate 1 (some 9) ++
          (vector.mk [some 1, some 2] 2 2 : vector Int).elems.drop 1) ∧
    (vector.mk [some 1, some 2] 2 2 : vector Int).insert_aux_integral 1 1 (.ext 9) =
      .ok (vector.mk [some 1, none, some 9, none] 3 4, 1) ∧
    (vector.default : vector Int).insert_n 0 1 (.ext 9) = .error .undefined :=
  ⟨rfl, rfl, rfl, by decide, rfl, rfl⟩

/-- C10 (the code breaks it): the vector reached by `reserve(6)`, two
`push_back`s and `shrink_to_fit()` has `size() = capacity() = 2`.  With `n = 3`
(so `s < n`) `insert(end(), 3, 9)` leaves the capacity at `2`, below
`max(s + n, 2 * s) = 5`; with `n = 2` (so `s >= n`) `insert(begin(), 2, 9)`
leaves it at `2`, not `2 * s = 4`.  No branch reallocates for `n >= 2`; on the
full vector `[1, 2]` whose block ends at `end_of_storage_` the same call writes
past the block. -/
theorem insert_n_full_keeps_capacity :
    (vector.reserve (vector.default : vector Int) 6 >>= fun a =>
      a.push_back (.ext 1) >>= fun b => b.push_back (.ext 2) >>= fun c =>
        pure c.shrink_to_fit) =
      .ok (vector.mk [some 1, some 2, none, none, none, none] 2 2) ∧
    (vector.mk [some 1, some 2, none, none, none, none] 2 2 : vector Int).size =
      (vector.mk [some 1, some 2, none, none, none, none] 2 2 : vector Int).capacity ∧
    (∃ v1 it, (vector.mk [some 1, some 2, none, none, none, none] 2 2 : vector Int).insert_n
        2 3 (.ext 9) = .ok (v1, it) ∧ v1.capacity = 2 ∧
        ¬ (max (2 + 3) (if 2 = 0 then 1 else 2 * 2) ≤ v1.capacity)) ∧
    (∃ v1 it, (vector.mk [some 1, some 2, none, none, none, none] 2 2 : vector Int).insert_n
        0 2 (.ext 9) = .ok (v1, it) ∧ v1.capacity = 2 ∧ v1.capacity ≠ 2 * 2) ∧
    (vector.mk [some 1, some 2] 2 2 : vector Int).insert_n 0 2 (.ext 9) = .error .undefined :=
  ⟨rfl, rfl, ⟨_, _, rfl, rfl, by decide⟩, ⟨_, _, rfl, rfl, by decide⟩, rfl⟩

/-! Erasing, clearing and reserving. -/

/-- From a slot-by-slot description of the new block to the new element
sequence: the slots `[f, l)` have been cut out. -/
theorem elems_cut {Tp : Type} (v v1 : vector Tp) (f l : Nat) (hfl : f ≤ l)
    (hl : l ≤ v.finish_) (hlen : v.finish_ ≤ v.block.length)
    (hfin : v1.finish_ = v.finish_ - (l - f))
    (hchar : ∀ j, j < v.finish_ - (l - f) → v1.block[j]? =
      if j < f then v.block[j]? else v.block[j + (l - f)]?) :
    v1.elems = v.elems.take f ++ v.elems.drop l := by
  have hl0 : v.elems.length = v.finish_ := by simp [vector.elems]; omega
  have hl1 : (v.elems.take f).length = f := by simp; omega
  apply List.ext_getElem?
  intro j
  rw [List.getElem?_append, hl1]
  simp only [vector.elems, List.getElem?_take, List.getElem?_drop, hfin]
  by_cases h1 : j < v.finish_ - (l - f)
  · rw [if_pos h1, hchar j h1]
    by_cases h2 : j < f
    · rw [if_pos h2, if_pos h2, if_pos h2, if_pos (by omega)]
    · rw [if_neg h2, if_neg h2, if_pos (by omega)]
      congr 1
      omega
  · rw [if_neg h1, if_neg (by omega), if_neg (by omega)]

/-- Function `erase(first, last)` on a range of the vector. -/
theorem erase_range_cut {Tp : Type} (v : vector Tp) (f l : Nat) (hwf : v.wf) (hfl : f ≤ l)
    (hl : l ≤ v.size) :
    ∃ v1, v.erase_range f l = .ok (v1, f) ∧ v1.wf ∧ v1.size = v.size - (l - f) ∧
      v1.capacity = v.capacity ∧ v1.block.length = v.block.length ∧
      v1.elems = v.elems.take f ++ v.elems.drop l := by
  obtain ⟨hfe, hel⟩ := hwf
  simp only [vector.size] at hl
  obtain ⟨b, e, lb, g⟩ := copy_same v.block l v.finish_ f hl (by omega) (by omega)
    (Or.inr hfl)
  refine ⟨{ v with block := b, finish_ := f + (v.finish_ - l) }, ?_,
    ⟨by simp only []; omega, by simp only []; omega⟩, by simp only [vector.size]; omega,
    rfl, lb, ?_⟩
  · simp only [vector.erase_range, e, bind, Except.bind, pure, Except.pure]
  · apply elems_cut v _ f l hfl hl (by omega) (by simp only []; omega)
    intro j hj
    simp only []
    rw [g j]
    by_cases h1 : j < f
    · rw [if_pos h1, if_neg (by omega)]
    · rw [if_neg h1, if_pos (by omega)]
      congr 1
      omega

/-- C11: `erase(begin() + p)` with `p < size()` returns `begin() + p`, the new
range is `e0..e(p-1), e(p+1)..e(s-1)`, the size is `s - 1` and the capacity is
unchanged. -/
theorem erase_at {Tp : Type} (v : vector Tp) (p : Nat) (hwf : v.wf) (hp : p < v.size) :
    ∃ v1, v.erase (v.begin_ + p) = .ok (v1, v1.begin_ + p) ∧ v1.size + 1 = v.size ∧
      v1.capacity = v.capacity ∧ v1.elems = v.elems.take p ++ v.elems.drop (p + 1) := by
  obtain ⟨hfe, hel⟩ := hwf
  simp only [vector.size] at hp
  have fin : ∀ b : Block Tp, b.length = v.block.length →
      (∀ j, j < v.finish_ - 1 → b[j]? = if j < p then v.block[j]? else v.block[j + 1]?) →
      (do
        let finish ← ptr_sub v.finish_ 1
        let b1 ← new_allocator.destroy b finish
        (pure ({ v with block := b1, finish_ := finish }, p) : Except Fault (vector Tp × Nat))) =
        .ok ({ v with block := b.set (v.finish_ - 1) none, finish_ := v.finish_ - 1 }, p) ∧
      ({ v with block := b.set (v.finish_ - 1) none, finish_ := v.finish_ - 1 } : vector Tp).elems
        = v.elems.take p ++ v.elems.drop (p + 1) := by
    intro b lb g
    constructor
    · simp only [ptr_sub_eq v.finish_ 1 (by omega), new_allocator.destroy,
        if_pos (show v.finish_ - 1 < b.length by omega), bind, Except.bind, pure, Except.pure]
    · apply elems_cut v _ p (p + 1) (by omega) (by omega) (by omega) (by simp only []; omega)
      intro j hj
      simp only [Nat.add_sub_cancel_left] at hj ⊢
      rw [List.getElem?_set, if_neg (by omega), g j hj]
  by_cases hlast : p + 1 = v.finish_
  · obtain ⟨e1, l1⟩ := fin v.block rfl (by intro j hj; rw [if_pos (by omega)])
    refine ⟨{ v with block := v.block.set (v.finish_ - 1) none, finish_ := v.finish_ - 1 },
      ?_, by simp only [vector.size]; omega, rfl, l1⟩
    have hc : ¬ (p + 1 ≠ v.end_) := not_not.mpr hlast
    rw [vector.erase]
    simp only [vector.begin_, Nat.zero_add, if_neg hc, pure, Except.pure, bind, Except.bind]
      at e1 ⊢
    exact e1
  · obtain ⟨b, e, lb, g⟩ := copy_same v.block (p + 1) v.finish_ p (by omega) (by omega)
      (by omega) (Or.inr (by omega))
    obtain ⟨e1, l1⟩ := fin b lb (by
      intro j hj
      rw [g j]
      by_cases h1 : j < p
      · rw [if_pos h1, if_neg (by omega)]
      · rw [if_neg h1, if_pos (by omega)]
        congr 1
        omega)
    refine ⟨{ v with block := b.set (v.finish_ - 1) none, finish_ := v.finish_ - 1 },
      ?_, by simp only [vector.size]; omega, rfl, l1⟩
    have hc : p + 1 ≠ v.end_ := hlast
    rw [vector.erase]
    simp only [vector.begin_, Nat.zero_add, if_pos hc, e, pure, Except.pure, bind, Except.bind]
      at e1 ⊢
    exact e1

/-- C12: `erase(begin() + f, begin() + l)` with `f <= l <= size()` returns
`begin() + f`, the new range is `e0..e(f-1), el..e(s-1)`, the size is
`s - (l - f)` and the capacity is unchanged; with `l = size()`, as in
`erase(begin() + 5, end())`, exactly the first `f` elements are left. -/
theorem erase_range_spec {Tp : Type} (v : vector Tp) (f l : Nat) (hwf : v.wf) (hfl : f ≤ l)
    (hl : l ≤ v.size) :
    ∃ v1, v.erase_range (v.begin_ + f) (v.begin_ + l) = .ok (v1, v1.begin_ + f) ∧
      v1.size = v.size - (l - f) ∧ v1.capacity = v.capacity ∧
      v1.elems = v.elems.take f ++ v.elems.drop l ∧
      (l = v.end_ → v1.size = f ∧ v1.elems = v.elems.take f) := by
  obtain ⟨v1, e, _, s1, c1, _, l1⟩ := erase_range_cut v f l hwf hfl hl
  refine ⟨v1, by simpa [vector.begin_] using e, s1, c1, l1, ?_⟩
  intro hend
  have hl0 : v.elems.length = v.finish_ := by
    simp [vector.elems]; exact le_trans hwf.1 hwf.2
  simp only [vector.end_] at hend
  simp only [vector.size] at s1 hl ⊢
  refine ⟨by omega, ?_⟩
  rw [l1, List.drop_of_length_le (by omega), List.append_nil]

/-- C13: `clear()` returns with `size() = 0` and the capacity it found, on every
vector; a second `clear()` changes nothing more, so `clear(); clear()` ends in
the state `clear()` ends in. -/
theorem clear_idempotent {Tp : Type} (v : vector Tp) :
    ∃ v1, v.clear = .ok v1 ∧ v1.size = 0 ∧ v1.capacity = v.capacity ∧ v1.elems = [] ∧
      v1.clear = .ok v1 ∧ (v.clear >>= fun w => w.clear) = v.clear := by
  have h : ∀ w : vector Tp, w.clear = .ok { w with finish_ := 0 } := by
    intro w
    simp only [vector.clear, vector.erase_range, vector.begin_, vector.end_, copy, le_refl,
      if_true, Nat.sub_self, copy_loop, bind, Except.bind, pure, Except.pure]
  refine ⟨{ v with finish_ := 0 }, h v, rfl, rfl, by simp [vector.elems], ?_, ?_⟩
  · rw [h]
  · rw [h v]
    simp only [bind, Except.bind]
    rw [h]

/-- C15 (amended): on a vector of at most `int_max` elements, `reserve(n)` with
`n <= capacity()` returns and changes nothing; with
`capacity() < n <= max_size()` it returns with the size and every element as
before and the capacity exactly `n`; with `n` above both `capacity()` and
`max_size()` it throws, as `allocate` does. -/
theorem reserve_spec {Tp : Type} [sizeof Tp] (v : vector Tp) (n : Nat) (hwf : v.wf)
    (hint : v.capacity < n → v.size ≤ int_max) :
    ((v.capacity < n → n ≤ new_allocator.max_size Tp) →
      ∃ v1, v.reserve n = .ok v1 ∧ v1.size = v.size ∧ v1.elems = v.elems ∧
        (∀ i, i < v.size → v1.index i = v.index i) ∧
        v1.capacity = (if v.capacity < n then n else v.capacity) ∧
        v.capacity ≤ v1.capacity) ∧
    (v.capacity < n → new_allocator.max_size Tp < n →
      v.reserve n = .error (.thrown "Out-of-memory")) := by
  obtain ⟨hfe, hel⟩ := hwf
  constructor
  · intro hmax
    by_cases hg0 : v.capacity < n
    · have hg : v.end_of_storage_ < n := hg0
      have hsz : v.finish_ ≤ int_max := hint hg0
      obtain ⟨b, e, lb, g⟩ := copy_other v.block (List.replicate n none) 0 v.finish_ 0
        (Nat.zero_le _) (by omega) (by simp; omega)
      simp only [List.length_replicate, Nat.sub_zero, Nat.zero_add] at e lb g
      have hb : ∀ j, j < v.finish_ → b[j]? = v.block[j]? := by
        intro j hj
        rw [g j, if_pos ⟨Nat.zero_le _, hj⟩]
      refine ⟨{ block := b, finish_ := v.size, end_of_storage_ := n }, ?_, rfl, ?_, ?_,
        by rw [if_pos hg0]; rfl, by simp only [vector.capacity]; omega⟩
      · rw [vector.reserve, if_pos hg0]
        simp only [vector.allocate_and_copy, allocate_eq Tp n (hmax hg0),
          uninitialized_copy_eq _ _ 0 v.finish_ _ (by omega), e,
          destroy_and_deallocate_ok v (by omega), bind, Except.bind, pure, Except.pure]
      · apply List.ext_getElem?
        intro j
        simp only [vector.elems, vector.size, List.getElem?_take]
        by_cases hj : j < v.finish_
        · rw [if_pos hj, if_pos hj, hb j hj]
        · rw [if_neg hj, if_neg hj]
      · intro i hi
        simp only [vector.index, read, hb i hi]
    · refine ⟨v, by rw [vector.reserve, if_neg hg0], rfl, rfl, fun _ _ => rfl,
        by rw [if_neg hg0], le_refl _⟩
  · intro hg0 hbig
    rw [vector.reserve, if_pos hg0]
    simp only [vector.allocate_and_copy, new_allocator.allocate, gt_iff_lt, if_pos hbig, bind,
      Except.bind]

/-! Copying a vector. -/

theorem destroy_loop_spec {Tp : Type} :
    ∀ (k : Nat) (b : Block Tp) (first : Nat), first + k ≤ b.length →
      ∃ b1, vector.destroy_loop k b first = .ok b1 ∧ b1.length = b.length ∧
        ∀ j, b1[j]? = if first ≤ j ∧ j < first + k then some none else b[j]? := by
  intro k
  induction k with
  | zero =>
    intro b first _
    refine ⟨b, rfl, rfl, ?_⟩
    intro j
    rw [if_neg (by omega)]
  | succ k ih =>
    intro b first h
    have h1 : first < b.length := by omega
    obtain ⟨b1, he, hl, hg⟩ := ih (b.set first none) (first + 1) (by simp; omega)
    refine ⟨b1, ?_, by simpa using hl, ?_⟩
    · simp only [vector.destroy_loop, new_allocator.destroy, if_pos h1, bind, Except.bind]
      exact he
    · intro j
      rw [hg j, List.getElem?_set]
      by_cases hj : first = j
      · subst hj
        rw [if_neg (by omega), if_pos rfl, if_pos h1, if_pos (by omega)]
      · by_cases hj2 : first + 1 ≤ j ∧ j < first + 1 + k
        · rw [if_pos hj2, if_pos (by omega)]
        · rw [if_neg hj2, if_neg hj, if_neg (by omega)]

theorem destroy_spec {Tp : Type} (b : Block Tp) (first last : Nat) (h1 : first ≤ last)
    (h2 : last ≤ b.length) :
    ∃ b1, vector.destroy b first last = .ok b1 ∧ b1.length = b.length ∧
      ∀ j, b1[j]? = if first ≤ j ∧ j < last then some none else b[j]? := by
  obtain ⟨b1, e, l, g⟩ := destroy_loop_spec (last - first) b first (by omega)
  refine ⟨b1, by rw [vector.destroy, if_pos h1]; exact e, l, ?_⟩
  intro j
  rw [g j]
  by_cases hj : first ≤ j ∧ j < last
  · rw [if_pos hj, if_pos (by omega)]
  · rw [if_neg hj, if_neg (by omega)]

/-- Two vectors of one size whose blocks agree below it have the same elements
and `operator[]` reads the same. -/
theorem elems_eq_of_block {Tp : Type} (v w : vector Tp) (hs : v.finish_ = w.finish_)
    (hb : ∀ j, j < w.finish_ → v.block[j]? = w.block[j]?) :
    v.elems = w.elems ∧ ∀ i, i < w.size → v.index i = w.index i := by
  constructor
  · apply List.ext_getElem?
    intro j
    simp only [vector.elems, List.getElem?_take, hs]
    by_cases hj : j < w.finish_
    · rw [if_pos hj, if_pos hj, hb j hj]
    · rw [if_neg hj, if_neg hj]
  · intro i hi
    simp only [vector.index, read, hb i hi]

/-- Function `operator=` from another vector, branch by branch. -/
theorem operator_assign_obj {Tp : Type} [sizeof Tp] (a b : vector Tp) (ha : a.wf) (hb : b.wf)
    (hmax : b.size > a.capacity → b.size ≤ new_allocator.max_size Tp)
    (hint : b.size > a.size → b.size ≤ int_max) :
    ∃ a1, a.operator_assign (.obj b) = .ok a1 ∧ a1.wf ∧ a1.finish_ = b.finish_ ∧
      a1.end_of_storage_ = (if b.size > a.capacity then b.size else a.capacity) ∧
      ∀ j, j < b.finish_ → a1.block[j]? = b.block[j]? := by
  obtain ⟨hafe, hael⟩ := ha
  obtain ⟨hbfe, hbel⟩ := hb
  have hint2 : b.finish_ > a.finish_ → b.finish_ ≤ int_max := hint
  by_cases hg0 : b.size > a.capacity
  · have hg : b.finish_ > a.end_of_storage_ := hg0
    obtain ⟨nb, e, lb, g⟩ := copy_other b.block (List.replicate b.finish_ none) 0 b.finish_ 0
      (Nat.zero_le _) (by omega) (by simp)
    simp only [List.length_replicate, Nat.sub_zero, Nat.zero_add] at e lb g
    refine ⟨{ block := nb, finish_ := b.size, end_of_storage_ := b.size }, ?_,
      ⟨le_refl _, by simp only [vector.size]; omega⟩, rfl, by rw [if_pos hg0], ?_⟩
    · simp only [vector.operator_assign]
      rw [if_pos hg0]
      simp only [vector.allocate_and_copy, vector.size,
        vector.begin_, vector.end_, allocate_eq Tp b.finish_ (hmax hg0),
        uninitialized_copy_eq _ _ 0 b.finish_ _ (by have := hint2 (by omega); omega),
        e, destroy_and_deallocate_ok a (by omega), bind, Except.bind, pure, Except.pure]
    · intro j hj
      simp only []
      rw [g j, if_pos ⟨Nat.zero_le _, hj⟩]
  · have hg : ¬ b.finish_ > a.end_of_storage_ := hg0
    by_cases hs0 : b.size > a.size
    · have hs : b.finish_ > a.finish_ := hs0
      obtain ⟨b1, e1, l1, g1⟩ := copy_other b.block a.block 0 (0 + a.finish_) 0
        (Nat.zero_le _) (by omega) (by omega)
      obtain ⟨b2, e2, l2, g2⟩ := copy_other b.block b1 (0 + a.finish_) b.finish_ a.finish_
        (by omega) (by omega) (by omega)
      refine ⟨{ block := b2, finish_ := b.size, end_of_storage_ := a.end_of_storage_ }, ?_,
        ⟨by simp only [vector.size]; omega, by simp only []; omega⟩, rfl, by rw [if_neg hg0]; rfl,
        ?_⟩
      · simp only [vector.operator_assign]
        rw [if_neg hg0, if_pos hs0]
        simp only [vector.size, vector.begin_,
          vector.end_,
          uninitialized_copy_eq _ _ (0 + a.finish_) b.finish_ _ (by have := hint2 hs; omega),
          e1, e2, bind, Except.bind, pure, Except.pure]
      · intro j hj
        simp only []
        rw [g2 j]
        by_cases h1 : j < a.finish_
        · rw [if_neg (by omega), g1 j, if_pos (by omega)]
          congr 1
          omega
        · rw [if_pos (by omega)]
          congr 1
          omega
    · have hs : ¬ b.finish_ > a.finish_ := hs0
      obtain ⟨b1, e1, l1, g1⟩ := copy_other b.block a.block 0 b.finish_ 0
        (Nat.zero_le _) (by omega) (by omega)
      simp only [Nat.sub_zero, Nat.zero_add] at e1 g1
      obtain ⟨b2, e2, l2, g2⟩ := destroy_spec b1 b.finish_ a.finish_ (by omega) (by omega)
      refine ⟨{ block := b2, finish_ := b.size, end_of_storage_ := a.end_of_storage_ }, ?_,
        ⟨by simp only [vector.size]; omega, by simp only []; omega⟩, rfl, by rw [if_neg hg0]; rfl,
        ?_⟩
      · simp only [vector.operator_assign]
        rw [if_neg hg0, if_neg hs0]
        simp only [vector.begin_,
          vector.end_, e1, e2, bind, Except.bind, pure, Except.pure]
      · intro j hj
        simp only []
        rw [g2 j, if_neg (by omega), g1 j, if_pos ⟨Nat.zero_le _, hj⟩]

/-- Function `operator=` below the limit of the `int` counter: after the
copy-assignment `a = b` from another vector `b` the call has returned,
`a.size() == b.size()`, `a` holds the elements of `b` (`operator[]` reads the
same at every index below the size), and `a.capacity()` is `b.size()` if that
exceeded the old capacity of `a` and the old capacity otherwise; the
self-assignment `a = a` returns `a` as it was.  The argument `other` is a
`const vector&` that the function only reads, so the embedding returns no new
`b`.  When `a` grows, `b.size()` is within `max_size()`; when elements are
constructed in `a`, `b` has at most `int_max` of them. -/
theorem operator_assign_spec {Tp : Type} [sizeof Tp] (a b : vector Tp) (ha : a.wf) (hb : b.wf)
    (hmax : b.size > a.capacity → b.size ≤ new_allocator.max_size Tp)
    (hint : b.size > a.size → b.size ≤ int_max) :
    (∃ a1, a.operator_assign (.obj b) = .ok a1 ∧ a1.size = b.size ∧ a1.elems = b.elems ∧
      (∀ i, i < b.size → a1.index i = b.index i) ∧
      a1.capacity = (if b.size > a.capacity then b.size else a.capacity)) ∧
    a.operator_assign .this = .ok a := by
  obtain ⟨a1, e, _, f, c, g⟩ := operator_assign_obj a b ha hb hmax hint
  obtain ⟨h1, h2⟩ := elems_eq_of_block a1 b f g
  exact ⟨⟨a1, e, f, h1, h2, c⟩, rfl⟩

/-- Constructor `vector(const vector&)`: a block of exactly `other.size()`
slots receives the elements of `other`. -/
theorem copy_ctor_value {Tp : Type} [sizeof Tp] (c : vector Tp) (hwf : c.wf)
    (hmax : c.size ≤ new_allocator.max_size Tp) (hint : c.size ≤ int_max) :
    ∃ d, c.copy_ctor = .ok d ∧ d.finish_ = c.finish_ ∧ d.end_of_storage_ = c.size ∧
      d.block.length = c.size ∧ ∀ j, j < c.finish_ → d.block[j]? = c.block[j]? := by
  obtain ⟨hfe, hel⟩ := hwf
  obtain ⟨nb, e, lb, g⟩ := copy_other c.block (List.replicate c.finish_ none) 0 c.finish_ 0
    (Nat.zero_le _) (by omega) (by simp)
  simp only [List.length_replicate, Nat.sub_zero, Nat.zero_add] at e lb g
  refine ⟨{ block := nb, finish_ := c.finish_, end_of_storage_ := c.size }, ?_, rfl, rfl, lb, ?_⟩
  · simp only [vector.copy_ctor, vector.size, vector.begin_, vector.end_,
      allocate_eq Tp c.finish_ hmax,
      uninitialized_copy_eq _ _ 0 c.finish_ _ (by simp only [vector.size] at hint; omega), e,
      bind, Except.bind, pure, Except.pure]
  · intro j hj
    simp only []
    rw [g j, if_pos ⟨Nat.zero_le _, hj⟩]

theorem value_eq {Tp : Type} (st : Store Tp) (o : Object) (b : Block Tp)
    (h : st[o.start_]? = some b) :
    o.value st = .ok { block := b, finish_ := o.finish_, end_of_storage_ := o.end_of_storage_ } := by
  simp only [Object.value, h]

theorem value_block {Tp : Type} (st : Store Tp) (o : Object) (v : vector Tp)
    (h : o.value st = .ok v) :
    st[o.start_]? = some v.block ∧ v.finish_ = o.finish_ ∧
      v.end_of_storage_ = o.end_of_storage_ := by
  unfold Object.value at h
  cases hb : st[o.start_]? with
  | none => rw [hb] at h; cases h
  | some b =>
    rw [hb] at h
    cases h
    exact ⟨rfl, rfl, rfl⟩

/-- The statement `v[pos] = x` on one object of a store: the object then reads
`x` at `pos`, and every object whose `start_` points into another block is
what it was. -/
theorem subscript_assign_frame {Tp : Type} (st : Store Tp) (o p : Object) (ov pv : vector Tp)
    (i : Nat) (x : Tp) (ho : o.value st = .ok ov) (hp : p.value st = .ok pv)
    (hne : o.start_ ≠ p.start_) (hi : i < ov.block.length) :
    ∃ st1 ov1, st.subscript_assign o i x = .ok st1 ∧ o.value st1 = .ok ov1 ∧
      ov1.index i = .ok (some x) ∧ ov1.size = ov.size ∧ p.value st1 = .ok pv := by
  obtain ⟨hob, hof, hoe⟩ := value_block st o ov ho
  obtain ⟨hpb, hpf, hpe⟩ := value_block st p pv hp
  have hlt : o.start_ < st.length := by
    by_contra hc
    rw [List.getElem?_eq_none (by omega)] at hob
    cases hob
  refine ⟨st.set o.start_ (ov.block.set i (some x)),
    { block := ov.block.set i (some x), finish_ := o.finish_,
      end_of_storage_ := o.end_of_storage_ }, ?_, ?_, ?_, by simp only [vector.size, hof], ?_⟩
  · simp only [Store.subscript_assign, ho, write_eq ov.block i _ hi, bind, Except.bind, pure,
      Except.pure]
  · apply value_eq
    rw [List.getElem?_set, if_pos rfl, if_pos hlt]
  · simp only [vector.index]
    rw [read_ok_iff, List.getElem?_set, if_pos rfl, if_pos hi]
  · rw [← hp]
    simp only [Object.value]
    rw [List.getElem?_set, if_neg hne]

/-- The copy of `[begin(), end())` into a new block of `size()` raw slots, as
the copy constructor runs it. -/
theorem copy_ctor_block {Tp : Type} (c : vector Tp) (hwf : c.wf) (hint : c.size ≤ int_max) :
    ∃ nb, uninitialized_copy (.other c.block) (List.replicate c.finish_ none) 0 c.finish_ 0 =
        .ok (nb, c.finish_) ∧ nb.length = c.finish_ ∧
      ∀ j, j < c.finish_ → nb[j]? = c.block[j]? := by
  obtain ⟨hfe, hel⟩ := hwf
  obtain ⟨nb, e, lb, g⟩ := copy_other c.block (List.replicate c.finish_ none) 0 c.finish_ 0
    (Nat.zero_le _) (by omega) (by simp)
  simp only [List.length_replicate, Nat.sub_zero, Nat.zero_add] at e lb g
  refine ⟨nb, ?_, lb, fun j hj => by rw [g j, if_pos ⟨Nat.zero_le _, hj⟩]⟩
  rw [uninitialized_copy_eq _ _ 0 c.finish_ _ (by simp only [vector.size] at hint; omega)]
  exact e

/-- The declaration `vector d = c` below the limit of the `int` counter: the
copy `d` has `size() == c.size()`, `capacity() == c.size()` and the elements of
`c`, in the block that `allocate` added to the store: after `c[i] = x` the
object `d` is what it was, element for element, and after `d[j] = y` the object
`c` is what it was.  Here `c.size()` is within `max_size()` and `int_max`. -/
theorem copy_ctor_deep {Tp : Type} [sizeof Tp] (st : Store Tp) (c : Object) (cv : vector Tp)
    (hc : c.value st = .ok cv) (hwf : cv.wf) (hmax : cv.size ≤ new_allocator.max_size Tp)
    (hint : cv.size ≤ int_max) :
    ∃ st1 d dv, st.copy_ctor c = .ok (st1, d) ∧ d.value st1 = .ok dv ∧ c.value st1 = .ok cv ∧
      d.start_ ≠ c.start_ ∧
      dv.size = cv.size ∧ dv.capacity = cv.size ∧ dv.elems = cv.elems ∧
      (∀ i, i < cv.size → dv.index i = cv.index i) ∧
      (∀ i x, i < cv.size → ∃ st2 cv2, st1.subscript_assign c i x = .ok st2 ∧
        c.value st2 = .ok cv2 ∧ cv2.index i = .ok (some x) ∧ d.value st2 = .ok dv) ∧
      (∀ j y, j < dv.size → ∃ st3 dv3, st1.subscript_assign d j y = .ok st3 ∧
        d.value st3 = .ok dv3 ∧ dv3.index j = .ok (some y) ∧ c.value st3 = .ok cv) := by
  obtain ⟨nb, e, l1, g⟩ := copy_ctor_block cv hwf hint
  obtain ⟨hcb, hcf, hce⟩ := value_block st c cv hc
  have hlt : c.start_ < st.length := by
    by_contra hge
    rw [List.getElem?_eq_none (by omega)] at hcb
    cases hcb
  have hne : ¬ c.start_ = st.length := by omega
  obtain ⟨h1, h2⟩ := elems_eq_of_block
    { block := nb, finish_ := cv.finish_, end_of_storage_ := 0 + cv.finish_ } cv rfl g
  have hd : (Object.mk st.length cv.finish_ (0 + cv.finish_)).value (st ++ [nb]) =
      .ok { block := nb, finish_ := cv.finish_, end_of_storage_ := 0 + cv.finish_ } := by
    simp only [Object.value]
    rw [List.getElem?_append_right (le_refl _)]
    simp
  have hc1 : c.value (st ++ [nb]) = .ok cv := by
    rw [← hc]
    simp only [Object.value]
    rw [List.getElem?_append_left hlt]
  refine ⟨st ++ [nb], Object.mk st.length cv.finish_ (0 + cv.finish_),
    { block := nb, finish_ := cv.finish_, end_of_storage_ := 0 + cv.finish_ }, ?_, hd, hc1,
    by simp only []; omega, rfl, by simp only [vector.capacity, vector.size]; omega, h1, h2,
    ?_, ?_⟩
  · have h3 : (st ++ [List.replicate cv.finish_ (none : Slot Tp)])[c.start_]? =
        some cv.block := by
      rw [List.getElem?_append_left hlt]; exact hcb
    have h4 : (st ++ [List.replicate cv.finish_ (none : Slot Tp)])[st.length]? =
        some (List.replicate cv.finish_ none) := by
      rw [List.getElem?_append_right (le_refl _)]; simp
    simp only [Store.copy_ctor, Store.allocate, ← hcf,
      allocate_eq Tp cv.finish_ hmax, bind, Except.bind, pure, Except.pure,
      Store.uninitialized_copy, h3, h4, if_neg hne, e]
    simp
  · intro i x hi
    obtain ⟨st2, cv2, e2, v2, i2, _, p2⟩ := subscript_assign_frame (st ++ [nb]) c
      (Object.mk st.length cv.finish_ (0 + cv.finish_)) cv _ i x hc1 hd
      (by simp only []; omega)
      (by simp only [vector.size] at hi; exact lt_of_lt_of_le hi (le_trans hwf.1 hwf.2))
    exact ⟨st2, cv2, e2, v2, i2, p2⟩
  · intro j y hj
    obtain ⟨st3, dv3, e3, v3, i3, _, p3⟩ := subscript_assign_frame (st ++ [nb])
      (Object.mk st.length cv.finish_ (0 + cv.finish_)) c _ cv j y hd hc1
      (by simp only []; omega)
      (by simp only [vector.size] at hj; simp only []; omega)
    exact ⟨st3, dv3, e3, v3, i3, p3⟩

/-! Comparisons. -/

theorem load_of_holds {Tp : Type} (v : vector Tp) (xs : List Tp) (h : v.holds xs) (j : Nat)
    (a : Tp) (hj : xs[j]? = some a) : load v.block j = .ok a := by
  have h1 : v.elems[j]? = some (some a) := by
    rw [h.2, List.getElem?_map, hj]; rfl
  simp only [vector.elems, List.getElem?_take] at h1
  split at h1
  · simp only [load, h1]
  · cases h1

theorem end_of_holds {Tp : Type} (v : vector Tp) (xs : List Tp) (h : v.holds xs) :
    v.end_ = xs.length := h.1

/-- The loop of `operator==` from index `i` on, on vectors of one size. -/
theorem operator_eq_loop_spec {Tp : Type} (ne : Tp → Tp → Bool) (x y : vector Tp)
    (xs ys : List Tp) (hx : x.holds xs) (hy : y.holds ys) (hlen : xs.length = ys.length) :
    ∀ (n fuel i : Nat), xs.length - i = n → i ≤ xs.length → n < fuel →
      ∃ r, vector.operator_eq_loop ne x y fuel i i = .ok r ∧
        (r = true ↔ ∀ j a b, i ≤ j → xs[j]? = some a → ys[j]? = some b → ne a b = false) := by
  intro n
  induction n with
  | zero =>
    intro fuel i hn hi hf
    obtain ⟨f, rfl⟩ : ∃ f, fuel = f + 1 := ⟨fuel - 1, by omega⟩
    have hend : ¬ i ≠ x.end_ := by rw [end_of_holds x xs hx]; omega
    refine ⟨true, by simp only [vector.operator_eq_loop, if_neg hend, pure, Except.pure], ?_⟩
    constructor
    · intro _ j a b hij ha _
      have := (List.getElem?_eq_some_iff.mp ha).1
      omega
    · intro _; rfl
  | succ n ih =>
    intro fuel i hn hi hf
    obtain ⟨f, rfl⟩ : ∃ f, fuel = f + 1 := ⟨fuel - 1, by omega⟩
    have hix : i < xs.length := by omega
    have hiy : i < ys.length := by omega
    have hend : i ≠ x.end_ := by rw [end_of_holds x xs hx]; omega
    have hxa : xs[i]? = some xs[i] := List.getElem?_eq_getElem hix
    have hyb : ys[i]? = some ys[i] := List.getElem?_eq_getElem hiy
    obtain ⟨r, e, hr⟩ := ih f (i + 1) (by omega) (by omega) (by omega)
    cases hne : ne xs[i] ys[i] with
    | true =>
      refine ⟨false, ?_, ?_⟩
      · simp only [vector.operator_eq_loop, if_pos hend, load_of_holds x xs hx i _ hxa,
          load_of_holds y ys hy i _ hyb, hne, if_true, bind, Except.bind, pure, Except.pure]
      · constructor
        · intro h; cases h
        · intro h
          have := h i xs[i] ys[i] (le_refl _) hxa hyb
          rw [hne] at this
          cases this
    | false =>
      refine ⟨r, ?_, ?_⟩
      · simp only [vector.operator_eq_loop, if_pos hend, load_of_holds x xs hx i _ hxa,
          load_of_holds y ys hy i _ hyb, hne, bind, Except.bind, pure, Except.pure]
        exact e
      · rw [hr]
        constructor
        · intro h j a b hij ha hb
          by_cases hji : j = i
          · subst hji
            rw [hxa] at ha
            rw [hyb] at hb
            cases ha
            cases hb
            exact hne
          · exact h j a b (by omega) ha hb
        · intro h j a b hij ha hb
          exact h j a b (by omega) ha hb

/-- C19: for vectors `x` and `y` that hold the elements `xs` and `ys`,
`x == y` returns, and it returns `true` exactly when `x.size() == y.size()` and
the elements are equal at every index below the size (the element `!=` being
the negation of the element `==`); `x != y` returns the negation of `x == y`. -/
theorem operator_eq_spec {Tp : Type} (eq ne : Tp → Tp → Bool)
    (hne : ∀ a b, ne a b = !eq a b) (x y : vector Tp) (xs ys : List Tp)
    (hx : x.holds xs) (hy : y.holds ys) :
    ∃ r, vector.operator_eq ne x y = .ok r ∧
      (r = true ↔ x.size = y.size ∧
        ∀ i a b, i < x.size → xs[i]? = some a → ys[i]? = some b → eq a b = true) ∧
      vector.operator_ne ne x y = .ok (!r) := by
  have key : ∃ r, vector.operator_eq ne x y = .ok r ∧
      (r = true ↔ x.size = y.size ∧
        ∀ i a b, i < x.size → xs[i]? = some a → ys[i]? = some b → eq a b = true) := by
    by_cases hs : x.size = y.size
    · have hlen : xs.length = ys.length := by rw [← hx.1, ← hy.1]; exact hs
      obtain ⟨r, e, hr⟩ := operator_eq_loop_spec ne x y xs ys hx hy hlen xs.length
        (x.size + 1) 0 (by omega) (Nat.zero_le _) (by rw [hx.1]; omega)
      refine ⟨r, ?_, ?_⟩
      · simp only [vector.operator_eq, if_neg (not_not.mpr hs), vector.begin_]
        exact e
      · rw [hr]
        constructor
        · intro h
          refine ⟨hs, ?_⟩
          intro i a b _ ha hb
          have := h i a b (Nat.zero_le _) ha hb
          rw [hne] at this
          simpa using this
        · intro h j a b _ ha hb
          have hj := (List.getElem?_eq_some_iff.mp ha).1
          have := h.2 j a b (by rw [hx.1]; exact hj) ha hb
          rw [hne, this]
          rfl
    · refine ⟨false, by simp only [vector.operator_eq, if_pos hs], ?_⟩
      constructor
      · intro h; cases h
      · intro h; exact absurd h.1 hs
  obtain ⟨r, e, hr⟩ := key
  refine ⟨r, e, hr, ?_⟩
  simp only [vector.operator_ne, e, bind, Except.bind, pure, Except.pure]

/-- The loop of `operator<` from index `i` on: it returns `true` exactly when
some `k` from `i` on is reached with all pairs before it unordered, and there
`x` has ended before `y` or the element of `x` is less. -/
theorem operator_lt_loop_spec {Tp : Type} (lt : Tp → Tp → Bool) (x y : vector Tp)
    (xs ys : List Tp) (hx : x.holds xs) (hy : y.holds ys) :
    ∀ (n fuel i : Nat), min xs.length ys.length - i = n → i ≤ min xs.length ys.length →
      n < fuel →
      ∃ r, vector.operator_lt_loop lt x y fuel i i = .ok r ∧
        (r = true ↔ ∃ k, i ≤ k ∧ k ≤ xs.length ∧ k ≤ ys.length ∧
          (∀ j a b, i ≤ j → j < k → xs[j]? = some a → ys[j]? = some b →
            lt a b = false ∧ lt b a = false) ∧
          ((k = xs.length ∧ k < ys.length) ∨
            ∃ a b, xs[k]? = some a ∧ ys[k]? = some b ∧ lt a b = true)) := by
  intro n
  induction n with
  | zero =>
    intro fuel i hn hi hf
    obtain ⟨f, rfl⟩ : ∃ f, fuel = f + 1 := ⟨fuel - 1, by omega⟩
    have hmin : i = min xs.length ys.length := by omega
    have hend : ¬ (i ≠ x.end_ ∧ i ≠ y.end_) := by
      rw [end_of_holds x xs hx, end_of_holds y ys hy]; omega
    refine ⟨decide (i = x.end_ ∧ i ≠ y.end_),
      by simp only [vector.operator_lt_loop, if_neg hend, pure, Except.pure], ?_⟩
    rw [decide_eq_true_iff, end_of_holds x xs hx, end_of_holds y ys hy]
    constructor
    · rintro ⟨h1, h2⟩
      exact ⟨i, le_refl _, by omega, by omega, by intro j a b h3 h4; omega,
        Or.inl ⟨h1, by omega⟩⟩
    · rintro ⟨k, h1, h2, h3, _, h5⟩
      rcases h5 with ⟨h6, h7⟩ | ⟨a, b, ha, hb, _⟩
      · omega
      · have := (List.getElem?_eq_some_iff.mp ha).1
        have := (List.getElem?_eq_some_iff.mp hb).1
        omega
  | succ n ih =>
    intro fuel i hn hi hf
    obtain ⟨f, rfl⟩ : ∃ f, fuel = f + 1 := ⟨fuel - 1, by omega⟩
    have hix : i < xs.length := by omega
    have hiy : i < ys.length := by omega
    have hend : i ≠ x.end_ ∧ i ≠ y.end_ := by
      rw [end_of_holds x xs hx, end_of_holds y ys hy]; omega
    have hxa : xs[i]? = some xs[i] := List.getElem?_eq_getElem hix
    have hyb : ys[i]? = some ys[i] := List.getElem?_eq_getElem hiy
    obtain ⟨r, e, hr⟩ := ih f (i + 1) (by omega) (by omega) (by omega)
    cases h1 : lt xs[i] ys[i] with
    | true =>
      refine ⟨true, ?_, ?_⟩
      · simp only [vector.operator_lt_loop, if_pos hend, load_of_holds x xs hx i _ hxa,
          load_of_holds y ys hy i _ hyb, h1, if_true, bind, Except.bind, pure, Except.pure]
      · constructor
        · intro _
          exact ⟨i, le_refl _, by omega, by omega, by intro j a b h3 h4; omega,
            Or.inr ⟨_, _, hxa, hyb, h1⟩⟩
        · intro _; rfl
    | false =>
      have hk : ∀ k, i ≤ k →
          ((k = xs.length ∧ k < ys.length) ∨
            ∃ a b, xs[k]? = some a ∧ ys[k]? = some b ∧ lt a b = true) → i + 1 ≤ k := by
        intro k hik h5
        by_contra hc
        have hki : k = i := by omega
        subst hki
        rcases h5 with ⟨h6, _⟩ | ⟨a, b, ha, hb, hab⟩
        · omega
        · rw [hxa] at ha
          rw [hyb] at hb
          cases ha
          cases hb
          rw [h1] at hab
          cases hab
      cases h2 : lt ys[i] xs[i] with
      | true =>
        refine ⟨false, ?_, ?_⟩
        · simp only [vector.operator_lt_loop, if_pos hend, load_of_holds x xs hx i _ hxa,
            load_of_holds y ys hy i _ hyb, h1, h2, if_true, bind, Except.bind, pure,
            Except.pure]
          rfl
        · constructor
          · intro h; cases h
          · rintro ⟨k, hik, _, _, h4, h5⟩
            have hk1 := hk k hik h5
            have := (h4 i xs[i] ys[i] (le_refl _) (by omega) hxa hyb).2
            rw [h2] at this
            cases this
      | false =>
        refine ⟨r, ?_, ?_⟩
        · simp only [vector.operator_lt_loop, if_pos hend, load_of_holds x xs hx i _ hxa,
            load_of_holds y ys hy i _ hyb, h1, h2, bind, Except.bind, pure, Except.pure]
          exact e
        · rw [hr]
          constructor
          · rintro ⟨k, hik, hkx, hky, h4, h5⟩
            refine ⟨k, by omega, hkx, hky, ?_, h5⟩
            intro j a b hij hjk ha hb
            by_cases hji : j = i
            · subst hji
              rw [hxa] at ha
              rw [hyb] at hb
              cases ha
              cases hb
              exact ⟨h1, h2⟩
            · exact h4 j a b (by omega) hjk ha hb
          · rintro ⟨k, hik, hkx, hky, h4, h5⟩
            refine ⟨k, hk k hik h5, hkx, hky, ?_, h5⟩
            intro j a b hij hjk ha hb
            exact h4 j a b (by omega) hjk ha hb

/-- Function `operator<` on vectors that hold `xs` and `ys`. -/
theorem operator_lt_char {Tp : Type} (lt : Tp → Tp → Bool) (x y : vector Tp)
    (xs ys : List Tp) (hx : x.holds xs) (hy : y.holds ys) :
    ∃ r, vector.operator_lt lt x y = .ok r ∧
      (r = true ↔ ∃ i, i ≤ min x.size y.size ∧
        (∀ j a b, j < i → xs[j]? = some a → ys[j]? = some b →
          lt a b = false ∧ lt b a = false) ∧
        ((i = x.size ∧ x.size < y.size) ∨
          (i < x.size ∧ i < y.size ∧
            ∃ a b, xs[i]? = some a ∧ ys[i]? = some b ∧ lt a b = true))) := by
  obtain ⟨r, e, hr⟩ := operator_lt_loop_spec lt x y xs ys hx hy (min xs.length ys.length)
    (x.size + 1) 0 (by omega) (Nat.zero_le _) (by rw [hx.1]; omega)
  refine ⟨r, by simp only [vector.operator_lt, vector.begin_]; exact e, ?_⟩
  rw [hr, hx.1, hy.1]
  constructor
  · rintro ⟨k, _, hkx, hky, h4, h5⟩
    refine ⟨k, by omega, fun j a b hjk ha hb => h4 j a b (Nat.zero_le _) hjk ha hb, ?_⟩
    rcases h5 with ⟨h6, h7⟩ | ⟨a, b, ha, hb, hab⟩
    · exact Or.inl ⟨h6, by omega⟩
    · exact Or.inr ⟨(List.getElem?_eq_some_iff.mp ha).1, (List.getElem?_eq_some_iff.mp hb).1,
        a, b, ha, hb, hab⟩
  · rintro ⟨k, hk, h4, h5⟩
    refine ⟨k, Nat.zero_le _, by omega, by omega, fun j a b _ hjk ha hb => h4 j a b hjk ha hb, ?_⟩
    rcases h5 with ⟨h6, h7⟩ | ⟨_, _, a, b, ha, hb, hab⟩
    · exact Or.inl ⟨h6, by omega⟩
    · exact Or.inr ⟨a, b, ha, hb, hab⟩

/-- C20: for vectors `x` and `y` that hold the elements `xs` and `ys`, `x < y`
returns, and it returns `true` exactly when there is an index
`i <= min(x.size(), y.size())` with neither `x[j] < y[j]` nor `y[j] < x[j]` for
every `j < i`, and either `i == x.size() < y.size()` or `i` is below both sizes
and `x[i] < y[i]`.  When the element `<` is irreflexive, a strict
initial segment is less than the longer vector, and no vector is less than
itself. -/
theorem operator_lt_lexicographic {Tp : Type} (lt : Tp → Tp → Bool) (x y : vector Tp)
    (xs ys : List Tp) (hx : x.holds xs) (hy : y.holds ys) :
    ∃ r, vector.operator_lt lt x y = .ok r ∧
      (r = true ↔ ∃ i, i ≤ min x.size y.size ∧
        (∀ j a b, j < i → xs[j]? = some a → ys[j]? = some b →
          lt a b = false ∧ lt b a = false) ∧
        ((i = x.size ∧ x.size < y.size) ∨
          (i < x.size ∧ i < y.size ∧
            ∃ a b, xs[i]? = some a ∧ ys[i]? = some b ∧ lt a b = true))) ∧
      ((∀ a, lt a a = false) → (∃ zs, zs ≠ [] ∧ ys = xs ++ zs) → r = true) ∧
      ((∀ a, lt a a = false) → vector.operator_lt lt x x = .ok false) := by
  obtain ⟨r, e, hr⟩ := operator_lt_char lt x y xs ys hx hy
  refine ⟨r, e, hr, ?_, ?_⟩
  · rintro hirr ⟨zs, hzs, rfl⟩
    rw [hr, hx.1, hy.1]
    have hz : 0 < zs.length := List.length_pos.mpr hzs
    refine ⟨xs.length, by simp, ?_, Or.inl ⟨rfl, by simp; exact hz⟩⟩
    intro j a b hj ha hb
    rw [List.getElem?_append_left hj, ha] at hb
    cases hb
    exact ⟨hirr a, hirr a⟩
  · intro hirr
    obtain ⟨r1, e1, hr1⟩ := operator_lt_char lt x x xs xs hx hx
    cases r1 with
    | false => exact e1
    | true =>
      exfalso
      obtain ⟨i, _, _, h5⟩ := hr1.mp rfl
      rcases h5 with ⟨_, h7⟩ | ⟨_, _, a, b, ha, hb, hab⟩
      · omega
      · rw [ha] at hb
        cases hb
        rw [hirr a] at hab
        cases hab

/-! Construction from a range, and `resize`. -/

/-- Function `range_initialize` for forward iterators: a block of exactly
`last - first` slots receives the range. -/
theorem range_initialize_forward_spec {Tp : Type} [sizeof Tp] (v : vector Tp) (src : Block Tp)
    (first last : Nat) (hfl : first ≤ last) (hl : last ≤ src.length)
    (hmax : last - first ≤ new_allocator.max_size Tp) (hint : last - first ≤ int_max) :
    ∃ v1, v.range_initialize_forward src first last = .ok v1 ∧ v1.size = last - first ∧
      v1.capacity = last - first ∧ v1.elems = (src.drop first).take (last - first) := by
  obtain ⟨nb, e, lb, g⟩ := copy_other src (List.replicate (last - first) none) first last 0
    hfl hl (by simp)
  simp only [List.length_replicate, Nat.zero_add] at e lb g
  refine ⟨{ block := nb, finish_ := last - first, end_of_storage_ := last - first }, ?_, rfl,
    rfl, ?_⟩
  · simp only [vector.range_initialize_forward, vector.distance, if_pos hfl,
      allocate_eq Tp _ hmax, uninitialized_copy_eq _ _ first last _ hint, e, bind, Except.bind,
      pure, Except.pure]
  · apply List.ext_getElem?
    intro j
    simp only [vector.elems, List.getElem?_take, List.getElem?_drop]
    by_cases hj : j < last - first
    · rw [if_pos hj, if_pos hj, g j, if_pos ⟨Nat.zero_le _, hj⟩]
      rfl
    · rw [if_neg hj, if_neg hj]

/-- The constructor from a range selects the forward `range_initialize` for
every category that derives from `forward_iterator_tag`. -/
theorem range_ctor_forward {Tp : Type} [sizeof Tp] (t : iterator_tag) (src : Block Tp)
    (first last : Nat) (ht : t.converts .forward_iterator_tag = true) :
    range_ctor t src first last =
      some ((vector.default : vector Tp).range_initialize_forward src first last) := by
  cases t <;> first | rfl | cases ht

/-- The loop of `range_initialize` for input iterators is a run of `push_back`
calls over the values of the range. -/
theorem range_initialize_input_loop_eq {Tp : Type} [sizeof Tp] (src : Block Tp) :
    ∀ (ys : List Tp) (v : vector Tp) (i : Nat),
      (∀ j a, ys[j]? = some a → src[i + j]? = some (some a)) →
      vector.range_initialize_input_loop src ys.length v i = v.push_back_all ys := by
  intro ys
  induction ys with
  | nil => intro v i _; rfl
  | cons y ys ih =>
    intro v i h
    have h0 : src[i]? = some (some y) := by simpa using h 0 y (by simp)
    have hl : load src i = .ok y := by simp only [load, h0]
    simp only [List.length_cons, vector.range_initialize_input_loop, hl, vector.push_back_all,
      bind, Except.bind]
    cases v.push_back (.ext y) with
    | error err => rfl
    | ok v1 =>
      apply ih v1 (i + 1)
      intro j a hj
      have := h (j + 1) a (by simpa using hj)
      rw [← this]
      congr 1
      omega

/-- Function `range_initialize` for input iterators, run on the empty vector
over the values `xs`: size `|xs|` and the elements `xs` in order. -/
theorem range_initialize_input_spec {Tp : Type} [sizeof Tp] (xs : List Tp)
    (hmax : 2 * xs.length ≤ new_allocator.max_size Tp) (hint : xs.length ≤ int_max + 1) :
    ∃ v1, (vector.default : vector Tp).range_initialize_input (xs.map some) 0 xs.length =
        .ok v1 ∧ v1.size = xs.length ∧ v1.elems = xs.map some := by
  obtain ⟨v1, e, _, _, hs, hl, _⟩ := push_back_all_from xs vector.default wf_default
    cap_pow2_default (by simpa [vector.size, vector.default] using hmax)
    (by simpa [vector.size, vector.default] using hint)
  refine ⟨v1, ?_, by simpa [vector.size, vector.default] using hs,
    by simpa [vector.elems, vector.default] using hl⟩
  rw [vector.range_initialize_input, if_pos (Nat.zero_le _), Nat.sub_zero,
    range_initialize_input_loop_eq (xs.map some) xs vector.default 0 (by
      intro j a hj
      rw [Nat.zero_add, List.getElem?_map, hj]
      rfl)]
  exact e

theorem uninitialized_fill_n_loop_ext {Tp : Type} (x : Tp) :
    ∀ (k : Nat) (d : Block Tp) (first i : Nat), first + i + k ≤ d.length → i + k ≤ int_max →
      ∃ d1, uninitialized_fill_n_loop k d first i (.ext x) = .ok (d1, first + i + k) ∧
        d1.length = d.length ∧
        ∀ j, d1[j]? = if first + i ≤ j ∧ j < first + i + k then some (some x) else d[j]? := by
  intro k
  induction k with
  | zero =>
    intro d first i _ _
    refine ⟨d, rfl, rfl, ?_⟩
    intro j
    rw [if_neg (by omega)]
  | succ k ih =>
    intro d first i h hik
    have h1 : first + i < d.length := by omega
    have hi : i < int_max := by omega
    obtain ⟨d1, he, hl, hg⟩ := ih (d.set (first + i) (some x)) first (i + 1) (by simp; omega)
      (by omega)
    refine ⟨d1, ?_, by simpa using hl, ?_⟩
    · simp only [uninitialized_fill_n_loop, Ref.get, write_eq d _ _ h1, int_incr, if_pos hi,
        bind, Except.bind]
      rw [he]
      congr 2
      omega
    · intro j
      rw [hg j, List.getElem?_set]
      by_cases hj : first + i = j
      · subst hj
        rw [if_neg (by omega), if_pos rfl, if_pos h1, if_pos (by omega)]
      · by_cases hj2 : first + (i + 1) ≤ j ∧ j < first + (i + 1) + k
        · rw [if_pos hj2, if_pos (by omega)]
        · rw [if_neg hj2, if_neg hj, if_neg (by omega)]

/-- Function `resize(n, x)` with `n` within the capacity and at most `int_max`
elements to add: the size becomes `n`, the elements are cut to the first `n` or
followed by `n - s` copies of `x`, and the capacity stays. -/
theorem resize_within_capacity {Tp : Type} [sizeof Tp] (v : vector Tp) (n : Nat) (x : Tp)
    (hwf : v.wf) (hn : n ≤ v.capacity) (hint : n - v.size ≤ int_max) :
    ∃ v1, v.resize n (.ext x) = .ok v1 ∧ v1.size = n ∧ v1.capacity = v.capacity ∧
      v1.elems = v.elems.take n ++ List.replicate (n - v.size) (some x) := by
  have hl0 : v.elems.length = v.finish_ := by
    simp [vector.elems]; exact le_trans hwf.1 hwf.2
  by_cases hlt : n < v.size
  · obtain ⟨v1, e, _, s1, c1, _, l1⟩ := erase_range_cut v n v.size hwf (le_of_lt hlt) (le_refl _)
    refine ⟨v1, ?_, by omega, c1, ?_⟩
    · rw [vector.resize, if_pos hlt]
      simp only [vector.begin_, Nat.zero_add, vector.end_] at e ⊢
      simp only [vector.size] at e
      simp only [e, bind, Except.bind, pure, Except.pure]
    · simp only [vector.size] at hlt l1 ⊢
      rw [l1, List.drop_of_length_le (by omega), Nat.sub_eq_zero_of_le (le_of_lt hlt)]
      rfl
  · obtain ⟨hfe, hel⟩ := hwf
    simp only [vector.size, vector.capacity] at hlt hn hint
    obtain ⟨b, e, lb, g⟩ := uninitialized_fill_n_loop_ext x (n - v.finish_) v.block v.finish_ 0
      (by omega) (by omega)
    have hfast : (v.finish_ : Int) + (n - v.finish_ : Nat) - 1 ≠ v.end_of_storage_ ∧
        True := ⟨by omega, trivial⟩
    refine ⟨{ v with block := b, finish_ := v.finish_ + (n - v.finish_) }, ?_,
      by simp only [vector.size]; omega, rfl, ?_⟩
    · rw [vector.resize, if_neg (by simpa [vector.size] using hlt)]
      simp only [vector.insert_n, vector.size, uninitialized_fill_n, e, bind,
        Except.bind, pure, Except.pure]
      rw [if_pos hfast]
    · apply List.ext_getElem?
      intro j
      rw [List.take_of_length_le (by omega), List.getElem?_append, hl0]
      simp only [vector.elems, vector.size, List.getElem?_take, List.getElem?_replicate]
      by_cases hj : j < v.finish_
      · rw [if_pos (by omega), if_pos hj, if_pos hj, g j, if_neg (by omega)]
      · by_cases hj2 : j < n
        · rw [if_pos (by omega), if_neg hj, if_pos (by omega), g j, if_pos (by omega)]
        · rw [if_neg (by omega), if_neg hj, if_neg (by omega)]

/-! Evaluations on concrete vectors, continued. -/

theorem erase_at_witness :
    (vector.mk [some 1, some 11, some 12, some 13, none] 4 5 : vector Int).wf ∧ 1 < (vector.mk [some 1, some 11, some 12, some 13, none] 4 5 : vector Int).size ∧
    ∃ v1, (vector.mk [some 1, some 11, some 12, some 13, none] 4 5 : vector Int).erase ((vector.mk [some 1, some 11, some 12, some 13, none] 4 5 : vector Int).begin_ + 1) = .ok (v1, v1.begin_ + 1) ∧
      v1.size + 1 = (vector.mk [some 1, some 11, some 12, some 13, none] 4 5 : vector Int).size ∧
      v1.capacity = (vector.mk [some 1, some 11, some 12, some 13, none] 4 5 : vector Int).capacity ∧
      v1.elems = (vector.mk [some 1, some 11, some 12, some 13, none] 4 5 : vector Int).elems.take 1 ++
        (vector.mk [some 1, some 11, some 12, some 13, none] 4 5 : vector Int).elems.drop (1 + 1) :=
  ⟨by decide, by decide, erase_at _ 1 (by decide) (by decide)⟩

theorem erase_range_spec_witness :
    (vector.mk [some 1, some 11, some 12, some 13, none] 4 5 : vector Int).wf ∧ 1 ≤ 3 ∧ 3 ≤ (vector.mk [some 1, some 11, some 12, some 13, none] 4 5 : vector Int).size ∧
    ∃ v1, (vector.mk [some 1, some 11, some 12, some 13, none] 4 5 : vector Int).erase_range ((vector.mk [some 1, some 11, some 12, some 13, none] 4 5 : vector Int).begin_ + 1) ((vector.mk [some 1, some 11, some 12, some 13, none] 4 5 : vector Int).begin_ + 3) = .ok (v1, v1.begin_ + 1) ∧
      v1.size = (vector.mk [some 1, some 11, some 12, some 13, none] 4 5 : vector Int).size - (3 - 1) ∧
      v1.capacity = (vector.mk [some 1, some 11, some 12, some 13, none] 4 5 : vector Int).capacity ∧
      v1.elems = (vector.mk [some 1, some 11, some 12, some 13, none] 4 5 : vector Int).elems.take 1 ++ (vector.mk [some 1, some 11, some 12, some 13, none] 4 5 : vector Int).elems.drop 3 ∧
      (3 = (vector.mk [some 1, some 11, some 12, some 13, none] 4 5 : vector Int).end_ → v1.size = 1 ∧ v1.elems = (vector.mk [some 1, some 11, some 12, some 13, none] 4 5 : vector Int).elems.take 1) :=
  ⟨by decide, by decide, by decide, erase_range_spec _ 1 3 (by decide) (by decide) (by decide)⟩

theorem reserve_spec_witness :
    (vector.mk [some 0, some 1, none] 2 3 : vector Int).wf ∧
    ((vector.mk [some 0, some 1, none] 2 3 : vector Int).capacity < 8 → (vector.mk [some 0, some 1, none] 2 3 : vector Int).size ≤ int_max) ∧
    (((vector.mk [some 0, some 1, none] 2 3 : vector Int).capacity < 8 → 8 ≤ new_allocator.max_size Int) →
      ∃ v1, (vector.mk [some 0, some 1, none] 2 3 : vector Int).reserve 8 = .ok v1 ∧ v1.size = (vector.mk [some 0, some 1, none] 2 3 : vector Int).size ∧ v1.elems = (vector.mk [some 0, some 1, none] 2 3 : vector Int).elems ∧
        (∀ i, i < (vector.mk [some 0, some 1, none] 2 3 : vector Int).size → v1.index i = (vector.mk [some 0, some 1, none] 2 3 : vector Int).index i) ∧
        v1.capacity = (if (vector.mk [some 0, some 1, none] 2 3 : vector Int).capacity < 8 then 8 else (vector.mk [some 0, some 1, none] 2 3 : vector Int).capacity) ∧
        (vector.mk [some 0, some 1, none] 2 3 : vector Int).capacity ≤ v1.capacity) ∧
    ((vector.mk [some 0, some 1, none] 2 3 : vector Int).capacity < 8 → new_allocator.max_size Int < 8 →
      (vector.mk [some 0, some 1, none] 2 3 : vector Int).reserve 8 = .error (.thrown "Out-of-memory")) :=
  ⟨by decide, by decide, reserve_spec _ 8 (by decide) (by decide)⟩

theorem copy_ctor_deep_witness :
    (Object.mk 0 3 3).value ([[some 1, some 1, some 1]] : Store Int) =
      .ok (vector.mk [some 1, some 1, some 1] 3 3) ∧
    (vector.mk [some 1, some 1, some 1] 3 3 : vector Int).wf ∧
    (vector.mk [some 1, some 1, some 1] 3 3 : vector Int).size ≤ new_allocator.max_size Int ∧
    (vector.mk [some 1, some 1, some 1] 3 3 : vector Int).size ≤ int_max ∧
    ∃ st1 d dv, Store.copy_ctor ([[some 1, some 1, some 1]] : Store Int) (Object.mk 0 3 3) =
        .ok (st1, d) ∧ d.value st1 = .ok dv ∧
      (Object.mk 0 3 3).value st1 = .ok (vector.mk [some 1, some 1, some 1] 3 3) ∧
      d.start_ ≠ (Object.mk 0 3 3).start_ ∧
      dv.size = (vector.mk [some 1, some 1, some 1] 3 3 : vector Int).size ∧
      dv.capacity = (vector.mk [some 1, some 1, some 1] 3 3 : vector Int).size ∧
      dv.elems = (vector.mk [some 1, some 1, some 1] 3 3 : vector Int).elems ∧
      (∀ i, i < (vector.mk [some 1, some 1, some 1] 3 3 : vector Int).size →
        dv.index i = (vector.mk [some 1, some 1, some 1] 3 3 : vector Int).index i) ∧
      (∀ i x, i < (vector.mk [some 1, some 1, some 1] 3 3 : vector Int).size →
        ∃ st2 cv2, Store.subscript_assign st1 (Object.mk 0 3 3) i x = .ok st2 ∧
          (Object.mk 0 3 3).value st2 = .ok cv2 ∧ cv2.index i = .ok (some x) ∧
          d.value st2 = .ok dv) ∧
      (∀ j y, j < dv.size → ∃ st3 dv3, Store.subscript_assign st1 d j y = .ok st3 ∧
        d.value st3 = .ok dv3 ∧ dv3.index j = .ok (some y) ∧
        (Object.mk 0 3 3).value st3 = .ok (vector.mk [some 1, some 1, some 1] 3 3)) :=
  ⟨rfl, by decide, by decide, by decide,
    copy_ctor_deep _ _ _ rfl (by decide) (by decide) (by decide)⟩

theorem operator_assign_spec_witness :
    (vector.mk [some 0, some 1, none] 2 3 : vector Int).wf ∧ (vector.mk [some 1, some 11, some 12, some 13] 4 4 : vector Int).wf ∧
    ((vector.mk [some 1, some 11, some 12, some 13] 4 4 : vector Int).size > (vector.mk [some 0, some 1, none] 2 3 : vector Int).size → (vector.mk [some 1, some 11, some 12, some 13] 4 4 : vector Int).size ≤ int_max) ∧
    ((vector.mk [some 1, some 11, some 12, some 13] 4 4 : vector Int).size > (vector.mk [some 0, some 1, none] 2 3 : vector Int).capacity → (vector.mk [some 1, some 11, some 12, some 13] 4 4 : vector Int).size ≤ new_allocator.max_size Int) ∧
    (∃ a1, (vector.mk [some 0, some 1, none] 2 3 : vector Int).operator_assign (.obj (vector.mk [some 1, some 11, some 12, some 13] 4 4 : vector Int)) = .ok a1 ∧ a1.size = (vector.mk [some 1, some 11, some 12, some 13] 4 4 : vector Int).size ∧
      a1.elems = (vector.mk [some 1, some 11, some 12, some 13] 4 4 : vector Int).elems ∧
      (∀ i, i < (vector.mk [some 1, some 11, some 12, some 13] 4 4 : vector Int).size → a1.index i = (vector.mk [some 1, some 11, some 12, some 13] 4 4 : vector Int).index i) ∧
      a1.capacity = (if (vector.mk [some 1, some 11, some 12, some 13] 4 4 : vector Int).size > (vector.mk [some 0, some 1, none] 2 3 : vector Int).capacity then (vector.mk [some 1, some 11, some 12, some 13] 4 4 : vector Int).size else (vector.mk [some 0, some 1, none] 2 3 : vector Int).capacity)) ∧
    (vector.mk [some 0, some 1, none] 2 3 : vector Int).operator_assign .this = .ok (vector.mk [some 0, some 1, none] 2 3 : vector Int) :=
  ⟨by decide, by decide, by decide, by decide,
    operator_assign_spec _ _ (by decide) (by decide) (by decide) (by decide)⟩

theorem operator_eq_spec_witness :
    (∀ a b : Int, (a != b) = !(a == b)) ∧ (vector.mk [some 1, some 2] 2 2 : vector Int).holds [1, 2] ∧ (vector.mk [some 1, some 2, some 0] 3 3 : vector Int).holds [1, 2, 0] ∧
    ∃ r, vector.operator_eq (fun a b : Int => a != b) (vector.mk [some 1, some 2] 2 2 : vector Int) (vector.mk [some 1, some 2, some 0] 3 3 : vector Int) = .ok r ∧
      (r = true ↔ (vector.mk [some 1, some 2] 2 2 : vector Int).size = (vector.mk [some 1, some 2, some 0] 3 3 : vector Int).size ∧
        ∀ i a b, i < (vector.mk [some 1, some 2] 2 2 : vector Int).size → ([1, 2] : List Int)[i]? = some a →
          ([1, 2, 0] : List Int)[i]? = some b → (a == b) = true) ∧
      vector.operator_ne (fun a b : Int => a != b) (vector.mk [some 1, some 2] 2 2 : vector Int) (vector.mk [some 1, some 2, some 0] 3 3 : vector Int) = .ok (!r) :=
  ⟨fun _ _ => rfl, ⟨rfl, rfl⟩, ⟨rfl, rfl⟩,
    operator_eq_spec (fun a b : Int => a == b) (fun a b : Int => a != b) (fun _ _ => rfl) _ _
      [1, 2] [1, 2, 0] ⟨rfl, rfl⟩ ⟨rfl, rfl⟩⟩

theorem operator_lt_lexicographic_witness :
    (vector.mk [some 1, some 2] 2 2 : vector Int).holds [1, 2] ∧ (vector.mk [some 1, some 2, some 0] 3 3 : vector Int).holds [1, 2, 0] ∧
    ∃ r, vector.operator_lt (fun a b : Int => decide (a < b)) (vector.mk [some 1, some 2] 2 2 : vector Int) (vector.mk [some 1, some 2, some 0] 3 3 : vector Int) = .ok r ∧
      (r = true ↔ ∃ i, i ≤ min (vector.mk [some 1, some 2] 2 2 : vector Int).size (vector.mk [some 1, some 2, some 0] 3 3 : vector Int).size ∧
        (∀ j a b, j < i → ([1, 2] : List Int)[j]? = some a →
          ([1, 2, 0] : List Int)[j]? = some b →
          decide (a < b) = false ∧ decide (b < a) = false) ∧
        ((i = (vector.mk [some 1, some 2] 2 2 : vector Int).size ∧ (vector.mk [some 1, some 2] 2 2 : vector Int).size < (vector.mk [some 1, some 2, some 0] 3 3 : vector Int).size) ∨
          (i < (vector.mk [some 1, some 2] 2 2 : vector Int).size ∧ i < (vector.mk [some 1, some 2, some 0] 3 3 : vector Int).size ∧
            ∃ a b, ([1, 2] : List Int)[i]? = some a ∧ ([1, 2, 0] : List Int)[i]? = some b ∧
              decide (a < b) = true))) ∧
      ((∀ a : Int, decide (a < a) = false) →
        (∃ zs, zs ≠ [] ∧ ([1, 2, 0] : List Int) = [1, 2] ++ zs) → r = true) ∧
      ((∀ a : Int, decide (a < a) = false) →
        vector.operator_lt (fun a b : Int => decide (a < b)) (vector.mk [some 1, some 2] 2 2 : vector Int) (vector.mk [some 1, some 2] 2 2 : vector Int) = .ok false) :=
  ⟨⟨rfl, rfl⟩, ⟨rfl, rfl⟩,
    operator_lt_lexicographic (fun a b : Int => decide (a < b)) _ _ [1, 2] [1, 2, 0]
      ⟨rfl, rfl⟩ ⟨rfl, rfl⟩⟩

/-- C14 (the code breaks it): `resize(n, x)` with `n` above the capacity.  The
vector reached by `reserve(4)`, `push_back(1)`, `shrink_to_fit()` has size and
capacity `1`; on it `resize(2, 7)` reallocates, fills the old block and leaves
the new one as `1, raw` where the claim has `1, 7`.  On the empty vector
`resize(1, 7)` writes through the null `pos`, and on the full vector `[1]`
`resize(2, 7)` and `resize(3, 7)` write past the block.  Within the capacity
`resize` does what the claim says. -/
theorem resize_beyond_capacity :
    (vector.reserve (vector.default : vector Int) 4 >>= fun a =>
      a.push_back (.ext 1) >>= fun b => pure b.shrink_to_fit) =
      .ok (vector.mk [some 1, none, none, none] 1 1) ∧
    (vector.mk [some 1, none, none, none] 1 1 : vector Int).resize 2 (.ext 7) =
      .ok (vector.mk [some 1, none] 2 2) ∧
    (vector.mk [some 1, none] 2 2 : vector Int).elems ≠
      (vector.mk [some 1, none, none, none] 1 1 : vector Int).elems ++
        List.replicate (2 - 1) (some 7) ∧
    (vector.default : vector Int).resize 1 (.ext 7) = .error .undefined ∧
    vector.push_back (vector.default : vector Int) (.ext 1) = .ok (vector.mk [some 1] 1 1) ∧
    (vector.mk [some 1] 1 1 : vector Int).resize 2 (.ext 7) = .error .undefined ∧
    (vector.mk [some 1] 1 1 : vector Int).resize 3 (.ext 7) = .error .undefined ∧
    (vector.mk [some 1, some 2, none, none] 2 4 : vector Int).resize 4 (.ext 7) =
      .ok (vector.mk [some 1, some 2, some 7, some 7] 4 4) :=
  ⟨rfl, rfl, by decide, rfl, rfl, rfl, rfl, rfl⟩

/-- C18 (the code breaks it): `initialize_aux` calls `range_initialize` with
the four arguments `(first, last, alloc, tag)`.  The declaration for
`input_iterator_tag` takes three parameters and the one with four wants a
`forward_iterator_tag`, so for input-only iterators no declaration matches and
the constructor cannot be compiled; the input declaration itself, were it
called on the empty vector, would push `1, 2, 3`.  For forward and random
access iterators the constructor yields the range with capacity `3`. -/
theorem range_ctor_input_unmatched :
    initialize_aux_candidates .input_iterator_tag = [] ∧
    (range_ctor .input_iterator_tag [some 1, some 2, some 3] 0 3 :
      Option (Except Fault (vector Int))) = none ∧
    (vector.default : vector Int).range_initialize_input [some 1, some 2, some 3] 0 3 =
      .ok (vector.mk [some 1, some 2, some 3, none] 3 4) ∧
    (range_ctor .forward_iterator_tag [some 1, some 2, some 3] 0 3 :
      Option (Except Fault (vector Int))) = some (.ok (vector.mk [some 1, some 2, some 3] 3 3)) ∧
    (range_ctor .random_access_iterator_tag [some 1, some 2, some 3] 0 3 :
      Option (Except Fault (vector Int))) = some (.ok (vector.mk [some 1, some 2, some 3] 3 3)) :=
  ⟨rfl, rfl, rfl, rfl, rfl⟩

/-! Swapping, growth on a single insert, the allocator and `distance`. -/

/-- C21: `d.swap(c)` exchanges the contents of the two vectors: afterwards `d`
has the size, the capacity and the elements `c` had before the call and `c` has
those `d` had; a second `d.swap(c)` restores both vectors. -/
theorem swap_exchanges {Tp : Type} (c d : vector Tp) :
    d.swap c = (c, d) ∧
    (d.swap c).1.size = c.size ∧ (d.swap c).1.capacity = c.capacity ∧
    (d.swap c).1.elems = c.elems ∧
    (d.swap c).2.size = d.size ∧ (d.swap c).2.capacity = d.capacity ∧
    (d.swap c).2.elems = d.elems ∧
    (d.swap c).1.swap (d.swap c).2 = (d, c) := by
  have h : ∀ a b : vector Tp, a.swap b = (b, a) := fun _ _ => rfl
  refine ⟨h d c, ?_, ?_, ?_, ?_, ?_, ?_, ?_⟩ <;> rw [h d c]
  exact h c d

/-- Growth on a single insert below the limit of the `int` counter: after
`insert(begin() + p, value)` with `p <= size()`, and after `push_back(value)`,
the size is `s + 1`; the capacity is the one before the call if
`s < capacity()` held, it is `s == 0 ? 1 : 2 * s` if `s == capacity()` held, and
it is at least `s + 1`.  A full vector has at most `int_max` elements to copy,
and the capacity requested on growth is within `max_size()`. -/
theorem single_insert_growth {Tp : Type} [sizeof Tp] (v : vector Tp) (p : Nat) (x : Tp)
    (hwf : v.wf) (hp : p ≤ v.size)
    (hmax : v.size = v.capacity →
      (if v.size ≠ 0 then 2 * v.size else 1) ≤ new_allocator.max_size Tp)
    (hint : v.size = v.capacity → v.size ≤ int_max) :
    (∃ v1 it, v.insert p (.ext x) = .ok (v1, it) ∧ v1.size = v.size + 1 ∧
      (v.size < v.capacity → v1.capacity = v.capacity) ∧
      (v.size = v.capacity → v1.capacity = if v.size = 0 then 1 else 2 * v.size) ∧
      v.size + 1 ≤ v1.capacity) ∧
    (∃ v1, v.push_back (.ext x) = .ok v1 ∧ v1.size = v.size + 1 ∧
      (v.size < v.capacity → v1.capacity = v.capacity) ∧
      (v.size = v.capacity → v1.capacity = if v.size = 0 then 1 else 2 * v.size) ∧
      v.size + 1 ≤ v1.capacity) := by
  obtain ⟨v1, e1, w1, s1, c1, _⟩ := insert_ref v p (.ext x) (some x) hwf hp hmax hint rfl
    (by intro k hk; cases hk)
  obtain ⟨v2, e2, w2, s2, c2, _⟩ := push_back_ref v (.ext x) (some x) hwf hmax hint rfl
  have hw1 : v1.size ≤ v1.capacity := w1.1
  have hw2 : v2.size ≤ v2.capacity := w2.1
  refine ⟨⟨v1, p, e1, s1, ?_, ?_, by omega⟩, ⟨v2, e2, s2, ?_, ?_, by omega⟩⟩
  · intro h
    rw [c1, if_neg (by omega)]
  · intro h
    rw [c1, if_pos h]
    by_cases h0 : v.size = 0
    · rw [if_neg (not_not.mpr h0), if_pos h0]
    · rw [if_pos h0, if_neg h0]
  · intro h
    rw [c2, if_neg (by omega)]
  · intro h
    rw [c2, if_pos h]
    by_cases h0 : v.size = 0
    · rw [if_neg (not_not.mpr h0), if_pos h0]
    · rw [if_pos h0, if_neg h0]

/-- C27: `allocate(n)` throws exactly when `n > max_size()`, where `max_size()`
is `size_type(-1) / sizeof(Tp)` rounded down; for every other `n` it returns the
block, and the byte count `n * sizeof(Tp)` handed to `::operator new` is within
`size_type`, so the product computed in `size_t` is the true product. -/
theorem allocate_max_size (Tp : Type) [sizeof Tp] (n : Nat) :
    new_allocator.max_size Tp = size_type_max / sizeof.bytes Tp ∧
    (new_allocator.allocate Tp n = .error (.thrown "Out-of-memory") ↔
      n > new_allocator.max_size Tp) ∧
    ((∃ b, new_allocator.allocate Tp n = .ok b ∧ b.length = n) ↔
      n ≤ new_allocator.max_size Tp) ∧
    (n ≤ new_allocator.max_size Tp →
      n * sizeof.bytes Tp ≤ size_type_max ∧
      new_allocator.bytes_requested Tp n = n * sizeof.bytes Tp) := by
  refine ⟨rfl, ?_, ?_, ?_⟩
  · by_cases h : n > new_allocator.max_size Tp
    · simp [new_allocator.allocate, h]
    · simp [new_allocator.allocate, h]
  · by_cases h : n > new_allocator.max_size Tp
    · simp [new_allocator.allocate, h]
    · simp only [new_allocator.allocate, if_neg h]
      exact ⟨fun _ => by omega, fun _ => ⟨_, rfl, by simp⟩⟩
  · intro h
    have hb : n * sizeof.bytes Tp ≤ size_type_max :=
      le_trans (Nat.mul_le_mul_right _ h) (Nat.div_mul_le_self _ _)
    refine ⟨hb, ?_⟩
    have := size_type_natCast (n * sizeof.bytes Tp) hb
    rw [new_allocator.bytes_requested]
    rw [← this]
    congr 1

/-- The counting loop of `distance` for input iterators reaches `last` from any
position at or before it and has then added the number of steps. -/
theorem distance_input_loop_eq (last : Nat) :
    ∀ (fuel first : Nat) (n : Int), first ≤ last → last - first < fuel →
      distance_input_loop fuel first last n = .ok (n + ((last - first : Nat) : Int)) := by
  intro fuel
  induction fuel with
  | zero => intro first n _ h; omega
  | succ fuel ih =>
    intro first n h1 h2
    by_cases h : first = last
    · subst h
      simp [distance_input_loop]
    · rw [distance_input_loop, if_pos h, ih (first + 1) (n + 1) (by omega) (by omega)]
      congr 1
      omega

/-- C29: for two positions `first <= last` of one sequence, `distance` through
the input-iterator overload (counting increments until `first == last`) returns
what the random-access overload `last - first` returns: the number of elements
of `[first, last)`, which is not negative. -/
theorem distance_paths_agree (first last : Nat) (h : first ≤ last) :
    distance_input first last = .ok (distance_random_access first last) ∧
    distance_random_access first last = ((last - first : Nat) : Int) ∧
    0 ≤ distance_random_access first last := by
  have e : distance_random_access first last = ((last - first : Nat) : Int) := by
    rw [distance_random_access]; omega
  refine ⟨?_, e, by rw [e]; omega⟩
  rw [distance_input, distance_input_loop_eq last _ first 0 h (by omega), e]
  simp

/-! A reference to an own element after `pos`, lifetimes in `erase`, the two
errors and the iterator returned by `insert(pos, n, value)`. -/

/-- Function `insert_aux` with spare capacity when `value` refers to the
vector's own slot `k` after `pos`: `*pos = value` runs after the shift, when
slot `k` holds what slot `k - 1` held, and that is what lands at `pos`. -/
theorem insert_aux_spare_own_after {Tp : Type} [sizeof Tp] (v : vector Tp) (pos k : Nat)
    (y : Slot Tp) (hwf : v.wf) (hne : v.finish_ ≠ v.end_of_storage_) (hpk : pos < k)
    (hk : k ≤ v.finish_) (hy : v.block[k - 1]? = some y) :
    ∃ v1, v.insert_aux pos (.own k) = .ok v1 ∧ v1.finish_ = v.finish_ + 1 ∧
      v1.end_of_storage_ = v.end_of_storage_ ∧ v1.block.length = v.block.length ∧
      ∀ j, j < v.finish_ + 1 → v1.block[j]? =
        if j < pos then v.block[j]? else if j < pos + 1 then some y else v.block[j - 1]? := by
  obtain ⟨hfe, hel⟩ := hwf
  have hp : pos < v.finish_ := by omega
  have hfl : v.finish_ < v.block.length := by omega
  have h1 : v.finish_ - 1 < v.block.length := by omega
  obtain ⟨b2, hcb, hl2, hg2⟩ := copy_backward_same (v.block.set v.finish_ v.block[v.finish_ - 1])
    pos (v.finish_ - 1) v.finish_ (by omega) (by omega) (by simp; omega)
  have hl2 : b2.length = v.block.length := by simpa using hl2
  have hy2 : Ref.get b2 (.own k : Ref Tp) = .ok y := by
    simp only [Ref.get, read_ok_iff]
    rw [hg2 k]
    by_cases hkf : k = v.finish_
    · subst hkf
      rw [if_neg (by omega), List.getElem?_set, if_pos rfl, if_pos hfl]
      rw [← hy, List.getElem?_eq_getElem h1]
    · rw [if_pos (by omega), List.getElem?_set, if_neg (by omega), ← hy]
      congr 1
      omega
  refine ⟨{ block := b2.set pos y, finish_ := v.finish_ + 1,
            end_of_storage_ := v.end_of_storage_ }, ?_, rfl, rfl, by simpa using hl2, ?_⟩
  · rw [vector.insert_aux, if_pos hne]
    have e1 : v.finish_ + 1 - 2 = v.finish_ - 1 := by omega
    simp only [ptr_sub_eq v.finish_ 1 (by omega), ptr_sub_eq (v.finish_ + 1) 2 (by omega),
      ptr_sub_eq (v.finish_ + 1) 1 (by omega), read_eq v.block _ h1, new_allocator.construct,
      write_eq v.block _ _ hfl, bind, Except.bind, e1, Nat.add_sub_cancel, hcb, hy2,
      write_eq b2 pos y (by omega), pure, Except.pure]
  · intro j hj
    simp only [List.getElem?_set]
    by_cases h2 : pos = j
    · subst h2
      simp [show pos < b2.length by omega]
    · rw [if_neg h2, hg2 j]
      by_cases h3 : j < pos
      · rw [if_pos h3, if_neg (by omega), List.getElem?_set, if_neg (by omega)]
      · rw [if_neg h3, if_neg (show ¬ j < pos + 1 by omega)]
        by_cases h4 : j = v.finish_
        · subst h4
          rw [if_neg (by omega), List.getElem?_set, if_pos rfl, if_pos hfl]
          simp [List.getElem?_eq_getElem h1]
        · rw [if_pos (by omega), List.getElem?_set, if_neg (by omega)]
          congr 1
          omega

/-- Function `insert(begin() + p, v[k])` with spare capacity and `p < k`: the
slot at `p` afterwards holds what `v[k - 1]` held before the call. -/
theorem insert_own_after {Tp : Type} [sizeof Tp] (v : vector Tp) (p k : Nat) (y : Slot Tp)
    (hwf : v.wf) (hne : v.size < v.capacity) (hpk : p < k) (hk : k < v.size)
    (hy : v.index (k - 1) = .ok y) :
    ∃ v1, v.insert p (.own k) = .ok (v1, v1.begin_ + p) ∧ v1.size = v.size + 1 ∧
      v1.index p = .ok y := by
  simp only [vector.size, vector.capacity] at hne hk
  obtain ⟨v1, e1, f1, _, l1, g1⟩ := insert_aux_spare_own_after v p k y hwf (by omega) hpk
    (by omega) (by simpa [vector.index, read_ok_iff] using hy)
  refine ⟨v1, ?_, f1, ?_⟩
  · have hc : ¬ (v.finish_ ≠ v.end_of_storage_ ∧ p = v.end_) := by
      intro h
      have := h.2
      simp only [vector.end_] at this
      omega
    simp only [vector.insert, hc, if_false, e1, bind, Except.bind, pure, Except.pure,
      vector.begin_, Nat.sub_zero, Nat.zero_add]
  · simp only [vector.index, read_ok_iff]
    rw [g1 p (by omega), if_neg (by omega), if_pos (by omega)]

/-- Function `erase(iterator, iterator)` destroys nothing: every slot below the
old `finish_` held an object before the call and holds one after it, the
vacated slots `[new finish_, old finish_)` included. -/
theorem erase_range_keeps_objects {Tp : Type} (v : vector Tp) (f l : Nat) (hwf : v.wf)
    (hfl : f ≤ l) (hl : l ≤ v.size)
    (hlive : ∀ j, j < v.finish_ → ∃ x, v.block[j]? = some (some x)) :
    ∃ v1, v.erase_range f l = .ok (v1, f) ∧ v1.finish_ = v.finish_ - (l - f) ∧
      ∀ j, j < v.finish_ → ∃ x, v1.block[j]? = some (some x) := by
  obtain ⟨hfe, hel⟩ := hwf
  simp only [vector.size] at hl
  obtain ⟨b, e, _, g⟩ := copy_same v.block l v.finish_ f hl (by omega) (by omega)
    (Or.inr hfl)
  refine ⟨{ v with block := b, finish_ := f + (v.finish_ - l) }, ?_, by simp only []; omega, ?_⟩
  · simp only [vector.erase_range, e, bind, Except.bind, pure, Except.pure]
  · intro j hj
    simp only []
    rw [g j]
    by_cases h : f ≤ j ∧ j < f + (v.finish_ - l)
    · rw [if_pos h]
      exact hlive _ (by omega)
    · rw [if_neg h]
      exact hlive _ hj

/-- The value thrown by `at` for `pos >= size()` is the value thrown by
`allocate` for `n > max_size()`. -/
theorem thrown_same {Tp : Type} [sizeof Tp] (v : vector Tp) (pos n : Nat)
    (hp : v.size ≤ pos) (hn : new_allocator.max_size Tp < n) :
    ∃ e, v.at_ pos = .error e ∧ new_allocator.allocate Tp n = (.error e : Except Fault (Block Tp)) := by
  refine ⟨.thrown "Out-of-memory", ?_, ?_⟩
  · simp only [vector.at_, vector.range_check, ge_iff_le, if_pos hp, bind, Except.bind]
  · rw [new_allocator.allocate, if_pos hn]

/-- Function `insert(iterator, size_type, const Tp&)` returns `begin() + n`
whenever it returns. -/
theorem insert_n_returns {Tp : Type} [sizeof Tp] (v : vector Tp) (pos n : Nat)
    (value : Ref Tp) (v1 : vector Tp) (it : Nat) (h : v.insert_n pos n value = .ok (v1, it)) :
    it = v1.begin_ + n := by
  unfold vector.insert_n at h
  split at h
  · cases hu : uninitialized_fill_n v.block v.finish_ n value with
    | error e => simp [hu, bind, Except.bind] at h
    | ok r =>
      simp only [hu, bind, Except.bind, pure, Except.pure, Except.ok.injEq, Prod.mk.injEq] at h
      rw [← h.2]
      rfl
  · cases hu : vector.insert_aux_n v pos n value with
    | error e => simp [hu, bind, Except.bind] at h
    | ok r =>
      simp only [hu, bind, Except.bind, pure, Except.pure, Except.ok.injEq, Prod.mk.injEq] at h
      rw [← h.2]
      rfl

/-- C22 (the code breaks it): `push_back` of `1, 2, 3` gives a vector with one
spare slot.  On it `insert(begin(), v[2])` shifts the elements first and reads
`value` after that, when slot `2` holds the `2` that was `v[1]`: index `0`
receives `2`, not the `3` that `v[2]` held before the call.  On the full vector
`[1, 2, 3, 4]` the same call with `v[3]` reallocates and index `0` receives
`4`. -/
theorem insert_own_after_pos_stale :
    vector.push_back_all (vector.default : vector Int) [1, 2, 3] =
      .ok (vector.mk [some 1, some 2, some 3, none] 3 4) ∧
    (vector.mk [some 1, some 2, some 3, none] 3 4 : vector Int).index 2 = .ok (some 3) ∧
    (vector.mk [some 1, some 2, some 3, none] 3 4 : vector Int).insert 0 (.own 2) =
      .ok (vector.mk [some 2, some 1, some 2, some 3] 4 4, 0) ∧
    (vector.mk [some 2, some 1, some 2, some 3] 4 4 : vector Int).index 0 = .ok (some 2) ∧
    (vector.mk [some 2, some 1, some 2, some 3] 4 4 : vector Int).index 0 ≠
      (vector.mk [some 1, some 2, some 3, none] 3 4 : vector Int).index 2 ∧
    (vector.mk [some 1, some 2, some 3, some 4] 4 4 : vector Int).insert 0 (.own 3) =
      .ok (vector.mk [some 4, some 1, some 2, some 3, some 4, none, none, none] 5 8, 0) :=
  ⟨rfl, rfl, rfl, rfl,
    fun h => absurd (Except.ok.inj (h : (Except.ok (some 2) : Except Fault (Slot Int)) =
      Except.ok (some 3))) (by decide), rfl⟩

/-- C26 (the code breaks it): on the vector `[1, 2, 3]` the call
`erase(begin() + 1, begin() + 3)` moves `finish_` back by two and returns; it
calls no `destroy`, so three objects are constructed in the block and `size()`
is `1`.  After `clear()` three objects are constructed and `size()` is `0`.
The single `erase(begin() + 2)` does destroy the slot it vacates. -/
theorem erase_range_destroys_nothing :
    vector.push_back_all (vector.default : vector Int) [1, 2, 3] =
      .ok (vector.mk [some 1, some 2, some 3, none] 3 4) ∧
    (vector.mk [some 1, some 2, some 3, none] 3 4 : vector Int).constructed = 3 ∧
    (vector.mk [some 1, some 2, some 3, none] 3 4 : vector Int).erase_range 1 3 =
      .ok (vector.mk [some 1, some 2, some 3, none] 1 4, 1) ∧
    (vector.mk [some 1, some 2, some 3, none] 1 4 : vector Int).size = 1 ∧
    (vector.mk [some 1, some 2, some 3, none] 1 4 : vector Int).constructed = 3 ∧
    (vector.mk [some 1, some 2, some 3, none] 3 4 : vector Int).clear =
      .ok (vector.mk [some 1, some 2, some 3, none] 0 4) ∧
    (vector.mk [some 1, some 2, some 3, none] 0 4 : vector Int).size = 0 ∧
    (vector.mk [some 1, some 2, some 3, none] 0 4 : vector Int).constructed = 3 ∧
    (vector.mk [some 1, some 2, some 3, none] 3 4 : vector Int).erase 2 =
      .ok (vector.mk [some 1, some 2, none, none] 2 4, 2) ∧
    (vector.mk [some 1, some 2, none, none] 2 4 : vector Int).constructed = 2 :=
  ⟨rfl, rfl, rfl, rfl, rfl, rfl, rfl, rfl, rfl, rfl⟩

/-- C28 (the code breaks it): `at(0)` on the empty vector and
`allocate(max_size() + 1)` throw the same value, the string `Out-of-memory`, so
the error of a bounds violation is the error of an allocation failure. -/
theorem error_kinds_coincide :
    (vector.default : vector Int).at_ 0 = .error (.thrown "Out-of-memory") ∧
    new_allocator.allocate Int (new_allocator.max_size Int + 1) =
      .error (.thrown "Out-of-memory") ∧
    ∃ e, (vector.default : vector Int).at_ 0 = .error e ∧
      new_allocator.allocate Int (new_allocator.max_size Int + 1) = .error e :=
  ⟨rfl, rfl, _, rfl, rfl⟩

/-- C30 (the code breaks it): on the vector `[1, 2, 3]` of capacity `6` the call
`insert(begin(), 2, 9)` gives `9, 9, 1, 2, 3` and returns `begin() + 2`, the
count added to `begin()`: the iterator designates the old first element `1`,
not the first inserted `9` at `begin() + 0`.  The overload for integral
arguments returns the same; `insert(begin(), 9)` and the range insert of
`9, 9` return `begin() + 0`. -/
theorem insert_n_returns_count :
    (vector.reserve (vector.default : vector Int) 6 >>= fun a => a.push_back_all [1, 2, 3]) =
      .ok (vector.mk [some 1, some 2, some 3, none, none, none] 3 6) ∧
    (vector.mk [some 1, some 2, some 3, none, none, none] 3 6 : vector Int).insert_n 0 2 (.ext 9) =
      .ok (vector.mk [some 9, some 9, some 1, some 2, some 3, none] 5 6, 2) ∧
    (vector.mk [some 9, some 9, some 1, some 2, some 3, none] 5 6 : vector Int).index 2 =
      .ok (some 1) ∧
    (vector.mk [some 9, some 9, some 1, some 2, some 3, none] 5 6 : vector Int).index 0 =
      .ok (some 9) ∧
    (vector.mk [some 1, some 2, some 3, none, none, none] 3 6 : vector Int).insert_aux_integral
      0 2 (.ext 9) = .ok (vector.mk [some 9, some 9, some 1, some 2, some 3, none] 5 6, 2) ∧
    (vector.mk [some 1, some 2, some 3, none, none, none] 3 6 : vector Int).insert 0 (.ext 9) =
      .ok (vector.mk [some 9, some 1, some 2, some 3, none, none] 4 6, 0) ∧
    (vector.mk [some 1, some 2, some 3, none, none, none] 3 6 : vector Int).insert_range 0
      [some 9, some 9] 0 2 =
      .ok (vector.mk [some 9, some 9, some 1, some 2, some 3, none] 5 6, 0) :=
  ⟨rfl, rfl, rfl, rfl, rfl, rfl, rfl⟩

/-! The two `range_insert`s. -/

/-- Function `range_insert` for a forward source and a range that is not empty,
whichever of the three branches runs: size, capacity and elements. -/
theorem range_insert_forward_all {Tp : Type} [sizeof Tp] (v : vector Tp) (p : Nat)
    (src : Block Tp) (first last : Nat) (hwf : v.wf) (hp : p ≤ v.size) (hfl : first < last)
    (hl : last ≤ src.length) (hcap : v.capacity ≤ new_allocator.max_size Tp)
    (hmax : last - first > v.capacity - v.size →
      (if v.size ≥ last - first then 2 * v.size else v.size + (last - first)) ≤
        new_allocator.max_size Tp)
    (hint : last - first ≤ int_max)
    (hsz : last - first > v.capacity - v.size → v.size ≤ int_max) :
    ∃ v1, v.range_insert_forward p src first last = .ok v1 ∧
      v1.size = v.size + (last - first) ∧
      v1.capacity = (if last - first ≤ v.capacity - v.size then v.capacity
        else if v.size ≥ last - first then 2 * v.size else v.size + (last - first)) ∧
      v1.elems = v.elems.take p ++ ((src.drop first).take (last - first) ++ v.elems.drop p) := by
  have hcap2 : v.capacity ≤ size_type_max := le_trans hcap (max_size_le Tp)
  have hfin : v.finish_ ≤ v.block.length := le_trans hwf.1 hwf.2
  have hrl : ((src.drop first).take (last - first)).length = last - first := by
    simp; omega
  simp only [vector.size] at hp
  have key : ∃ v1, v.range_insert_forward p src first last = .ok v1 ∧
      v1.finish_ = v.finish_ + (last - first) ∧
      v1.end_of_storage_ = (if last - first ≤ v.capacity - v.size then v.capacity
        else if v.size ≥ last - first then 2 * v.size else v.size + (last - first)) ∧
      ∀ j, j < v.finish_ + (last - first) → v1.block[j]? =
        if j < p then v.block[j]? else if j < p + (last - first)
        then src[first + (j - p)]? else v.block[j - (last - first)]? := by
    by_cases hfit : last - first ≤ v.capacity - v.size
    · by_cases hlong : v.finish_ - p > last - first
      · obtain ⟨v1, e1, f1, c1, _, g1⟩ := range_insert_forward_long_tail v p src first last
          hwf hfl hl hcap2 hfit hlong hint
        exact ⟨v1, e1, f1, by rw [if_pos hfit]; exact c1, g1⟩
      · obtain ⟨v1, e1, f1, c1, _, g1⟩ := range_insert_forward_short_tail v p src first last
          hwf hp hfl hl hcap2 hfit hlong hint
        exact ⟨v1, e1, f1, by rw [if_pos hfit]; exact c1, g1⟩
    · obtain ⟨v1, e1, f1, c1, _, g1⟩ := range_insert_forward_grow v p src first last
        hwf hp hfl hl hcap2 hfit (hmax (by omega)) hint (hsz (by omega))
      exact ⟨v1, e1, f1, by rw [if_neg hfit]; exact c1, g1⟩
  obtain ⟨v1, e1, f1, c1, g1⟩ := key
  refine ⟨v1, e1, f1, c1, ?_⟩
  apply elems_splice v v1 _ p hp hfin (by rw [hrl]; exact f1)
  intro j hj
  rw [hrl] at hj ⊢
  rw [g1 j hj, getElem?_range]
  by_cases h1 : j < p
  · rw [if_pos h1, if_pos h1]
  · rw [if_neg h1, if_neg h1]
    by_cases h2 : j < p + (last - first)
    · rw [if_pos h2, if_pos h2, if_pos (by omega)]
    · rw [if_neg h2, if_neg h2]

/-- Growth on a range insert below the limit of the `int` counter:
`insert(begin() + p, first, last)` with a forward or better source range of
`1 <= n <= int_max` slots on a vector of size `s` and capacity `c`: the capacity
afterwards is `c` if `n <= c - s`; otherwise it is `2 * s` when `s >= n` and
`s + n` when `s < n`.  With `c == s` it is at least
`max(s + n, s == 0 ? 1 : 2 * s)` when `s < n`, and `2 * s` otherwise.  A vector
that has to grow has at most `int_max` elements to copy, and the block at hand
and the capacity requested are within `max_size()`. -/
theorem range_insert_growth {Tp : Type} [sizeof Tp] (v : vector Tp) (p : Nat)
    (src : Block Tp) (first last : Nat) (hwf : v.wf) (hp : p ≤ v.size) (hfl : first < last)
    (hl : last ≤ src.length) (hcap : v.capacity ≤ new_allocator.max_size Tp)
    (hmax : last - first > v.capacity - v.size →
      (if v.size ≥ last - first then 2 * v.size else v.size + (last - first)) ≤
        new_allocator.max_size Tp)
    (hint : last - first ≤ int_max)
    (hsz : last - first > v.capacity - v.size → v.size ≤ int_max) :
    ∃ v1, v.insert_range p src first last = .ok (v1, v1.begin_ + p) ∧
      (last - first ≤ v.capacity - v.size → v1.capacity = v.capacity) ∧
      (last - first > v.capacity - v.size → v.size ≥ last - first →
        v1.capacity = 2 * v.size) ∧
      (last - first > v.capacity - v.size → v.size < last - first →
        v1.capacity = v.size + (last - first)) ∧
      (v.capacity = v.size → v.size < last - first →
        max (v.size + (last - first)) (if v.size = 0 then 1 else 2 * v.size) ≤ v1.capacity) ∧
      (v.capacity = v.size → v.size ≥ last - first → v1.capacity = 2 * v.size) := by
  obtain ⟨v1, e1, _, c1, _⟩ := range_insert_forward_all v p src first last hwf hp hfl hl
    hcap hmax hint hsz
  refine ⟨v1, ?_, ?_, ?_, ?_, ?_, ?_⟩
  · simp only [vector.insert_range, vector.insert_aux_range, e1, bind, Except.bind, pure,
      Except.pure, vector.begin_, Nat.sub_zero, Nat.zero_add]
  · intro h
    rw [c1, if_pos h]
  · intro h h2
    rw [c1, if_neg (by omega), if_pos h2]
  · intro h h2
    rw [c1, if_neg (by omega), if_neg (by omega)]
  · intro h h2
    rw [c1, if_neg (show ¬ last - first ≤ v.capacity - v.size by omega),
      if_neg (show ¬ v.size ≥ last - first by omega)]
    split <;> omega
  · intro h h2
    rw [c1, if_neg (by omega), if_pos h2]

/-- The loop of `range_insert` for an input source: the values read from the
source are inserted at `pos`, `pos + 1`, and so on, in their order. -/
theorem range_insert_input_loop_spec {Tp : Type} [sizeof Tp] (src : Block Tp) :
    ∀ (xs : List Tp) (v : vector Tp) (pos first : Nat), v.wf → pos ≤ v.size →
      (∀ i x, xs[i]? = some x → src[first + i]? = some (some x)) →
      2 * (v.size + xs.length) ≤ new_allocator.max_size Tp →
      v.size + xs.length ≤ int_max + 1 →
      ∃ v1, vector.range_insert_input_loop src xs.length v pos first = .ok v1 ∧ v1.wf ∧
        v1.size = v.size + xs.length ∧
        v1.elems = v.elems.take pos ++ (xs.map some ++ v.elems.drop pos) := by
  intro xs
  induction xs with
  | nil =>
    intro v pos first hwf _ _ _ _
    exact ⟨v, rfl, hwf, rfl, by simp⟩
  | cons x xs ih =>
    intro v pos first hwf hp hsrc hmax hint
    simp only [List.length_cons] at hmax hint
    have hx : load src first = .ok x := by
      have := hsrc 0 x (by simp)
      simp only [Nat.add_zero] at this
      simp [load, this]
    obtain ⟨v1, e1, w1, s1, _, l1⟩ := insert_ref v pos (.ext x) (some x) hwf hp
      (by intro _; split <;> omega) (by intro _; omega) rfl (by intro k hk; cases hk)
    obtain ⟨v2, e2, w2, s2, l2⟩ := ih v1 (pos + 1) (first + 1) w1 (by omega)
      (fun i y h => by
        have := hsrc (i + 1) y (by simpa using h)
        rwa [show first + 1 + i = first + (i + 1) by omega])
      (by omega) (by omega)
    refine ⟨v2, ?_, w2, by simp only [List.length_cons]; omega, ?_⟩
    · simp only [List.length_cons, vector.range_insert_input_loop, hx, e1, bind, Except.bind]
      exact e2
    · have hlen : (v.elems.take pos ++ [some x]).length = pos + 1 := by
        have h1 := hwf.1
        have h2 := hwf.2
        simp only [vector.size] at hp
        simp [vector.elems]
        omega
      have hsplit : v.elems.take pos ++ some x :: v.elems.drop pos =
          (v.elems.take pos ++ [some x]) ++ v.elems.drop pos := by simp
      rw [l2, l1, hsplit, List.take_left' hlen, List.drop_left' hlen]
      simp

/-- The two `range_insert`s give the same contents below the limit of the `int`
counter.  For a source range
`[first, last)` outside the vector that holds the values `xs`, and a position
`p <= size()`, the input-iterator overload (one `insert` per value, `pos` taken
from the iterator each `insert` returns and advanced by one) and the
forward-iterator overload (one shift or one reallocation) both return, with the
same size `s + n` and the same elements `e0..e(p-1), xs, ep..e(s-1)`.  The
capacities reached on the way are within `max_size()`, so that `allocate` does
not throw. -/
theorem range_insert_paths_agree {Tp : Type} [sizeof Tp] (v : vector Tp) (p : Nat)
    (src : Block Tp) (first last : Nat) (xs : List Tp) (hwf : v.wf) (hp : p ≤ v.size)
    (hfl : first ≤ last) (hl : last ≤ src.length)
    (hsrc : (src.drop first).take (last - first) = xs.map some)
    (hcap : v.capacity ≤ new_allocator.max_size Tp)
    (hmax : 2 * (v.size + (last - first)) ≤ new_allocator.max_size Tp)
    (hint : v.size + (last - first) ≤ int_max) :
    ∃ vi vf, v.range_insert_input p src first last = .ok vi ∧
      v.range_insert_forward p src first last = .ok vf ∧
      vi.size = vf.size ∧ vi.elems = vf.elems ∧
      vf.size = v.size + (last - first) ∧
      vf.elems = v.elems.take p ++ (xs.map some ++ v.elems.drop p) := by
  have hlen : xs.length = last - first := by
    have := congrArg List.length hsrc
    simp at this
    omega
  have hpt : ∀ i x, xs[i]? = some x → src[first + i]? = some (some x) := by
    intro i x h
    have hi : i < xs.length := by
      rcases Nat.lt_or_ge i xs.length with h1 | h1
      · exact h1
      · rw [List.getElem?_eq_none h1] at h; cases h
    have := congrArg (fun l => l[i]?) hsrc
    simp only [getElem?_range, List.getElem?_map, h, Option.map_some'] at this
    rw [if_pos (by omega)] at this
    exact this
  obtain ⟨vi, ei, _, si, li⟩ := range_insert_input_loop_spec src xs v p first hwf hp hpt
    (by omega) (by omega)
  have ei2 : v.range_insert_input p src first last = .ok vi := by
    rw [vector.range_insert_input, if_pos hfl, ← hlen]
    exact ei
  by_cases hemp : first = last
  · have hx : xs = [] := List.length_eq_zero.mp (by omega)
    subst hx
    refine ⟨vi, v, ei2, by rw [vector.range_insert_forward, if_pos hemp], by omega, ?_,
      by omega, by simp⟩
    rw [li]
    simp
  · obtain ⟨vf, ef, sf, _, lf⟩ := range_insert_forward_all v p src first last hwf hp
      (by omega) hl hcap (by intro _; split <;> omega) (by omega) (by intro _; omega)
    refine ⟨vi, vf, ei2, ef, by omega, ?_, sf, by rw [lf, hsrc]⟩
    rw [li, lf, hsrc]

/-- The capacity is where the two `range_insert`s differ: inserting four values
into `[1, 2, 3]` of capacity `6` doubles twice on the input path and allocates
`s + n = 7` slots on the forward path. -/
theorem range_insert_capacities_differ :
    (vector.mk [some 1, some 2, some 3, none, none, none] 3 6 : vector Int).range_insert_input 1
      [some 7, some 8, some 9, some 10] 0 4 =
      .ok (vector.mk [some 1, some 7, some 8, some 9, some 10, some 2, some 3, none, none, none,
        none, none] 7 12) ∧
    (vector.mk [some 1, some 2, some 3, none, none, none] 3 6 : vector Int).range_insert_forward 1
      [some 7, some 8, some 9, some 10] 0 4 =
      .ok (vector.mk [some 1, some 7, some 8, some 9, some 10, some 2, some 3] 7 7) :=
  ⟨rfl, rfl⟩

/-! The theorems above at concrete vectors. -/

theorem single_insert_growth_witness :
    (vector.mk [some 1, some 2] 2 2 : vector Int).wf ∧ 1 ≤ (vector.mk [some 1, some 2] 2 2 : vector Int).size ∧
    ((vector.mk [some 1, some 2] 2 2 : vector Int).size = (vector.mk [some 1, some 2] 2 2 : vector Int).capacity →
      (if (vector.mk [some 1, some 2] 2 2 : vector Int).size ≠ 0 then 2 * (vector.mk [some 1, some 2] 2 2 : vector Int).size else 1) ≤ new_allocator.max_size Int) ∧
    ((vector.mk [some 1, some 2] 2 2 : vector Int).size = (vector.mk [some 1, some 2] 2 2 : vector Int).capacity → (vector.mk [some 1, some 2] 2 2 : vector Int).size ≤ int_max) ∧
    (∃ v1 it, (vector.mk [some 1, some 2] 2 2 : vector Int).insert 1 (.ext 9) = .ok (v1, it) ∧ v1.size = (vector.mk [some 1, some 2] 2 2 : vector Int).size + 1 ∧
      ((vector.mk [some 1, some 2] 2 2 : vector Int).size < (vector.mk [some 1, some 2] 2 2 : vector Int).capacity → v1.capacity = (vector.mk [some 1, some 2] 2 2 : vector Int).capacity) ∧
      ((vector.mk [some 1, some 2] 2 2 : vector Int).size = (vector.mk [some 1, some 2] 2 2 : vector Int).capacity → v1.capacity = if (vector.mk [some 1, some 2] 2 2 : vector Int).size = 0 then 1 else 2 * (vector.mk [some 1, some 2] 2 2 : vector Int).size) ∧
      (vector.mk [some 1, some 2] 2 2 : vector Int).size + 1 ≤ v1.capacity) ∧
    (∃ v1, (vector.mk [some 1, some 2] 2 2 : vector Int).push_back (.ext 9) = .ok v1 ∧ v1.size = (vector.mk [some 1, some 2] 2 2 : vector Int).size + 1 ∧
      ((vector.mk [some 1, some 2] 2 2 : vector Int).size < (vector.mk [some 1, some 2] 2 2 : vector Int).capacity → v1.capacity = (vector.mk [some 1, some 2] 2 2 : vector Int).capacity) ∧
      ((vector.mk [some 1, some 2] 2 2 : vector Int).size = (vector.mk [some 1, some 2] 2 2 : vector Int).capacity → v1.capacity = if (vector.mk [some 1, some 2] 2 2 : vector Int).size = 0 then 1 else 2 * (vector.mk [some 1, some 2] 2 2 : vector Int).size) ∧
      (vector.mk [some 1, some 2] 2 2 : vector Int).size + 1 ≤ v1.capacity) :=
  ⟨by decide, by decide, by decide, by decide,
    single_insert_growth _ 1 9 (by decide) (by decide) (by decide) (by decide)⟩

theorem range_insert_growth_witness :
    (vector.mk [some 1, some 2, some 3, none] 3 4 : vector Int).wf ∧ 1 ≤ (vector.mk [some 1, some 2, some 3, none] 3 4 : vector Int).size ∧ 0 < 3 ∧ 3 ≤ ([some 7, some 8, some 9] : Block Int).length ∧
    (vector.mk [some 1, some 2, some 3, none] 3 4 : vector Int).capacity ≤ new_allocator.max_size Int ∧
    (3 - 0 > (vector.mk [some 1, some 2, some 3, none] 3 4 : vector Int).capacity - (vector.mk [some 1, some 2, some 3, none] 3 4 : vector Int).size →
      (if (vector.mk [some 1, some 2, some 3, none] 3 4 : vector Int).size ≥ 3 - 0 then 2 * (vector.mk [some 1, some 2, some 3, none] 3 4 : vector Int).size else (vector.mk [some 1, some 2, some 3, none] 3 4 : vector Int).size + (3 - 0)) ≤
        new_allocator.max_size Int) ∧
    3 - 0 ≤ int_max ∧
    (3 - 0 > (vector.mk [some 1, some 2, some 3, none] 3 4 : vector Int).capacity - (vector.mk [some 1, some 2, some 3, none] 3 4 : vector Int).size → (vector.mk [some 1, some 2, some 3, none] 3 4 : vector Int).size ≤ int_max) ∧
    ∃ v1, (vector.mk [some 1, some 2, some 3, none] 3 4 : vector Int).insert_range 1 ([some 7, some 8, some 9] : Block Int) 0 3 = .ok (v1, v1.begin_ + 1) ∧
      (3 - 0 ≤ (vector.mk [some 1, some 2, some 3, none] 3 4 : vector Int).capacity - (vector.mk [some 1, some 2, some 3, none] 3 4 : vector Int).size → v1.capacity = (vector.mk [some 1, some 2, some 3, none] 3 4 : vector Int).capacity) ∧
      (3 - 0 > (vector.mk [some 1, some 2, some 3, none] 3 4 : vector Int).capacity - (vector.mk [some 1, some 2, some 3, none] 3 4 : vector Int).size → (vector.mk [some 1, some 2, some 3, none] 3 4 : vector Int).size ≥ 3 - 0 → v1.capacity = 2 * (vector.mk [some 1, some 2, some 3, none] 3 4 : vector Int).size) ∧
      (3 - 0 > (vector.mk [some 1, some 2, some 3, none] 3 4 : vector Int).capacity - (vector.mk [some 1, some 2, some 3, none] 3 4 : vector Int).size → (vector.mk [some 1, some 2, some 3, none] 3 4 : vector Int).size < 3 - 0 →
        v1.capacity = (vector.mk [some 1, some 2, some 3, none] 3 4 : vector Int).size + (3 - 0)) ∧
      ((vector.mk [some 1, some 2, some 3, none] 3 4 : vector Int).capacity = (vector.mk [some 1, some 2, some 3, none] 3 4 : vector Int).size → (vector.mk [some 1, some 2, some 3, none] 3 4 : vector Int).size < 3 - 0 →
        max ((vector.mk [some 1, some 2, some 3, none] 3 4 : vector Int).size + (3 - 0)) (if (vector.mk [some 1, some 2, some 3, none] 3 4 : vector Int).size = 0 then 1 else 2 * (vector.mk [some 1, some 2, some 3, none] 3 4 : vector Int).size) ≤ v1.capacity) ∧
      ((vector.mk [some 1, some 2, some 3, none] 3 4 : vector Int).capacity = (vector.mk [some 1, some 2, some 3, none] 3 4 : vector Int).size → (vector.mk [some 1, some 2, some 3, none] 3 4 : vector Int).size ≥ 3 - 0 → v1.capacity = 2 * (vector.mk [some 1, some 2, some 3, none] 3 4 : vector Int).size) :=
  ⟨by decide, by decide, by decide, by decide, by decide, by decide, by decide, by decide,
    range_insert_growth _ 1 _ 0 3 (by decide) (by decide) (by decide) (by decide) (by decide)
      (by decide) (by decide) (by decide)⟩

theorem range_insert_paths_agree_witness :
    (vector.mk [some 1, some 2, some 3, none, none, none] 3 6 : vector Int).wf ∧ 1 ≤ (vector.mk [some 1, some 2, some 3, none, none, none] 3 6 : vector Int).size ∧ 0 ≤ 4 ∧ 4 ≤ ([some 7, some 8, some 9, some 10] : Block Int).length ∧
    (([some 7, some 8, some 9, some 10] : Block Int).drop 0).take (4 - 0) = ([7, 8, 9, 10] : List Int).map some ∧
    (vector.mk [some 1, some 2, some 3, none, none, none] 3 6 : vector Int).capacity ≤ new_allocator.max_size Int ∧
    2 * ((vector.mk [some 1, some 2, some 3, none, none, none] 3 6 : vector Int).size + (4 - 0)) ≤ new_allocator.max_size Int ∧
    (vector.mk [some 1, some 2, some 3, none, none, none] 3 6 : vector Int).size + (4 - 0) ≤ int_max ∧
    ∃ vi vf, (vector.mk [some 1, some 2, some 3, none, none, none] 3 6 : vector Int).range_insert_input 1 ([some 7, some 8, some 9, some 10] : Block Int) 0 4 = .ok vi ∧
      (vector.mk [some 1, some 2, some 3, none, none, none] 3 6 : vector Int).range_insert_forward 1 ([some 7, some 8, some 9, some 10] : Block Int) 0 4 = .ok vf ∧
      vi.size = vf.size ∧ vi.elems = vf.elems ∧
      vf.size = (vector.mk [some 1, some 2, some 3, none, none, none] 3 6 : vector Int).size + (4 - 0) ∧
      vf.elems = (vector.mk [some 1, some 2, some 3, none, none, none] 3 6 : vector Int).elems.take 1 ++ (([7, 8, 9, 10] : List Int).map some ++ (vector.mk [some 1, some 2, some 3, none, none, none] 3 6 : vector Int).elems.drop 1) :=
  ⟨by decide, by decide, by decide, by decide, by decide, by decide, by decide, by decide,
    range_insert_paths_agree _ 1 _ 0 4 [7, 8, 9, 10] (by decide) (by decide) (by decide)
      (by decide) (by decide) (by decide) (by decide) (by decide)⟩

theorem distance_paths_agree_witness :
    2 ≤ 5 ∧ distance_input 2 5 = .ok (distance_random_access 2 5) ∧
    distance_random_access 2 5 = ((5 - 2 : Nat) : Int) ∧
    0 ≤ distance_random_access 2 5 :=
  ⟨by decide, distance_paths_agree 2 5 (by decide)⟩

/-! The six comparisons together. -/

/-- Two element sequences agree at every index below both lengths, or there is
a first index where they differ. -/
theorem first_difference {Tp : Type} (xs ys : List Tp) :
    ∀ n, n ≤ min xs.length ys.length →
      (∀ j, j < n → xs[j]? = ys[j]?) ∨
      ∃ i a b, i < n ∧ xs[i]? = some a ∧ ys[i]? = some b ∧ a ≠ b ∧
        ∀ j, j < i → xs[j]? = ys[j]? := by
  intro n
  induction n with
  | zero => intro _; exact Or.inl (fun j hj => absurd hj (Nat.not_lt_zero j))
  | succ n ih =>
    intro hn
    rcases ih (by omega) with h | ⟨i, a, b, hi, ha, hb, hab, hpre⟩
    · have hx : n < xs.length := by omega
      have hy : n < ys.length := by omega
      by_cases heq : xs[n] = ys[n]
      · left
        intro j hj
        by_cases hjn : j = n
        · subst hjn
          rw [List.getElem?_eq_getElem hx, List.getElem?_eq_getElem hy, heq]
        · exact h j (by omega)
      · right
        exact ⟨n, xs[n], ys[n], by omega, List.getElem?_eq_getElem hx,
          List.getElem?_eq_getElem hy, heq, h⟩
    · right
      exact ⟨i, a, b, by omega, ha, hb, hab, hpre⟩

/-- Function `operator<` on two vectors whose elements agree below both sizes:
the shorter one is the lesser. -/
theorem operator_lt_agree {Tp : Type} (lt : Tp → Tp → Bool) (hirr : ∀ a, lt a a = false)
    (x y : vector Tp) (xs ys : List Tp) (hx : x.holds xs) (hy : y.holds ys)
    (hpre : ∀ j, j < min xs.length ys.length → xs[j]? = ys[j]?) :
    vector.operator_lt lt x y = .ok (decide (xs.length < ys.length)) := by
  obtain ⟨r, e, hr⟩ := operator_lt_char lt x y xs ys hx hy
  rw [e]
  congr 1
  rw [Bool.eq_iff_iff, hr, decide_eq_true_iff, hx.1, hy.1]
  constructor
  · rintro ⟨i, hi, _, ⟨_, h2⟩ | ⟨h1, h2, a, b, ha, hb, hab⟩⟩
    · exact h2
    · have := hpre i (by omega)
      rw [ha, hb] at this
      cases this
      rw [hirr a] at hab
      cases hab
  · intro h
    refine ⟨xs.length, by omega, ?_, Or.inl ⟨rfl, h⟩⟩
    intro j a b hj ha hb
    have := hpre j (by omega)
    rw [ha, hb] at this
    cases this
    exact ⟨hirr a, hirr a⟩

/-- Function `operator<` on two vectors with a first differing index: the
elements there decide, when the element `<` is irreflexive and orders every
two different values. -/
theorem operator_lt_differ {Tp : Type} (lt : Tp → Tp → Bool) (hirr : ∀ a, lt a a = false)
    (htot : ∀ a b, a ≠ b → lt a b = true ∨ lt b a = true)
    (x y : vector Tp) (xs ys : List Tp) (hx : x.holds xs) (hy : y.holds ys)
    (i : Nat) (a b : Tp) (ha : xs[i]? = some a) (hb : ys[i]? = some b) (hab : a ≠ b)
    (hpre : ∀ j, j < i → xs[j]? = ys[j]?) :
    vector.operator_lt lt x y = .ok (lt a b) := by
  have hix : i < xs.length := (List.getElem?_eq_some_iff.mp ha).1
  have hiy : i < ys.length := (List.getElem?_eq_some_iff.mp hb).1
  obtain ⟨r, e, hr⟩ := operator_lt_char lt x y xs ys hx hy
  rw [e]
  congr 1
  rw [Bool.eq_iff_iff, hr, hx.1, hy.1]
  constructor
  · rintro ⟨k, hk, hun, hcase⟩
    rcases Nat.lt_trichotomy k i with hki | hki | hki
    · rcases hcase with ⟨h1, _⟩ | ⟨_, _, a1, b1, ha1, hb1, hab1⟩
      · omega
      · have := hpre k hki
        rw [ha1, hb1] at this
        cases this
        rw [hirr a1] at hab1
        cases hab1
    · subst hki
      rcases hcase with ⟨h1, _⟩ | ⟨_, _, a1, b1, ha1, hb1, hab1⟩
      · omega
      · rw [ha] at ha1
        rw [hb] at hb1
        cases ha1
        cases hb1
        exact hab1
    · have h2 := hun i a b hki ha hb
      rcases htot a b hab with h3 | h3
      · exact h3
      · rw [h2.2] at h3
        cases h3
  · intro h
    refine ⟨i, by omega, ?_, Or.inr ⟨hix, hiy, a, b, ha, hb, h⟩⟩
    intro j a1 b1 hj ha1 hb1
    have := hpre j hj
    rw [ha1, hb1] at this
    cases this
    exact ⟨hirr a1, hirr a1⟩

/-- Function `operator==` on vectors that hold `xs` and `ys`. -/
theorem operator_eq_char {Tp : Type} (ne : Tp → Tp → Bool) (x y : vector Tp)
    (xs ys : List Tp) (hx : x.holds xs) (hy : y.holds ys) :
    ∃ r, vector.operator_eq ne x y = .ok r ∧
      (r = true ↔ xs.length = ys.length ∧
        ∀ (j : Nat) (a b : Tp), xs[j]? = some a → ys[j]? = some b → ne a b = false) := by
  by_cases hs : x.size = y.size
  · have hlen : xs.length = ys.length := by rw [← hx.1, ← hy.1]; exact hs
    obtain ⟨r, e, hr⟩ := operator_eq_loop_spec ne x y xs ys hx hy hlen xs.length
      (x.size + 1) 0 (by omega) (Nat.zero_le _) (by rw [hx.1]; omega)
    refine ⟨r, ?_, ?_⟩
    · simp only [vector.operator_eq, if_neg (not_not.mpr hs), vector.begin_]
      exact e
    · rw [hr]
      constructor
      · intro h
        exact ⟨hlen, fun j a b ha hb => h j a b (Nat.zero_le _) ha hb⟩
      · intro h j a b _ ha hb
        exact h.2 j a b ha hb
  · refine ⟨false, by simp only [vector.operator_eq, if_pos hs], ?_⟩
    constructor
    · intro h; cases h
    · intro h
      exact absurd (by rw [hx.1, hy.1]; exact h.1) hs

/-- Function `operator==` on two vectors whose elements agree below both sizes:
they are equal exactly when the sizes are. -/
theorem operator_eq_agree {Tp : Type} (ne : Tp → Tp → Bool)
    (hne : ∀ a b, ne a b = true ↔ a ≠ b)
    (x y : vector Tp) (xs ys : List Tp) (hx : x.holds xs) (hy : y.holds ys)
    (hpre : ∀ j, j < min xs.length ys.length → xs[j]? = ys[j]?) :
    vector.operator_eq ne x y = .ok (decide (xs.length = ys.length)) := by
  obtain ⟨r, e, hr⟩ := operator_eq_char ne x y xs ys hx hy
  rw [e]
  congr 1
  rw [Bool.eq_iff_iff, hr, decide_eq_true_iff]
  constructor
  · intro h; exact h.1
  · intro h
    refine ⟨h, ?_⟩
    intro j a b ha hb
    have hj : j < xs.length := (List.getElem?_eq_some_iff.mp ha).1
    have := hpre j (by omega)
    rw [ha, hb] at this
    cases this
    cases hn : ne a a with
    | false => rfl
    | true => exact absurd rfl ((hne a a).mp hn)

/-- Function `operator==` on two vectors with a differing index returns
`false`. -/
theorem operator_eq_differ {Tp : Type} (ne : Tp → Tp → Bool)
    (hne : ∀ a b, ne a b = true ↔ a ≠ b)
    (x y : vector Tp) (xs ys : List Tp) (hx : x.holds xs) (hy : y.holds ys)
    (i : Nat) (a b : Tp) (ha : xs[i]? = some a) (hb : ys[i]? = some b) (hab : a ≠ b) :
    vector.operator_eq ne x y = .ok false := by
  obtain ⟨r, e, hr⟩ := operator_eq_char ne x y xs ys hx hy
  rw [e]
  congr 1
  cases r with
  | false => rfl
  | true =>
    have h := (hr.mp rfl).2 i a b ha hb
    rw [(hne a b).mpr hab] at h
    cases h

/-- C31: trichotomy of the comparisons.  The element `<` is a strict total
order (irreflexive, transitive, and it orders every two different values) and
the element `!=` is the negation of equality.  Then for vectors `x` and `y`
that hold their elements the calls `x < y`, `x == y` and `y < x` return and
exactly one of them returns `true`; `x <= y` returns what `x < y || x == y`
gives, `x >= y` what `y < x || x == y` gives, `x > y` is `y < x` and `x != y`
is the negation of `x == y`. -/
theorem comparison_trichotomy {Tp : Type} (lt ne : Tp → Tp → Bool)
    (hirr : ∀ a, lt a a = false)
    (htrans : ∀ a b c, lt a b = true → lt b c = true → lt a c = true)
    (htot : ∀ a b, a ≠ b → lt a b = true ∨ lt b a = true)
    (hne : ∀ a b, ne a b = true ↔ a ≠ b)
    (x y : vector Tp) (xs ys : List Tp) (hx : x.holds xs) (hy : y.holds ys) :
    ∃ l e g, vector.operator_lt lt x y = .ok l ∧ vector.operator_eq ne x y = .ok e ∧
      vector.operator_lt lt y x = .ok g ∧
      ((l = true ∧ e = false ∧ g = false) ∨ (l = false ∧ e = true ∧ g = false) ∨
        (l = false ∧ e = false ∧ g = true)) ∧
      vector.operator_le lt x y = .ok (l || e) ∧
      vector.operator_ge lt x y = .ok (g || e) ∧
      vector.operator_gt lt x y = .ok g ∧
      vector.operator_ne ne x y = .ok (!e) := by
  have hfin : ∀ l e g, vector.operator_lt lt x y = .ok l → vector.operator_eq ne x y = .ok e →
      vector.operator_lt lt y x = .ok g →
      ((l = true ∧ e = false ∧ g = false) ∨ (l = false ∧ e = true ∧ g = false) ∨
        (l = false ∧ e = false ∧ g = true)) →
      vector.operator_le lt x y = .ok (l || e) ∧
      vector.operator_ge lt x y = .ok (g || e) ∧
      vector.operator_gt lt x y = .ok g ∧
      vector.operator_ne ne x y = .ok (!e) := by
    intro l e g hl he hg h
    simp only [vector.operator_le, vector.operator_ge, vector.operator_gt, vector.operator_ne,
      hl, he, hg, bind, Except.bind, pure, Except.pure]
    rcases h with ⟨rfl, rfl, rfl⟩ | ⟨rfl, rfl, rfl⟩ | ⟨rfl, rfl, rfl⟩ <;> simp
  rcases first_difference xs ys (min xs.length ys.length) (le_refl _) with
    hpre | ⟨i, a, b, _, ha, hb, hab, hpre⟩
  · have hl := operator_lt_agree lt hirr x y xs ys hx hy hpre
    have he := operator_eq_agree ne hne x y xs ys hx hy hpre
    have hg := operator_lt_agree lt hirr y x ys xs hy hx
      (fun j hj => (hpre j (by omega)).symm)
    refine ⟨_, _, _, hl, he, hg, ?_, hfin _ _ _ hl he hg ?_⟩
    all_goals
      rcases Nat.lt_trichotomy xs.length ys.length with h | h | h
      · left
        exact ⟨decide_eq_true h, decide_eq_false (by omega), decide_eq_false (by omega)⟩
      · right; left
        exact ⟨decide_eq_false (by omega), decide_eq_true h, decide_eq_false (by omega)⟩
      · right; right
        exact ⟨decide_eq_false (by omega), decide_eq_false (by omega), decide_eq_true h⟩
  · have hl := operator_lt_differ lt hirr htot x y xs ys hx hy i a b ha hb hab hpre
    have he := operator_eq_differ ne hne x y xs ys hx hy i a b ha hb hab
    have hg := operator_lt_differ lt hirr htot y x ys xs hy hx i b a hb ha (Ne.symm hab)
      (fun j hj => (hpre j hj).symm)
    have hasym : lt a b = true → lt b a = true → False := by
      intro h1 h2
      have := htrans a b a h1 h2
      rw [hirr a] at this
      cases this
    refine ⟨_, _, _, hl, he, hg, ?_, hfin _ _ _ hl he hg ?_⟩
    all_goals
      rcases htot a b hab with h | h
      · left
        refine ⟨h, rfl, ?_⟩
        cases h2 : lt b a with
        | false => rfl
        | true => exact absurd h2 (fun h3 => hasym h h3)
      · right; right
        refine ⟨?_, rfl, h⟩
        cases h2 : lt a b with
        | false => rfl
        | true => exact absurd h (fun h3 => hasym h2 h3)

theorem comparison_trichotomy_witness :
    (∀ a : Int, decide (a < a) = false) ∧
    (∀ a b c : Int, decide (a < b) = true → decide (b < c) = true → decide (a < c) = true) ∧
    (∀ a b : Int, a ≠ b → decide (a < b) = true ∨ decide (b < a) = true) ∧
    (∀ a b : Int, (a != b) = true ↔ a ≠ b) ∧
    (vector.mk [some 1, some 2] 2 2 : vector Int).holds [1, 2] ∧
    (vector.mk [some 1, some 2, some 0] 3 3 : vector Int).holds [1, 2, 0] ∧
    ∃ l e g,
      vector.operator_lt (fun a b : Int => decide (a < b))
        (vector.mk [some 1, some 2] 2 2 : vector Int)
        (vector.mk [some 1, some 2, some 0] 3 3 : vector Int) = .ok l ∧
      vector.operator_eq (fun a b : Int => a != b)
        (vector.mk [some 1, some 2] 2 2 : vector Int)
        (vector.mk [some 1, some 2, some 0] 3 3 : vector Int) = .ok e ∧
      vector.operator_lt (fun a b : Int => decide (a < b))
        (vector.mk [some 1, some 2, some 0] 3 3 : vector Int)
        (vector.mk [some 1, some 2] 2 2 : vector Int) = .ok g ∧
      ((l = true ∧ e = false ∧ g = false) ∨ (l = false ∧ e = true ∧ g = false) ∨
        (l = false ∧ e = false ∧ g = true)) ∧
      vector.operator_le (fun a b : Int => decide (a < b))
        (vector.mk [some 1, some 2] 2 2 : vector Int)
        (vector.mk [some 1, some 2, some 0] 3 3 : vector Int) = .ok (l || e) ∧
      vector.operator_ge (fun a b : Int => decide (a < b))
        (vector.mk [some 1, some 2] 2 2 : vector Int)
        (vector.mk [some 1, some 2, some 0] 3 3 : vector Int) = .ok (g || e) ∧
      vector.operator_gt (fun a b : Int => decide (a < b))
        (vector.mk [some 1, some 2] 2 2 : vector Int)
        (vector.mk [some 1, some 2, some 0] 3 3 : vector Int) = .ok g ∧
      vector.operator_ne (fun a b : Int => a != b)
        (vector.mk [some 1, some 2] 2 2 : vector Int)
        (vector.mk [some 1, some 2, some 0] 3 3 : vector Int) = .ok (!e) :=
  ⟨fun a => by simp, fun a b c h1 h2 => by simp at h1 h2 ⊢; omega,
    fun a b h => by simp; omega, fun a b => by simp, ⟨rfl, rfl⟩, ⟨rfl, rfl⟩,
    comparison_trichotomy (fun a b : Int => decide (a < b)) (fun a b : Int => a != b)
      (fun a => by simp) (fun a b c h1 h2 => by simp at h1 h2 ⊢; omega)
      (fun a b h => by simp; omega) (fun a b => by simp) _ _ [1, 2] [1, 2, 0]
      ⟨rfl, rfl⟩ ⟨rfl, rfl⟩⟩

/-! The `int` counter of `uninitialized_copy` at `2 ^ 31` elements. -/

/-- Function `insert_aux` on a full vector with more than `int_max` elements on
one side of `pos`: the copy into the new block oversteps the `int` counter. -/
theorem insert_aux_full_overflow {Tp : Type} [sizeof Tp] (v : vector Tp) (pos : Nat)
    (value : Ref Tp) (y : Slot Tp) (hwf : v.wf) (he : v.finish_ = v.end_of_storage_)
    (hp : pos ≤ v.finish_)
    (hmax : (if v.size ≠ 0 then 2 * v.size else 1) ≤ new_allocator.max_size Tp)
    (hy : value.get v.block = .ok y)
    (hover : int_max < pos ∨ int_max < v.finish_ - pos) :
    v.insert_aux pos value = .error .undefined := by
  obtain ⟨_, hel⟩ := hwf
  have hms := max_size_le Tp
  have hcap : (if v.size ≠ 0 then size_type (2 * (v.size : Int)) else 1) =
      (if v.size ≠ 0 then 2 * v.size else 1) := by
    by_cases h0 : v.size ≠ 0
    · rw [if_pos h0] at hmax
      rw [if_pos h0, if_pos h0]
      exact size_type_two_mul _ (by omega)
    · rw [if_neg h0, if_neg h0]
  generalize hc : (if v.size ≠ 0 then 2 * v.size else 1) = c at hcap hmax
  have hc1 : v.finish_ + 1 ≤ c := by
    rw [← hc]; simp only [vector.size]; split <;> omega
  rw [vector.insert_aux, if_neg (not_not.mpr he)]
  by_cases h1 : int_max < pos
  · simp only [hcap, allocate_eq Tp c hmax,
      uninitialized_copy_overflow _ _ 0 pos _ (by omega), bind, Except.bind]
  · have h2 : int_max < v.finish_ - pos := by omega
    obtain ⟨n1, e1, l1, g1⟩ := copy_other v.block (List.replicate c none) 0 pos 0
      (by omega) (by omega) (by simp; omega)
    simp only [List.length_replicate, Nat.sub_zero, Nat.zero_add] at e1 l1 g1
    have hw : write n1 pos y = .ok (n1.set pos y) := write_eq n1 pos y (by omega)
    simp only [hcap, allocate_eq Tp c hmax, uninitialized_copy_eq _ _ 0 pos _ (by omega), e1,
      hy, new_allocator.construct, hw, uninitialized_copy_overflow _ _ pos v.finish_ _ h2,
      bind, Except.bind]

/-- Function `push_back` on a full vector of more than `int_max` elements is
undefined. -/
theorem push_back_overflow {Tp : Type} [sizeof Tp] (v : vector Tp) (x : Tp) (hwf : v.wf)
    (he : v.size = v.capacity) (hbig : int_max < v.size)
    (hmax : 2 * v.size ≤ new_allocator.max_size Tp) :
    v.push_back (.ext x) = .error .undefined := by
  have he2 : v.finish_ = v.end_of_storage_ := he
  rw [vector.push_back, if_neg (not_not.mpr he2)]
  exact insert_aux_full_overflow v v.end_ (.ext x) (some x) hwf he2 (le_refl _)
    (by rw [if_pos (by omega)]; exact hmax) rfl (Or.inl hbig)

/-- Function `insert(begin() + p, value)` on a full vector with more than
`int_max` elements before or after `p` is undefined. -/
theorem insert_overflow {Tp : Type} [sizeof Tp] (v : vector Tp) (p : Nat) (value : Ref Tp)
    (y : Slot Tp) (hwf : v.wf) (he : v.size = v.capacity) (hp : p ≤ v.size)
    (hmax : 2 * v.size ≤ new_allocator.max_size Tp) (hy : value.get v.block = .ok y)
    (hover : int_max < p ∨ int_max < v.size - p) :
    v.insert p value = .error .undefined := by
  have he2 : v.finish_ = v.end_of_storage_ := he
  have hc : ¬ (v.finish_ ≠ v.end_of_storage_ ∧ p = v.end_) := fun h => h.1 he2
  have hs : v.size ≠ 0 := by
    rcases hover with h | h <;> omega
  have e := insert_aux_full_overflow v p value y hwf he2 hp
    (by rw [if_pos hs]; exact hmax) hy hover
  simp only [vector.insert, hc, if_false, e, bind, Except.bind]

/-- Function `reserve(n)` on the empty vector: a block of `n` raw slots. -/
theorem reserve_default {Tp : Type} [sizeof Tp] (n : Nat) (h0 : 0 < n)
    (hmax : n ≤ new_allocator.max_size Tp) :
    (vector.default : vector Tp).reserve n =
      .ok { block := List.replicate n none, finish_ := 0, end_of_storage_ := n } := by
  have h1 : (vector.default : vector Tp).capacity < n := h0
  rw [vector.reserve, if_pos h1]
  simp [vector.default, vector.allocate_and_copy, allocate_eq Tp n hmax, uninitialized_copy,
    uninitialized_copy_loop, vector.destroy_and_deallocate, vector.destroy, vector.destroy_loop,
    vector.size, bind, Except.bind, pure, Except.pure]

/-- A run of `push_back` calls that the spare capacity takes in: no call
reallocates. -/
theorem push_back_all_spare {Tp : Type} [sizeof Tp] (xs : List Tp) :
    ∀ v : vector Tp, v.wf → v.size + xs.length ≤ v.capacity →
      ∃ v1, vector.push_back_all v xs = .ok v1 ∧ v1.wf ∧ v1.size = v.size + xs.length ∧
        v1.capacity = v.capacity ∧ v1.elems = v.elems ++ xs.map some := by
  induction xs with
  | nil =>
    intro v hwf _
    exact ⟨v, rfl, hwf, by simp, rfl, by simp⟩
  | cons x xs ih =>
    intro v hwf h
    simp only [List.length_cons] at h
    obtain ⟨v1, e1, w1, s1, c1, l1⟩ := push_back_ref v (.ext x) (some x) hwf
      (by intro h2; omega) (by intro h2; omega) rfl
    rw [if_neg (by omega)] at c1
    obtain ⟨v2, e2, w2, s2, c2, l2⟩ := ih v1 w1 (by omega)
    refine ⟨v2, ?_, w2, by rw [s2, s1, List.length_cons]; omega, by rw [c2, c1], ?_⟩
    · simp only [vector.push_back_all, e1, bind, Except.bind]
      exact e2
    · rw [l2, l1]; simp

/-- The vector reached by `reserve(n)` on the empty vector and `n` calls of
`push_back` is full and holds the values pushed. -/
theorem reserve_push_full {Tp : Type} [sizeof Tp] (xs : List Tp) (h0 : 0 < xs.length)
    (hmax : xs.length ≤ new_allocator.max_size Tp) :
    ∃ v, ((vector.default : vector Tp).reserve xs.length >>= fun a => a.push_back_all xs) =
        .ok v ∧ v.wf ∧ v.size = xs.length ∧ v.capacity = xs.length ∧ v.elems = xs.map some := by
  obtain ⟨v, e, w, s1, c1, l1⟩ := push_back_all_spare xs
    ({ block := List.replicate xs.length none, finish_ := 0, end_of_storage_ := xs.length } :
      vector Tp) ⟨Nat.zero_le _, by simp⟩ (by simp [vector.size, vector.capacity])
  refine ⟨v, ?_, w, by simpa [vector.size] using s1, c1, by simpa [vector.elems] using l1⟩
  rw [reserve_default xs.length h0 hmax]
  exact e

/-- The vector reached by `n = 2 ^ e` calls of `push_back(0)` on the empty
vector, no more than `int_max + 1` of them, is full: its size and its capacity
are `n`. -/
theorem push_back_all_pow2 (n e : Nat) (hn : n = 2 ^ e)
    (hmax : 2 * n ≤ new_allocator.max_size Int) (hint : n ≤ int_max + 1) :
    ∃ v, vector.push_back_all (vector.default : vector Int) (List.replicate n 0) = .ok v ∧
      v.wf ∧ v.size = n ∧ v.capacity = n := by
  obtain ⟨v, e1, w, cp, s1, _, _⟩ := push_back_all_from (List.replicate n (0 : Int))
    vector.default wf_default cap_pow2_default
    (by simpa [vector.size, vector.default] using hmax)
    (by simpa [vector.size, vector.default] using hint)
  have s2 : v.size = n := by
    simpa [vector.size, vector.default] using s1
  have hpos : 0 < n := by rw [hn]; exact pow_pos (by decide) e
  refine ⟨v, e1, w, s2, ?_⟩
  rcases cp with ⟨h0, _⟩ | ⟨k, hk, h1, h2⟩
  · omega
  · have h3 := pow2_least k n (by rw [← s2]; exact h2) e (le_of_eq hn)
    rw [s2] at h1
    rw [hk]
    omega

/-- The vector reached by `reserve(n)` on the empty vector and `n` calls of
`push_back(0)`. -/
theorem reserve_push_zeros (n : Nat) (h0 : 0 < n) (hmax : n ≤ new_allocator.max_size Int) :
    ∃ v, ((vector.default : vector Int).reserve n >>= fun a =>
        a.push_back_all (List.replicate n 0)) = .ok v ∧
      v.wf ∧ v.size = n ∧ v.capacity = n ∧ v.elems = List.replicate n (some 0) ∧
      ∀ i, i < n → v.index i = .ok (some 0) := by
  obtain ⟨v, e, w, s1, c1, l1⟩ := reserve_push_full (List.replicate n (0 : Int))
    (by simpa using h0) (by simpa using hmax)
  simp only [List.length_replicate] at e s1 c1
  have l2 : v.elems = List.replicate n (some 0) := by simpa using l1
  refine ⟨v, e, w, s1, c1, l2, ?_⟩
  intro i hi
  apply index_of_elems
  rw [l2]
  simp [hi]

/-- A run of `push_back` calls that fails gives no list of capacities. -/
theorem push_back_capacities_error {Tp : Type} [sizeof Tp] (xs : List Tp) :
    ∀ (v : vector Tp) (e : Fault), vector.push_back_all v xs = .error e →
      vector.push_back_capacities v xs = .error e := by
  induction xs with
  | nil => intro v e h; cases h
  | cons x xs ih =>
    intro v e h
    simp only [vector.push_back_all, vector.push_back_capacities, bind, Except.bind] at h ⊢
    cases hp : v.push_back (.ext x) with
    | error e1 =>
      rw [hp] at h
      simp only [] at h ⊢
      cases h
      rfl
    | ok v1 =>
      rw [hp] at h
      simp only [] at h ⊢
      rw [ih v1 e h]

/-- Function `range_insert` for a forward source that has to grow the vector,
with more than `int_max` elements before `pos`: the first copy into the new
block oversteps the `int` counter. -/
theorem range_insert_forward_overflow {Tp : Type} [sizeof Tp] (v : vector Tp) (pos : Nat)
    (src : Block Tp) (first last : Nat) (hwf : v.wf) (hfl : first < last)
    (hcap : v.capacity ≤ size_type_max) (hfit : ¬ last - first ≤ v.capacity - v.size)
    (hmax : (if v.size ≥ last - first then 2 * v.size else v.size + (last - first)) ≤
      new_allocator.max_size Tp)
    (hbig : int_max < pos) :
    v.range_insert_forward pos src first last = .error .undefined := by
  obtain ⟨hfe, hel⟩ := hwf
  have hms := max_size_le Tp
  simp only [vector.capacity] at hcap hfit
  generalize hn : last - first = n at hfit hmax
  have hcw : (if v.size ≥ n then size_type (2 * (v.size : Int))
      else size_type ((v.size : Int) + n)) = (if v.size ≥ n then 2 * v.size else v.size + n) := by
    by_cases h0 : v.size ≥ n
    · rw [if_pos h0] at hmax
      rw [if_pos h0, if_pos h0]
      exact size_type_two_mul _ (by omega)
    · rw [if_neg h0] at hmax
      rw [if_neg h0, if_neg h0]
      exact size_type_add _ _ (by omega)
  generalize hc : (if v.size ≥ n then 2 * v.size else v.size + n) = c at hcw hmax
  simp only [vector.size] at hfit
  have hst : size_type ((v.end_of_storage_ : Int) - v.finish_) =
      v.end_of_storage_ - v.finish_ := size_type_sub _ _ hfe hcap
  have hfit2 : ¬ n ≤ size_type ((v.end_of_storage_ : Int) - v.finish_) := by
    rw [hst]; exact hfit
  rw [vector.range_insert_forward, if_neg (by omega)]
  simp only [vector.distance, if_pos (le_of_lt hfl), hn, bind, Except.bind, if_neg hfit2,
    hcw, allocate_eq Tp c hmax, uninitialized_copy_overflow _ _ 0 pos _ (by omega)]

/-- C2 (the code breaks it): `2 ^ 31` calls of `push_back(0)` on the empty
vector return and leave a full vector of size `2 ^ 31`.  The next `push_back`
reallocates, and `uninitialized_copy` counts the `2 ^ 31` elements it copies
with `int i`: the step `++i` at `int_max` is undefined, so the run of
`2 ^ 31 + 1` calls does not give a vector of size `2 ^ 31 + 1`. -/
theorem push_back_sequence_overflow :
    ∃ v, vector.push_back_all (vector.default : vector Int) (List.replicate (2 ^ 31) 0) =
        .ok v ∧ v.size = 2 ^ 31 ∧
      v.push_back (.ext 0) = .error .undefined ∧
      vector.push_back_all (vector.default : vector Int) (List.replicate (2 ^ 31) 0 ++ [0]) =
        .error .undefined := by
  obtain ⟨v, e, w, s, c⟩ := push_back_all_pow2 (2 ^ 31) 31 rfl (by decide) (by decide)
  have h := push_back_overflow v 0 w (by rw [s, c]) (by rw [s]; decide) (by rw [s]; decide)
  refine ⟨v, e, s, h, ?_⟩
  rw [push_back_all_append, e]
  simp only [bind, Except.bind, vector.push_back_all, h]

/-- C3 (the code breaks it): after `2 ^ 31` calls of `push_back` on the empty
vector the capacity is `2 ^ 31`.  The call number `2 ^ 31 + 1` has to double it
and is undefined, because `uninitialized_copy` counts the `2 ^ 31` elements
with `int i`: no capacity `2 ^ 32` is reached. -/
theorem push_back_capacity_overflow :
    ∃ v, vector.push_back_all (vector.default : vector Int) (List.replicate (2 ^ 31) 0) =
        .ok v ∧ v.capacity = 2 ^ 31 ∧
      v.push_back (.ext 0) = .error .undefined ∧
      vector.push_back_capacities (vector.default : vector Int)
        (List.replicate (2 ^ 31) 0 ++ [0]) = .error .undefined := by
  obtain ⟨v, e, w, s, c⟩ := push_back_all_pow2 (2 ^ 31) 31 rfl (by decide) (by decide)
  have h := push_back_overflow v 0 w (by rw [s, c]) (by rw [s]; decide) (by rw [s]; decide)
  refine ⟨v, e, c, h, ?_⟩
  apply push_back_capacities_error
  rw [push_back_all_append, e]
  simp only [bind, Except.bind, vector.push_back_all, h]

/-- C6 (the code breaks it): `reserve(2 ^ 31)` and `2 ^ 31` calls of
`push_back(0)` give a full vector of `2 ^ 31` elements.  On it
`insert(begin(), 1)` and `insert(end(), 1)` reallocate and copy `2 ^ 31`
elements in one `uninitialized_copy`, whose `int i` oversteps `int_max`: the
calls are undefined. -/
theorem insert_value_overflow :
    ∃ v, ((vector.default : vector Int).reserve (2 ^ 31) >>= fun a =>
        a.push_back_all (List.replicate (2 ^ 31) 0)) = .ok v ∧
      v.size = 2 ^ 31 ∧ v.capacity = 2 ^ 31 ∧
      v.insert 0 (.ext 1) = .error .undefined ∧
      v.insert (2 ^ 31) (.ext 1) = .error .undefined := by
  obtain ⟨v, e, w, s, c, _⟩ := reserve_push_zeros (2 ^ 31) (by decide) (by decide)
  refine ⟨v, e, s, c, ?_, ?_⟩
  · exact insert_overflow v 0 (.ext 1) (some 1) w (by rw [s, c]) (Nat.zero_le _)
      (by rw [s]; decide) rfl (Or.inr (by rw [s]; decide))
  · exact insert_overflow v (2 ^ 31) (.ext 1) (some 1) w (by rw [s, c]) (by rw [s])
      (by rw [s]; decide) rfl (Or.inl (by decide))

/-- C7 (the code breaks it): `reserve(2 ^ 31 + 1)` and `2 ^ 31 + 1` calls of
`push_back(0)` give a full vector.  On it `insert(begin() + 1, v[0])`
reallocates and copies the `2 ^ 31` elements after the position in one
`uninitialized_copy`, whose `int i` oversteps `int_max`: the call is
undefined. -/
theorem insert_own_first_overflow :
    ∃ v, ((vector.default : vector Int).reserve (2 ^ 31 + 1) >>= fun a =>
        a.push_back_all (List.replicate (2 ^ 31 + 1) 0)) = .ok v ∧
      v.size = 2 ^ 31 + 1 ∧ v.capacity = 2 ^ 31 + 1 ∧ v.index 0 = .ok (some 0) ∧
      v.insert 1 (.own 0) = .error .undefined := by
  obtain ⟨v, e, w, s, c, _, l⟩ := reserve_push_zeros (2 ^ 31 + 1) (by decide) (by decide)
  have hi : v.index 0 = .ok (some 0) := l 0 (by decide)
  refine ⟨v, e, s, c, hi, ?_⟩
  exact insert_overflow v 1 (.own 0) (some 0) w (by rw [s, c]) (by rw [s]; decide)
    (by rw [s]; decide) hi (Or.inr (by rw [s]; decide))

/-- C9 (the code breaks it): on the full vector of `2 ^ 31` elements reached by
`reserve(2 ^ 31)` and `2 ^ 31` calls of `push_back(0)`, the call
`insert(end(), first, last)` with a source range of one element reallocates and
copies the `2 ^ 31` elements before the position in one `uninitialized_copy`,
whose `int i` oversteps `int_max`: the call is undefined. -/
theorem insert_range_overflow :
    ∃ v, ((vector.default : vector Int).reserve (2 ^ 31) >>= fun a =>
        a.push_back_all (List.replicate (2 ^ 31) 0)) = .ok v ∧
      v.size = 2 ^ 31 ∧ v.capacity = 2 ^ 31 ∧
      v.insert_range (2 ^ 31) [some 7] 0 1 = .error .undefined := by
  obtain ⟨v, e, w, s, c, _⟩ := reserve_push_zeros (2 ^ 31) (by decide) (by decide)
  refine ⟨v, e, s, c, ?_⟩
  have h := range_insert_forward_overflow v (2 ^ 31) [some 7] 0 1 w (by decide)
    (by rw [c]; decide) (by rw [s, c]; decide) (by rw [s]; decide) (by decide)
  simp only [vector.insert_range, vector.insert_aux_range, h, bind, Except.bind]

/-- C23 (the code breaks it): on the full vector of `s = 2 ^ 31` elements
reached by `reserve(2 ^ 31)` and `2 ^ 31` calls of `push_back(0)`, both
`push_back(1)` and `insert(end(), 1)` are undefined: the reallocation copies
`2 ^ 31` elements with the `int i` of `uninitialized_copy`, so the call does not
return with the capacity `2 * s`. -/
theorem single_insert_growth_overflow :
    ∃ v, ((vector.default : vector Int).reserve (2 ^ 31) >>= fun a =>
        a.push_back_all (List.replicate (2 ^ 31) 0)) = .ok v ∧
      v.size = 2 ^ 31 ∧ v.size = v.capacity ∧
      v.push_back (.ext 1) = .error .undefined ∧
      v.insert v.end_ (.ext 1) = .error .undefined := by
  obtain ⟨v, e, w, s, c, _⟩ := reserve_push_zeros (2 ^ 31) (by decide) (by decide)
  refine ⟨v, e, s, by rw [s, c], ?_, ?_⟩
  · exact push_back_overflow v 1 w (by rw [s, c]) (by rw [s]; decide) (by rw [s]; decide)
  · exact insert_overflow v v.end_ (.ext 1) (some 1) w (by rw [s, c]) (le_refl _)
      (by rw [s]; decide) rfl (Or.inl (by
        have h : v.end_ = 2 ^ 31 := s
        rw [h]; decide))

/-- C24 (the code breaks it): on the full vector of `s = 2 ^ 31` elements
reached by `reserve(2 ^ 31)` and `2 ^ 31` calls of `push_back(0)`, the call
`insert(end(), first, last)` with a source range of `n = 2` elements has to
grow the vector (`n > c - s = 0`, `s >= n`), and the copy of the `2 ^ 31`
elements oversteps the `int i` of `uninitialized_copy`: the call is undefined
and does not return with the capacity `2 * s`. -/
theorem range_insert_growth_overflow :
    ∃ v, ((vector.default : vector Int).reserve (2 ^ 31) >>= fun a =>
        a.push_back_all (List.replicate (2 ^ 31) 0)) = .ok v ∧
      v.size = 2 ^ 31 ∧ v.capacity = 2 ^ 31 ∧ 2 > v.capacity - v.size ∧ v.size ≥ 2 ∧
      v.insert_range v.end_ [some 7, some 8] 0 2 = .error .undefined := by
  obtain ⟨v, e, w, s, c, _⟩ := reserve_push_zeros (2 ^ 31) (by decide) (by decide)
  have he : v.end_ = 2 ^ 31 := s
  refine ⟨v, e, s, c, by rw [s, c]; decide, by rw [s]; decide, ?_⟩
  have h := range_insert_forward_overflow v v.end_ [some 7, some 8] 0 2 w (by decide)
    (by rw [c]; decide) (by rw [s, c]; decide) (by rw [s]; decide) (by rw [he]; decide)
  simp only [vector.insert_range, vector.insert_aux_range, h, bind, Except.bind]

/-- C25 (the code breaks it): on the full vector of `2 ^ 31` elements reached
by `reserve(2 ^ 31)` and `2 ^ 31` calls of `push_back(0)`, inserting the range
`7` at `end()` is undefined on both paths: the input path calls the single
`insert`, the forward path reallocates itself, and either copies `2 ^ 31`
elements with the `int i` of `uninitialized_copy`. -/
theorem range_insert_paths_overflow :
    ∃ v, ((vector.default : vector Int).reserve (2 ^ 31) >>= fun a =>
        a.push_back_all (List.replicate (2 ^ 31) 0)) = .ok v ∧
      v.size = 2 ^ 31 ∧
      v.range_insert_input (2 ^ 31) [some 7] 0 1 = .error .undefined ∧
      v.range_insert_forward (2 ^ 31) [some 7] 0 1 = .error .undefined := by
  obtain ⟨v, e, w, s, c, _⟩ := reserve_push_zeros (2 ^ 31) (by decide) (by decide)
  refine ⟨v, e, s, ?_, ?_⟩
  · have h := insert_overflow v (2 ^ 31) (.ext 7) (some 7) w (by rw [s, c]) (by rw [s])
      (by rw [s]; decide) rfl (Or.inl (by decide))
    have hl : load ([some 7] : Block Int) 0 = .ok 7 := rfl
    rw [vector.range_insert_input, if_pos (by decide)]
    simp only [Nat.sub_zero, vector.range_insert_input_loop, hl, h, bind, Except.bind]
  · exact range_insert_forward_overflow v (2 ^ 31) [some 7] 0 1 w (by decide)
      (by rw [c]; decide) (by rw [s, c]; decide) (by rw [s]; decide) (by decide)

/-- C15 (the claim fails at): `reserve(max_size() + 1)` on the empty vector of
`int` throws, as `allocate` does for every count above `max_size()`, and does
not return with the capacity `max_size() + 1`. -/
theorem reserve_beyond_max_size :
    (vector.default : vector Int).capacity < new_allocator.max_size Int + 1 ∧
    (vector.default : vector Int).reserve (new_allocator.max_size Int + 1) =
      .error (.thrown "Out-of-memory") ∧
    ¬ ∃ v1, (vector.default : vector Int).reserve (new_allocator.max_size Int + 1) = .ok v1 ∧
      v1.capacity = new_allocator.max_size Int + 1 := by
  have h : (vector.default : vector Int).reserve (new_allocator.max_size Int + 1) =
      .error (.thrown "Out-of-memory") := rfl
  refine ⟨by decide, h, ?_⟩
  rintro ⟨v1, h1, _⟩
  rw [h] at h1
  cases h1

/-- Constructor `vector(const vector&)` in a program, from a vector of more than
`int_max` elements: `uninitialized_copy` oversteps its `int` counter. -/
theorem store_copy_ctor_overflow {Tp : Type} [sizeof Tp] (st : Store Tp) (c : Object)
    (hmax : c.finish_ ≤ new_allocator.max_size Tp) (hbig : int_max < c.finish_) :
    st.copy_ctor c = .error .undefined := by
  simp only [Store.copy_ctor, Store.allocate, allocate_eq Tp c.finish_ hmax, bind, Except.bind,
    pure, Except.pure, Store.uninitialized_copy]
  cases (st ++ [List.replicate c.finish_ (none : Slot Tp)])[c.start_]? with
  | none => rfl
  | some s =>
    cases (st ++ [List.replicate c.finish_ (none : Slot Tp)])[st.length]? with
    | none => rfl
    | some d =>
      simp only [uninitialized_copy_overflow _ _ 0 c.finish_ _ (by omega)]

/-- Function `operator=` on the empty vector from a vector of more than
`int_max` elements: `allocate_and_copy` oversteps the `int` counter of
`uninitialized_copy`. -/
theorem operator_assign_default_overflow {Tp : Type} [sizeof Tp] (b : vector Tp)
    (hmax : b.size ≤ new_allocator.max_size Tp) (hbig : int_max < b.size) :
    (vector.default : vector Tp).operator_assign (.obj b) = .error .undefined := by
  have hg : b.size > (vector.default : vector Tp).capacity := by
    simp only [vector.default, vector.capacity]; omega
  simp only [vector.operator_assign]
  rw [if_pos hg]
  simp only [vector.size] at hmax hbig
  simp only [vector.allocate_and_copy, vector.size, vector.begin_, vector.end_,
    allocate_eq Tp b.finish_ hmax, uninitialized_copy_overflow _ _ 0 b.finish_ _ (by omega),
    bind, Except.bind]

/-- C16 (the code breaks it): the vector `c` reached by `reserve(2 ^ 31)` and
`2 ^ 31` calls of `push_back(0)` is the only object of its store.  The
declaration `vector d = c` allocates `2 ^ 31` slots and copies with
`uninitialized_copy`, whose `int i` oversteps `int_max` at the last element:
the construction is undefined and gives no copy `d`. -/
theorem copy_ctor_overflow :
    ∃ v, ((vector.default : vector Int).reserve (2 ^ 31) >>= fun a =>
        a.push_back_all (List.replicate (2 ^ 31) 0)) = .ok v ∧
      v.size = 2 ^ 31 ∧
      (Object.mk 0 v.finish_ v.end_of_storage_).value [v.block] = .ok v ∧
      Store.copy_ctor [v.block] (Object.mk 0 v.finish_ v.end_of_storage_) =
        .error .undefined := by
  obtain ⟨v, e, w, s, c, _⟩ := reserve_push_zeros (2 ^ 31) (by decide) (by decide)
  have hf : v.finish_ = 2 ^ 31 := s
  refine ⟨v, e, s, rfl, ?_⟩
  exact store_copy_ctor_overflow [v.block] (Object.mk 0 v.finish_ v.end_of_storage_)
    (by simp only []; rw [hf]; decide) (by simp only []; rw [hf]; decide)

/-- C17 (the code breaks it): `b` is the vector reached by `reserve(2 ^ 31)` and
`2 ^ 31` calls of `push_back(0)` and `a` is the empty vector.  The assignment
`a = b` takes the branch that grows `a`, and `allocate_and_copy` copies the
`2 ^ 31` elements with `uninitialized_copy`, whose `int i` oversteps
`int_max`: the call is undefined. -/
theorem operator_assign_overflow :
    ∃ b, ((vector.default : vector Int).reserve (2 ^ 31) >>= fun a =>
        a.push_back_all (List.replicate (2 ^ 31) 0)) = .ok b ∧
      b.size = 2 ^ 31 ∧
      (vector.default : vector Int).operator_assign (.obj b) = .error .undefined := by
  obtain ⟨b, e, w, s, c, _⟩ := reserve_push_zeros (2 ^ 31) (by decide) (by decide)
  exact ⟨b, e, s, operator_assign_default_overflow b (by rw [s]; decide) (by rw [s]; decide)⟩

end mystl
